import Mathlib

/-!
# Verification of the `arithmetic_codec` library

Shallow embedding of `src/arithmetic_codec.c` (Said/FastAC-style byte-oriented
arithmetic coder with adaptive and static data models).  C `unsigned int`
arithmetic is modelled on `Nat` with an explicit `% 2^32` wherever the C
computation can wrap; byte buffers are `List Nat` whose elements are kept
below 256 by the operations themselves.
-/

set_option autoImplicit false

namespace AC

/-- `2^32`, the modulus of C `unsigned int` arithmetic. -/
def U32 : Nat := 4294967296

/-- `AC__MinLength = 0x01000000`: threshold for renormalization. -/
def AC_MinLength : Nat := 16777216

/-- `AC__MaxLength = 0xFFFFFFFF`: maximum AC interval length. -/
def AC_MaxLength : Nat := 4294967295

/-- `DM__LengthShift = 15`: length bits discarded before multiplication. -/
def DM_LengthShift : Nat := 15

/-- `DM__MaxCount = 1 << 15`: rescale threshold for adaptive models. -/
def DM_MaxCount : Nat := 32768

/-- C 32-bit unsigned subtraction `a - b` (two's-complement wraparound);
for `b ≤ a < 2^32` this is plain subtraction. -/
def u32sub (a b : Nat) : Nat := (a + U32 - b % U32) % U32

--------------------------------------------------------------------------------
-- Adaptive data model (struct adaptive_data_model)
--------------------------------------------------------------------------------

/-- `struct adaptive_data_model`.  The three interior pointers of the C
struct (`distribution`, `symbol_count`, `decoder_table`, all views into one
allocation) are modelled as three lists; the spec notes the observable
semantics are on contents, not layout. -/
structure adaptive_data_model where
  distribution : List Nat
  symbol_count : List Nat
  decoder_table : List Nat
  total_count : Nat
  update_cycle : Nat
  symbols_until_update : Nat
  data_symbols : Nat
  last_symbol : Nat
  table_size : Nat
  table_shift : Nat
deriving Repr, DecidableEq

/-- The `table_bits` loop of `adaptive_data_model_set_alphabet` with an
explicit iteration bound (first argument); the loop runs at most `log2 n`
times, so any bound `≥ n` gives exactly the C while-loop. -/
def table_bits_loop : Nat → Nat → Nat → Nat
  | 0, _, tb => tb
  | bound + 1, n, tb =>
    if n > 2 ^ (tb + 2) then table_bits_loop bound n (tb + 1) else tb

/-- `table_bits` of `adaptive_data_model_set_alphabet`:
starting from `tb`, increment while `n > 1 << (table_bits + 2)`. -/
def ac_table_bits (n tb : Nat) : Nat := table_bits_loop n n tb

/-- Cumulative-distribution loop of `adaptive_data_model_update`:
`distribution[k] = (scale * sum) >> (31 - DM__LengthShift)` where `sum`
accumulates the symbol counts.  The C product is on `unsigned int`. -/
def cdf_list (scale : Nat) : List Nat → Nat → List Nat
  | [], _ => []
  | c :: cs, s => (scale * s % U32) >>> (31 - DM_LengthShift) :: cdf_list scale cs (s + c)

/-- Decoder-table entries written by the `while (s < w) decoder_table[++s] = k - 1`
loop, walking `k` over the distribution; `s` is the last index written. -/
def dec_table_entries (shift : Nat) : List Nat → Nat → Nat → List Nat
  | [], _, _ => []
  | d :: ds, k, s =>
    let w := d >>> shift
    List.replicate (w - s) (k - 1) ++ dec_table_entries shift ds (k + 1) (max s w)

/-- The full decoder table: index 0 is forced to `0`, then the walk entries,
then padding with `data_symbols - 1` up to index `table_size + 1`
(the `while (s <= table_size) decoder_table[++s] = data_symbols - 1` loop). -/
def dec_table (shift table_size data_symbols : Nat) (dist : List Nat) : List Nat :=
  let entries := dec_table_entries shift dist 0 0
  0 :: entries ++ List.replicate (table_size + 1 - entries.length) (data_symbols - 1)

/-- `adaptive_data_model_update`.  Counter arithmetic (`total_count`,
`update_cycle`) stays far below `2^32` on all states with
`data_symbols ≤ 2^11` and counts `≤ 2^15`, so it is written without `% U32`;
the `scale * sum` products are taken `% U32` as in C. -/
def adaptive_data_model_update (model : adaptive_data_model) (from_encoder : Bool) :
    adaptive_data_model :=
  let t := model.total_count + model.update_cycle
  let (counts, total) :=
    if t > DM_MaxCount then
      let cs := model.symbol_count.map (fun c => (c + 1) >>> 1)
      (cs, cs.sum)
    else (model.symbol_count, t)
  let scale := 2 ^ 31 / total
  let dist := cdf_list scale counts 0
  let table :=
    if from_encoder || model.table_size = 0 then model.decoder_table
    else dec_table model.table_shift model.table_size model.data_symbols dist
  let cycle0 := (5 * model.update_cycle) >>> 2
  let max_cycle := (model.data_symbols + 6) <<< 3
  let cycle := if cycle0 > max_cycle then max_cycle else cycle0
  { model with
    symbol_count := counts, total_count := total, distribution := dist,
    decoder_table := table, update_cycle := cycle, symbols_until_update := cycle }

/-- `adaptive_data_model_reset`. -/
def adaptive_data_model_reset (model : adaptive_data_model) : adaptive_data_model :=
  if model.data_symbols = 0 then model
  else
    let m1 := { model with
      total_count := 0
      update_cycle := model.data_symbols
      symbol_count := List.replicate model.data_symbols 1 }
    let m2 := adaptive_data_model_update m1 false
    { m2 with
      symbols_until_update := (model.data_symbols + 6) >>> 1
      update_cycle := (model.data_symbols + 6) >>> 1 }

/-- `adaptive_data_model_init` / `adaptive_data_model_set_alphabet` on a fresh
model: compute the table geometry (for `number_of_symbols > 16`) and reset. -/
def adaptive_data_model_init (number_of_symbols : Nat) : adaptive_data_model :=
  let tb := if number_of_symbols > 16 then ac_table_bits number_of_symbols 3 else 0
  adaptive_data_model_reset
    { distribution := [], symbol_count := [], decoder_table := []
      total_count := 0, update_cycle := 0, symbols_until_update := 0
      data_symbols := number_of_symbols
      last_symbol := number_of_symbols - 1
      table_size := if number_of_symbols > 16 then 2 ^ tb else 0
      table_shift := if number_of_symbols > 16 then DM_LengthShift - tb else 0 }

/-- Contract of `adaptive_data_model_set_alphabet`'s assertion:
`number_of_symbols > 1 && number_of_symbols <= (1 << 11)`. -/
def valid_alphabet (number_of_symbols : Nat) : Prop :=
  1 < number_of_symbols ∧ number_of_symbols ≤ 2 ^ 11

--------------------------------------------------------------------------------
-- Static data model (struct static_data_model)
--------------------------------------------------------------------------------

/-- `struct static_data_model`.  The constructor
`static_data_model_set_distribution` builds `distribution` with C `float`
accumulation, which is outside this integer embedding; the coding operations
below work on an arbitrary model state, as the C functions do. -/
structure static_data_model where
  distribution : List Nat
  decoder_table : List Nat
  data_symbols : Nat
  last_symbol : Nat
  table_size : Nat
  table_shift : Nat
deriving Repr, DecidableEq

--------------------------------------------------------------------------------
-- Arithmetic codec state (struct arithmetic_codec)
--------------------------------------------------------------------------------

/-- `struct arithmetic_codec`.  `code_buffer` is the byte buffer,
`ac_pointer` the index of the next byte to write (encoder) or of the byte
most recently read (decoder); `mode`: 0 = idle, 1 = encoder, 2 = decoder. -/
structure arithmetic_codec where
  code_buffer : List Nat
  ac_pointer : Nat
  base : Nat
  value : Nat
  length : Nat
  mode : Nat
deriving Repr, DecidableEq

/-- Store byte `b` at index `i` of the buffer (the encoder always writes at
`i = buf.length`, growing the written region by one byte). -/
def write_byte (buf : List Nat) (i b : Nat) : List Nat :=
  if i < buf.length then buf.set i b else buf ++ [b]

/-- The backward walk of `ac_propagate_carry` on the reversed written
prefix: zero every leading `0xFF`, then increment the first other byte.
(When every byte is `0xFF` the C walk runs off the front of the buffer;
that state is unreachable, see the interval invariant.) -/
def carry_rev : List Nat → List Nat
  | [] => []
  | b :: rest => if b = 255 then 0 :: carry_rev rest else (b + 1) :: rest

/-- `ac_propagate_carry`: add one into the bytes already written
(indices `< ac_pointer`). -/
def ac_propagate_carry (c : arithmetic_codec) : arithmetic_codec :=
  { c with code_buffer :=
      (carry_rev (c.code_buffer.take c.ac_pointer).reverse).reverse ++
        c.code_buffer.drop c.ac_pointer }

/-- The do-while loop of `ac_renorm_enc_interval` on explicit state, with
an explicit bound on the remaining iterations: emit the top byte of `base`,
shift `base` and `length` left by 8, repeat while `length < AC__MinLength`.
The routine is entered with `0 < length < AC__MinLength` and each pass
multiplies `length` by 256, so the body runs at most 3 times and any bound
`≥ 3` gives exactly the C loop; on `length = 0` the C loop does not
terminate. -/
def renorm_enc_loop : Nat → List Nat → Nat → Nat → Nat → List Nat × Nat × Nat × Nat
  | 0, buf, p, base, len =>
    (write_byte buf p (base >>> 24), p + 1, (base <<< 8) % U32, (len <<< 8) % U32)
  | bound + 1, buf, p, base, len =>
    let buf' := write_byte buf p (base >>> 24)
    let base' := (base <<< 8) % U32
    let len' := (len <<< 8) % U32
    if len' < AC_MinLength then renorm_enc_loop bound buf' (p + 1) base' len'
    else (buf', p + 1, base', len')

/-- `ac_renorm_enc_interval`. -/
def ac_renorm_enc_interval (c : arithmetic_codec) : arithmetic_codec :=
  let r := renorm_enc_loop 24 c.code_buffer c.ac_pointer c.base c.length
  { c with code_buffer := r.1, ac_pointer := r.2.1, base := r.2.2.1, length := r.2.2.2 }

/-- The do-while loop of `ac_renorm_dec_interval`: pre-increment
`ac_pointer`, shift the next byte into `value` (`(value << 8) | byte`; the
low 8 bits of the shifted `value` are zero, so the C bitwise-or is
addition), shift `length` left by 8, repeat while `length < AC__MinLength`.
Reads past the end of the buffer yield 0.  Same iteration bound as
`renorm_enc_loop`. -/
def renorm_dec_loop : Nat → List Nat → Nat → Nat → Nat → Nat × Nat × Nat
  | 0, buf, p, value, len =>
    (p + 1, (value <<< 8) % U32 + buf.getD (p + 1) 0, (len <<< 8) % U32)
  | bound + 1, buf, p, value, len =>
    let p' := p + 1
    let value' := (value <<< 8) % U32 + buf.getD p' 0
    let len' := (len <<< 8) % U32
    if len' < AC_MinLength then renorm_dec_loop bound buf p' value' len'
    else (p', value', len')

/-- `ac_renorm_dec_interval`. -/
def ac_renorm_dec_interval (c : arithmetic_codec) : arithmetic_codec :=
  let r := renorm_dec_loop 24 c.code_buffer c.ac_pointer c.value c.length
  { c with ac_pointer := r.1, value := r.2.1, length := r.2.2 }

/-- `ac_start_encoder` (on a codec whose written region is empty). -/
def ac_start_encoder (c : arithmetic_codec) : arithmetic_codec :=
  { c with mode := 1, base := 0, length := AC_MaxLength, ac_pointer := 0 }

/-- `ac_start_decoder`: read the first four bytes big-endian into `value`,
park `ac_pointer` on index 3. -/
def ac_start_decoder (c : arithmetic_codec) : arithmetic_codec :=
  let v := c.code_buffer.getD 0 0 * 2 ^ 24 + c.code_buffer.getD 1 0 * 2 ^ 16 +
    c.code_buffer.getD 2 0 * 2 ^ 8 + c.code_buffer.getD 3 0
  { c with mode := 2, length := AC_MaxLength, ac_pointer := 3, value := v }

/-- `ac_stop_encoder`: returns the byte count and the final codec state. -/
def ac_stop_encoder (c : arithmetic_codec) : Nat × arithmetic_codec :=
  let c0 := { c with mode := 0 }
  let init_base := c0.base
  let c1 :=
    if c0.length > 2 * AC_MinLength then
      { c0 with base := (c0.base + AC_MinLength) % U32, length := AC_MinLength >>> 1 }
    else
      { c0 with base := (c0.base + AC_MinLength >>> 1) % U32, length := AC_MinLength >>> 9 }
  let c2 := if init_base > c1.base then ac_propagate_carry c1 else c1
  let c3 := ac_renorm_enc_interval c2
  (c3.ac_pointer, c3)

/-- `ac_stop_decoder`. -/
def ac_stop_decoder (c : arithmetic_codec) : arithmetic_codec :=
  { c with mode := 0 }

/-- The tail every encoder narrowing operation repeats verbatim in C:
`if (init_base > codec->base) ac_propagate_carry(codec);` followed by
`if (codec->length < AC__MinLength) ac_renorm_enc_interval(codec);`.
`w` is the carry condition (`False` when the operation performed no
addition, as in `ac_put_bit` with a zero bit). -/
def narrow_tail (c1 : arithmetic_codec) (w : Prop) [Decidable w] : arithmetic_codec :=
  let c2 := if w then ac_propagate_carry c1 else c1
  if c2.length < AC_MinLength then ac_renorm_enc_interval c2 else c2

/-- `ac_put_bit`. -/
def ac_put_bit (c : arithmetic_codec) (bit : Nat) : arithmetic_codec :=
  let len := c.length >>> 1
  if bit ≠ 0 then
    let base' := (c.base + len) % U32
    narrow_tail { c with base := base', length := len } (c.base > base')
  else
    narrow_tail { c with length := len } False

/-- `ac_get_bit`: returns the decoded bit and the new codec state. -/
def ac_get_bit (c : arithmetic_codec) : Nat × arithmetic_codec :=
  let len := c.length >>> 1
  let bit := if c.value ≥ len then 1 else 0
  let c1 := { c with length := len, value := if c.value ≥ len then c.value - len else c.value }
  let c2 := if c1.length < AC_MinLength then ac_renorm_dec_interval c1 else c1
  (bit, c2)

/-- `ac_put_bits`. -/
def ac_put_bits (c : arithmetic_codec) (data number_of_bits : Nat) : arithmetic_codec :=
  let len := c.length >>> number_of_bits
  let base' := (c.base + data * len % U32) % U32
  narrow_tail { c with base := base', length := len } (c.base > base')

/-- `ac_get_bits`: returns the decoded datum and the new codec state. -/
def ac_get_bits (c : arithmetic_codec) (number_of_bits : Nat) : Nat × arithmetic_codec :=
  let len := c.length >>> number_of_bits
  let s := c.value / len
  let c1 := { c with value := c.value - len * s, length := len }
  let c2 := if c1.length < AC_MinLength then ac_renorm_dec_interval c1 else c1
  (s, c2)

/-- The while-bisection shared by the table branch of `ac_decode_adaptive`
and `ac_decode_static`, with an explicit bound on remaining iterations:
narrow `[s, n)` while `n > s + 1`, comparing `distribution[m]` against the
scaled decode value `dv`.  Every pass shrinks `n - s` by at least one, so
a bound `≥ n - s` gives exactly the C loop on all inputs. -/
def bisect_loop : Nat → List Nat → Nat → Nat → Nat → Nat
  | 0, _, _, s, _ => s
  | bound + 1, dist, dv, s, n =>
    if n > s + 1 then
      let m := (s + n) >>> 1
      if dist.getD m 0 > dv then bisect_loop bound dist dv s m
      else bisect_loop bound dist dv m n
    else s

/-- The table-branch bisection entered with bracket `[s, n)`. -/
def ac_bisect (dist : List Nat) (dv s n : Nat) : Nat :=
  bisect_loop (n - s) dist dv s n

/-- The do-while bisection of the no-table branch of `ac_decode_adaptive` /
`ac_decode_static`, with an explicit bound on remaining iterations: probe
`m = (s + n) >> 1`, set `z = length * distribution[m]`, move `n,y` down or
`s,x` up, and continue while `(s + n) >> 1 ≠ s`.  Returns `(s, x, y)`.
While `s < n` every pass shrinks `n - s` by at least one before the
continuation test can succeed, so a bound `≥ n - s` gives exactly the C
loop; on `s ≥ n` the C loop need not terminate. -/
def bisect2_loop : Nat → List Nat → Nat → Nat → Nat → Nat → Nat → Nat →
    Nat × Nat × Nat
  | 0, dist, len, value, s, n, x, y =>
    let m := (s + n) >>> 1
    let z := len * dist.getD m 0 % U32
    (match if z > value then (s, m, x, z) else (m, n, z, y) with
     | (s', _, x', y') => (s', x', y'))
  | bound + 1, dist, len, value, s, n, x, y =>
    let m := (s + n) >>> 1
    let z := len * dist.getD m 0 % U32
    match if z > value then (s, m, x, z) else (m, n, z, y) with
    | (s', n', x', y') =>
      if (s' + n') >>> 1 ≠ s' then bisect2_loop bound dist len value s' n' x' y'
      else (s', x', y')

/-- The no-table bisection entered with `s = 0`, `n = data_symbols`,
`x = 0`, `y` the pre-shift `length`. -/
def ac_bisect2 (dist : List Nat) (len value s n x y : Nat) : Nat × Nat × Nat :=
  bisect2_loop (n - s) dist len value s n x y

/-- `ac_encode_adaptive`: code one symbol against an adaptive model, then
update the model (count increment, countdown, possible rebuild with
`from_encoder = 1`).  The C post-decrement of `symbols_until_update` is on
`unsigned int`; on every model state produced by reset/update the countdown
is at least 1, matching `Nat` truncated subtraction. -/
def ac_encode_adaptive (c : arithmetic_codec) (data : Nat)
    (model : adaptive_data_model) : arithmetic_codec × adaptive_data_model :=
  let init_base := c.base
  let c1 :=
    if data = model.last_symbol then
      let x := model.distribution.getD data 0 * (c.length >>> DM_LengthShift) % U32
      { c with base := (c.base + x) % U32, length := u32sub c.length x }
    else
      let len := c.length >>> DM_LengthShift
      let x := model.distribution.getD data 0 * len % U32
      { c with base := (c.base + x) % U32,
               length := u32sub (model.distribution.getD (data + 1) 0 * len % U32) x }
  let c3 := narrow_tail c1 (init_base > c1.base)
  let m1 := { model with
    symbol_count := model.symbol_count.set data (model.symbol_count.getD data 0 + 1)
    symbols_until_update := model.symbols_until_update - 1 }
  let m2 := if m1.symbols_until_update = 0 then adaptive_data_model_update m1 true else m1
  (c3, m2)

/-- `ac_decode_adaptive`: decode one symbol, then update the model
(`from_encoder = 0`).  Returns the symbol and the new states. -/
def ac_decode_adaptive (c : arithmetic_codec) (model : adaptive_data_model) :
    Nat × arithmetic_codec × adaptive_data_model :=
  let y0 := c.length
  let r :=
    if model.decoder_table ≠ [] then
      -- table look-up branch
      let len := c.length >>> DM_LengthShift
      let dv := c.value / len
      let t := dv >>> model.table_shift
      let s := ac_bisect model.distribution dv (model.decoder_table.getD t 0)
        (model.decoder_table.getD (t + 1) 0 + 1)
      let x := model.distribution.getD s 0 * len % U32
      let y := if s ≠ model.last_symbol then model.distribution.getD (s + 1) 0 * len % U32
        else y0
      (s, x, y)
    else
      -- bisection-only branch
      let len := c.length >>> DM_LengthShift
      ac_bisect2 model.distribution len c.value 0 model.data_symbols 0 y0
  match r with
  | (s, x, y) =>
    let c1 := { c with value := u32sub c.value x, length := u32sub y x }
    let c2 := if c1.length < AC_MinLength then ac_renorm_dec_interval c1 else c1
    let m1 := { model with
      symbol_count := model.symbol_count.set s (model.symbol_count.getD s 0 + 1)
      symbols_until_update := model.symbols_until_update - 1 }
    let m2 := if m1.symbols_until_update = 0 then adaptive_data_model_update m1 false
      else m1
    (s, c2, m2)

/-- `ac_encode_static`: identical interval arithmetic to `ac_encode_adaptive`
but the model is not mutated. -/
def ac_encode_static (c : arithmetic_codec) (data : Nat)
    (model : static_data_model) : arithmetic_codec :=
  let init_base := c.base
  let c1 :=
    if data = model.last_symbol then
      let x := model.distribution.getD data 0 * (c.length >>> DM_LengthShift) % U32
      { c with base := (c.base + x) % U32, length := u32sub c.length x }
    else
      let len := c.length >>> DM_LengthShift
      let x := model.distribution.getD data 0 * len % U32
      { c with base := (c.base + x) % U32,
               length := u32sub (model.distribution.getD (data + 1) 0 * len % U32) x }
  narrow_tail c1 (init_base > c1.base)

/-- `ac_decode_static`: identical interval arithmetic to `ac_decode_adaptive`
but the model is not mutated. -/
def ac_decode_static (c : arithmetic_codec) (model : static_data_model) :
    Nat × arithmetic_codec :=
  let y0 := c.length
  let r :=
    if model.decoder_table ≠ [] then
      let len := c.length >>> DM_LengthShift
      let dv := c.value / len
      let t := dv >>> model.table_shift
      let s := ac_bisect model.distribution dv (model.decoder_table.getD t 0)
        (model.decoder_table.getD (t + 1) 0 + 1)
      let x := model.distribution.getD s 0 * len % U32
      let y := if s ≠ model.last_symbol then model.distribution.getD (s + 1) 0 * len % U32
        else y0
      (s, x, y)
    else
      let len := c.length >>> DM_LengthShift
      ac_bisect2 model.distribution len c.value 0 model.data_symbols 0 y0
  match r with
  | (s, x, y) =>
    let c1 := { c with value := u32sub c.value x, length := u32sub y x }
    let c2 := if c1.length < AC_MinLength then ac_renorm_dec_interval c1 else c1
    (s, c2)

--------------------------------------------------------------------------------
-- Whole-sequence encode / decode sessions
--------------------------------------------------------------------------------

/-- Encode a list of symbols with `ac_encode_adaptive`. -/
def encode_adaptive_list (c : arithmetic_codec) (model : adaptive_data_model) :
    List Nat → arithmetic_codec × adaptive_data_model
  | [] => (c, model)
  | s :: rest =>
    match ac_encode_adaptive c s model with
    | (c', model') => encode_adaptive_list c' model' rest

/-- Decode `n` symbols with `ac_decode_adaptive`. -/
def decode_adaptive_list (c : arithmetic_codec) (model : adaptive_data_model) :
    Nat → List Nat × arithmetic_codec × adaptive_data_model
  | 0 => ([], c, model)
  | n + 1 =>
    match ac_decode_adaptive c model with
    | (s, c', model') =>
      match decode_adaptive_list c' model' n with
      | (rest, fin) => (s :: rest, fin)

/-- A fresh codec holding the byte list `buf`. -/
def codec_on (buf : List Nat) : arithmetic_codec :=
  { code_buffer := buf, ac_pointer := 0, base := 0, value := 0, length := 0, mode := 0 }

/-- The complete adaptive encoding session of claim C2-style traces:
fresh codec, fresh model of the given alphabet size, encode the symbols,
stop the encoder.  Returns the byte count and the written bytes. -/
def adaptive_session_encode (number_of_symbols : Nat) (s : List Nat) : Nat × List Nat :=
  match encode_adaptive_list (ac_start_encoder (codec_on []))
      (adaptive_data_model_init number_of_symbols) s with
  | (c, _) =>
    match ac_stop_encoder c with
    | (bytes, c') => (bytes, c'.code_buffer)

/-- The complete adaptive decoding session: decoder on the byte list with a
freshly reset model, decoding `n` symbols. -/
def adaptive_session_decode (number_of_symbols : Nat) (buf : List Nat) (n : Nat) :
    List Nat :=
  match decode_adaptive_list (ac_start_decoder (codec_on buf))
      (adaptive_data_model_init number_of_symbols) n with
  | (out, _) => out

/-- Assertion contract of `ac_put_bits`. -/
def ac_put_bits_pre (c : arithmetic_codec) (data number_of_bits : Nat) : Prop :=
  c.mode = 1 ∧ 0 < number_of_bits ∧ number_of_bits < 21 ∧ data < 2 ^ number_of_bits

/-- Assertion contract of `ac_get_bits`. -/
def ac_get_bits_pre (c : arithmetic_codec) (number_of_bits : Nat) : Prop :=
  c.mode = 2 ∧ 0 < number_of_bits ∧ number_of_bits < 21

instance (c : arithmetic_codec) (d k : Nat) : Decidable (ac_put_bits_pre c d k) := by
  unfold ac_put_bits_pre; infer_instance

instance (c : arithmetic_codec) (k : Nat) : Decidable (ac_get_bits_pre c k) := by
  unfold ac_get_bits_pre; infer_instance

/-- `ac_put_bits` with its assertions modelled as a fallible contract check. -/
def ac_put_bits_checked (c : arithmetic_codec) (data number_of_bits : Nat) :
    Option arithmetic_codec :=
  if ac_put_bits_pre c data number_of_bits then some (ac_put_bits c data number_of_bits)
  else none

/-- `ac_get_bits` with its assertions modelled as a fallible contract check. -/
def ac_get_bits_checked (c : arithmetic_codec) (number_of_bits : Nat) :
    Option (Nat × arithmetic_codec) :=
  if ac_get_bits_pre c number_of_bits then some (ac_get_bits c number_of_bits)
  else none

--------------------------------------------------------------------------------
-- Byte-stream denotation and helper lemmas
--------------------------------------------------------------------------------

/-- Little-endian value of a byte list (index 0 is the least significant). -/
def leVal : List Nat → Nat
  | [] => 0
  | b :: rest => b + 256 * leVal rest

/-- Big-endian value of a byte list, as written in the code buffer. -/
def beVal (l : List Nat) : Nat := leVal l.reverse

theorem leVal_append (l₁ l₂ : List Nat) :
    leVal (l₁ ++ l₂) = leVal l₁ + 256 ^ l₁.length * leVal l₂ := by
  induction l₁ with
  | nil => simp [leVal]
  | cons b rest ih => simp [leVal, ih, pow_succ]; ring

theorem beVal_append_byte (l : List Nat) (b : Nat) :
    beVal (l ++ [b]) = 256 * beVal l + b := by
  simp [beVal, leVal]
  omega

theorem beVal_nil : beVal [] = 0 := rfl

/-- A list of bytes `< 256` has big-endian value `< 256^length`. -/
theorem beVal_lt (l : List Nat) (h : ∀ b ∈ l, b < 256) :
    beVal l < 256 ^ l.length := by
  induction l using List.reverseRecOn with
  | nil => simp [beVal, leVal]
  | append_singleton l b ih =>
    have hb : b < 256 := h b (by simp)
    have hl : beVal l < 256 ^ l.length := ih (fun x hx => h x (by simp [hx]))
    rw [beVal_append_byte]
    calc 256 * beVal l + b < 256 * beVal l + 256 := by omega
    _ = 256 * (beVal l + 1) := by ring
    _ ≤ 256 * 256 ^ l.length := by
        have : beVal l + 1 ≤ 256 ^ l.length := hl
        omega
    _ = 256 ^ (l ++ [b]).length := by simp [pow_succ]; ring

/-- If the big-endian value is not the all-`0xFF` maximum, some byte is
below `0xFF`. -/
theorem exists_non_ff (l : List Nat) (h : ∀ b ∈ l, b < 256)
    (hv : beVal l + 1 < 256 ^ l.length) : ∃ b ∈ l, b ≠ 255 := by
  induction l using List.reverseRecOn with
  | nil => simp [beVal, leVal] at hv
  | append_singleton l b ih =>
    by_cases hb : b = 255
    · subst hb
      have hl : beVal l + 1 < 256 ^ l.length := by
        rw [beVal_append_byte] at hv
        simp only [List.length_append, List.length_singleton, pow_succ] at hv
        omega
      obtain ⟨x, hx, hxne⟩ := ih (fun x hx => h x (by simp [hx])) hl
      exact ⟨x, by simp [hx], hxne⟩
    · exact ⟨b, by simp, hb⟩

/-- The carry walk adds exactly one to the little-endian value of the
reversed prefix, given bytes `< 256` and at least one byte `≠ 0xFF`. -/
theorem leVal_carry_rev (l : List Nat) (h : ∀ b ∈ l, b < 256)
    (hne : ∃ b ∈ l, b ≠ 255) : leVal (carry_rev l) = leVal l + 1 := by
  induction l with
  | nil => simp at hne
  | cons b rest ih =>
    by_cases hb : b = 255
    · subst hb
      have hrest : ∃ x ∈ rest, x ≠ 255 := by
        obtain ⟨x, hx, hxne⟩ := hne
        rcases List.mem_cons.mp hx with rfl | hx
        · exact absurd rfl hxne
        · exact ⟨x, hx, hxne⟩
      simp only [carry_rev, if_pos rfl, leVal]
      rw [ih (fun x hx => h x (by simp [hx])) hrest]
      ring
    · simp [carry_rev, hb, leVal]
      omega

theorem carry_rev_length (l : List Nat) : (carry_rev l).length = l.length := by
  induction l with
  | nil => rfl
  | cons b rest ih =>
    by_cases hb : b = 255 <;> simp [carry_rev, hb, ih]

theorem carry_rev_bytes_lt (l : List Nat) (h : ∀ b ∈ l, b < 256) :
    ∀ b ∈ carry_rev l, b < 256 := by
  induction l with
  | nil => simp [carry_rev]
  | cons b rest ih =>
    by_cases hb : b = 255
    · subst hb
      simp only [carry_rev, if_pos rfl]
      intro x hx
      rcases List.mem_cons.mp hx with rfl | hx
      · omega
      · exact ih (fun y hy => h y (by simp [hy])) x hx
    · have hblt : b < 255 := by
        have := h b (by simp)
        omega
      simp only [carry_rev, if_neg hb]
      intro x hx
      rcases List.mem_cons.mp hx with rfl | hx
      · omega
      · exact h x (by simp [hx])

/-- `ac_propagate_carry` on a codec whose pointer sits at the end of the
written bytes: the buffer keeps its length and bytes bounds, and its
big-endian value goes up by one. -/
theorem propagate_carry_spec (c : arithmetic_codec)
    (hp : c.ac_pointer = c.code_buffer.length)
    (hb : ∀ b ∈ c.code_buffer, b < 256)
    (hne : ∃ b ∈ c.code_buffer, b ≠ 255) :
    (ac_propagate_carry c).code_buffer.length = c.code_buffer.length ∧
    (∀ b ∈ (ac_propagate_carry c).code_buffer, b < 256) ∧
    beVal (ac_propagate_carry c).code_buffer = beVal c.code_buffer + 1 ∧
    (ac_propagate_carry c).ac_pointer = c.ac_pointer ∧
    (ac_propagate_carry c).base = c.base ∧
    (ac_propagate_carry c).value = c.value ∧
    (ac_propagate_carry c).length = c.length ∧
    (ac_propagate_carry c).mode = c.mode := by
  have htake : c.code_buffer.take c.ac_pointer = c.code_buffer := by
    rw [hp]; simp
  have hdrop : c.code_buffer.drop c.ac_pointer = [] := by
    rw [hp]; simp
  have hrev : ∀ b ∈ c.code_buffer.reverse, b < 256 := by
    intro b hbm; exact hb b (List.mem_reverse.mp hbm)
  have hrevne : ∃ b ∈ c.code_buffer.reverse, b ≠ 255 := by
    obtain ⟨x, hx, hxne⟩ := hne
    exact ⟨x, List.mem_reverse.mpr hx, hxne⟩
  refine ⟨?_, ?_, ?_, rfl, rfl, rfl, rfl, rfl⟩
  · simp [ac_propagate_carry, htake, hdrop, carry_rev_length]
  · simp only [ac_propagate_carry, htake, hdrop, List.append_nil]
    intro b hbm
    exact carry_rev_bytes_lt _ hrev b (List.mem_reverse.mp hbm)
  · simp only [ac_propagate_carry, htake, hdrop, List.append_nil, beVal,
      List.reverse_reverse]
    exact leVal_carry_rev _ hrev hrevne

/-- The encoder's wraparound test `init_base > base` detects exactly the
32-bit overflow of the addition. -/
theorem wrap_iff (a x : Nat) (ha : a < U32) (hx : x < U32) :
    (a + x) % U32 < a ↔ U32 ≤ a + x := by
  unfold U32 at *
  omega

/-- The encoder renormalization only appends bytes: the written prefix
survives unchanged and the pointer tracks the buffer length. -/
theorem renorm_enc_loop_take (bound : Nat) :
    ∀ (buf : List Nat) (base len : Nat),
    (renorm_enc_loop bound buf buf.length base len).1.take buf.length = buf ∧
    (renorm_enc_loop bound buf buf.length base len).2.1 =
      (renorm_enc_loop bound buf buf.length base len).1.length := by
  induction bound with
  | zero =>
    intro buf base len
    simp [renorm_enc_loop, write_byte]
  | succ bound ih =>
    intro buf base len
    rw [renorm_enc_loop]
    simp only [write_byte, lt_irrefl, if_false]
    split
    · have h1 := ih (buf ++ [base >>> 24]) ((base <<< 8) % U32) ((len <<< 8) % U32)
      simp only [List.length_append, List.length_singleton] at h1
      constructor
      · have h2 : List.take buf.length
            (renorm_enc_loop bound (buf ++ [base >>> 24]) (buf.length + 1)
              ((base <<< 8) % U32) ((len <<< 8) % U32)).1 =
            List.take buf.length (List.take (buf.length + 1)
              (renorm_enc_loop bound (buf ++ [base >>> 24]) (buf.length + 1)
                ((base <<< 8) % U32) ((len <<< 8) % U32)).1) := by
          rw [List.take_take]
          congr 1
          omega
        rw [h2, h1.1]
        simp
      · exact h1.2
    · simp

/-- `ac_renorm_enc_interval` preserves the already-written prefix. -/
theorem renorm_interval_take (d : arithmetic_codec)
    (hd : d.ac_pointer = d.code_buffer.length) (n : Nat)
    (hn : n = d.code_buffer.length) :
    (ac_renorm_enc_interval d).code_buffer.take n = d.code_buffer := by
  simp only [ac_renorm_enc_interval]
  rw [hn, hd]
  exact (renorm_enc_loop_take 24 d.code_buffer d.base d.length).1

/-- Common tail of every encoder narrowing operation: optional carry, then
optional renormalization.  On a state whose pointer sits at the end of the
written bytes, with a byte `< 0xFF` somewhere, the written prefix's
big-endian value gains exactly 1 when the carry branch is taken and is
unchanged otherwise. -/
theorem narrow_carry_renorm_prefix (c1 : arithmetic_codec) (w q : Prop)
    [Decidable w] [Decidable q]
    (hp : c1.ac_pointer = c1.code_buffer.length)
    (hb : ∀ b ∈ c1.code_buffer, b < 256)
    (hne : ∃ b ∈ c1.code_buffer, b ≠ 255) :
    beVal ((if q then
        ac_renorm_enc_interval (if w then ac_propagate_carry c1 else c1)
      else (if w then ac_propagate_carry c1 else c1)).code_buffer.take
        c1.code_buffer.length) =
      beVal c1.code_buffer + (if w then 1 else 0) := by
  have hcarry := propagate_carry_spec c1 hp hb hne
  by_cases hw : w
  · simp only [if_pos hw]
    have hlen2 : (ac_propagate_carry c1).code_buffer.length = c1.code_buffer.length :=
      hcarry.1
    have hp2 : (ac_propagate_carry c1).ac_pointer =
        (ac_propagate_carry c1).code_buffer.length := by
      rw [hlen2, hcarry.2.2.2.1, hp]
    by_cases hq : q
    · simp only [if_pos hq]
      rw [renorm_interval_take (ac_propagate_carry c1) hp2 _ hlen2.symm, hcarry.2.2.1]
    · simp only [if_neg hq]
      rw [← hlen2, List.take_length, hcarry.2.2.1]
  · simp only [if_neg hw]
    by_cases hq : q
    · simp only [if_pos hq]
      rw [renorm_interval_take c1 hp _ rfl]
      omega
    · simp only [if_neg hq, List.take_length]
      omega

/-- `ac_propagate_carry` changes no codec register and, when the pointer is
within the buffer, no buffer length. -/
theorem propagate_carry_fields (c : arithmetic_codec)
    (h : c.ac_pointer ≤ c.code_buffer.length) :
    (ac_propagate_carry c).code_buffer.length = c.code_buffer.length ∧
    (ac_propagate_carry c).ac_pointer = c.ac_pointer ∧
    (ac_propagate_carry c).base = c.base ∧
    (ac_propagate_carry c).length = c.length := by
  refine ⟨?_, rfl, rfl, rfl⟩
  simp [ac_propagate_carry, carry_rev_length]
  omega

/-- One pass of the encoder renormalization when entered with
`length = AC__MinLength >> 1` (the `ac_stop_encoder` one-trailing-byte
case). -/
theorem renorm_loop_min_half (buf : List Nat) (p base : Nat) (hp : p = buf.length) :
    renorm_enc_loop 24 buf p base (AC_MinLength >>> 1) =
      (buf ++ [base >>> 24], p + 1, (base <<< 8) % U32,
        ((AC_MinLength >>> 1) <<< 8) % U32) := by
  subst hp
  rw [renorm_enc_loop]
  rw [if_neg (by decide)]
  simp [write_byte]

/-- Two passes of the encoder renormalization when entered with
`length = AC__MinLength >> 9` (the `ac_stop_encoder` two-trailing-byte
case). -/
theorem renorm_loop_min_ninth (buf : List Nat) (p base : Nat) (hp : p = buf.length) :
    renorm_enc_loop 24 buf p base (AC_MinLength >>> 9) =
      (buf ++ [base >>> 24] ++ [((base <<< 8) % U32) >>> 24], p + 2,
        (((base <<< 8) % U32) <<< 8) % U32,
        ((((AC_MinLength >>> 9) <<< 8) % U32) <<< 8) % U32) := by
  subst hp
  rw [renorm_enc_loop]
  rw [if_pos (by decide)]
  have hwb : write_byte buf buf.length (base >>> 24) = buf ++ [base >>> 24] := by
    simp [write_byte]
  rw [hwb]
  rw [renorm_enc_loop]
  rw [if_neg (by decide)]
  have hwb2 : write_byte (buf ++ [base >>> 24]) (buf.length + 1)
      (((base <<< 8) % U32) >>> 24) =
      buf ++ [base >>> 24] ++ [((base <<< 8) % U32) >>> 24] := by
    simp [write_byte]
  rw [hwb2]

/-- Variant of `narrow_carry_renorm_prefix` for `ac_stop_encoder`, whose
final renormalization is unconditional. -/
theorem narrow_carry_renorm_always (c1 : arithmetic_codec) (w : Prop) [Decidable w]
    (hp : c1.ac_pointer = c1.code_buffer.length)
    (hb : ∀ b ∈ c1.code_buffer, b < 256)
    (hne : ∃ b ∈ c1.code_buffer, b ≠ 255) :
    beVal ((ac_renorm_enc_interval
        (if w then ac_propagate_carry c1 else c1)).code_buffer.take
          c1.code_buffer.length) =
      beVal c1.code_buffer + (if w then 1 else 0) := by
  have h := narrow_carry_renorm_prefix c1 w True hp hb hne
  simpa using h

/-- `narrow_tail` preserves the length-`|buf|` written prefix up to the
carry, which adds exactly one to its big-endian value. -/
theorem narrow_tail_keeps_front (c1 : arithmetic_codec) (w : Prop) [Decidable w]
    (buf : List Nat) (hbuf : c1.code_buffer = buf)
    (hp : c1.ac_pointer = buf.length)
    (hb : ∀ b ∈ buf, b < 256) (hne : ∃ b ∈ buf, b ≠ 255) :
    beVal ((narrow_tail c1 w).code_buffer.take buf.length) =
      beVal buf + (if w then 1 else 0) := by
  subst hbuf
  exact narrow_carry_renorm_prefix c1 w _ hp hb hne

/-- Same as `narrow_tail_keeps_front` for the unconditional renormalization of
`ac_stop_encoder`. -/
theorem stop_tail_keeps_front (c1 : arithmetic_codec) (w : Prop) [Decidable w]
    (buf : List Nat) (hbuf : c1.code_buffer = buf)
    (hp : c1.ac_pointer = buf.length)
    (hb : ∀ b ∈ buf, b < 256) (hne : ∃ b ∈ buf, b ≠ 255) :
    beVal ((ac_renorm_enc_interval
        (if w then ac_propagate_carry c1 else c1)).code_buffer.take buf.length) =
      beVal buf + (if w then 1 else 0) := by
  subst hbuf
  exact narrow_carry_renorm_always c1 w hp hb hne

/-- `narrow_tail` only depends on the truth of its carry condition. -/
theorem narrow_tail_congr (c1 : arithmetic_codec) (w w' : Prop)
    [Decidable w] [Decidable w'] (h : w ↔ w') :
    narrow_tail c1 w = narrow_tail c1 w' := by
  by_cases hw : w
  · simp only [narrow_tail, if_pos hw, if_pos (h.mp hw)]
  · simp only [narrow_tail, if_neg hw, if_neg (fun hw' => hw (h.mpr hw'))]

--------------------------------------------------------------------------------
-- C10: decoding never writes the compressed buffer
--------------------------------------------------------------------------------

theorem renorm_dec_interval_code_buffer (c : arithmetic_codec) :
    (ac_renorm_dec_interval c).code_buffer = c.code_buffer := rfl

/-- C10: every decoder-mode operation (`ac_get_bit`, `ac_get_bits`,
`ac_decode_adaptive`, `ac_decode_static`, `ac_stop_decoder`, and the decoder
renormalization they invoke) leaves the contents of `code_buffer`
byte-for-byte unchanged. -/
theorem decoder_ops_leave_buffer (c : arithmetic_codec) (am : adaptive_data_model)
    (sm : static_data_model) (k : Nat) :
    (ac_get_bit c).2.code_buffer = c.code_buffer ∧
    (ac_get_bits c k).2.code_buffer = c.code_buffer ∧
    (ac_decode_adaptive c am).2.1.code_buffer = c.code_buffer ∧
    (ac_decode_static c sm).2.code_buffer = c.code_buffer ∧
    (ac_stop_decoder c).code_buffer = c.code_buffer ∧
    (ac_renorm_dec_interval c).code_buffer = c.code_buffer := by
  refine ⟨?_, ?_, ?_, ?_, rfl, rfl⟩
  · simp only [ac_get_bit]
    split <;> rfl
  · simp only [ac_get_bits]
    split <;> rfl
  · simp only [ac_decode_adaptive]
    repeat' split
    all_goals rfl
  · simp only [ac_decode_static]
    repeat' split
    all_goals rfl

--------------------------------------------------------------------------------
-- C9: raw-bits assertion contracts
--------------------------------------------------------------------------------

/-- C9: `ac_put_bits`/`ac_get_bits` with `number_of_bits = 0` or `≥ 21`, or
`ac_put_bits` with `data ≥ 2^number_of_bits`, fail their assertion contract;
calls with `1 ≤ number_of_bits ≤ 20` (and in-range data) in the correct
mode pass it and complete. -/
theorem raw_bits_contract (c : arithmetic_codec) (data k : Nat) :
    ((k = 0 ∨ 21 ≤ k ∨ 2 ^ k ≤ data) → ac_put_bits_checked c data k = none) ∧
    ((k = 0 ∨ 21 ≤ k) → ac_get_bits_checked c k = none) ∧
    (c.mode = 1 → 1 ≤ k → k ≤ 20 → data < 2 ^ k →
      ac_put_bits_checked c data k = some (ac_put_bits c data k)) ∧
    (c.mode = 2 → 1 ≤ k → k ≤ 20 →
      ac_get_bits_checked c k = some (ac_get_bits c k)) := by
  refine ⟨?_, ?_, ?_, ?_⟩
  · intro h
    rw [ac_put_bits_checked, if_neg]
    intro ⟨_, h1, h2, h3⟩
    omega
  · intro h
    rw [ac_get_bits_checked, if_neg]
    intro ⟨_, h1, h2⟩
    omega
  · intro hm h1 h2 h3
    rw [ac_put_bits_checked, if_pos ⟨hm, by omega, by omega, h3⟩]
  · intro hm h1 h2
    rw [ac_get_bits_checked, if_pos ⟨hm, by omega, by omega⟩]

/-- Witness for C9 at concrete inputs. -/
theorem raw_bits_contract_witness :
    ac_put_bits_checked (ac_start_encoder (codec_on [])) 5 0 = none ∧
    ac_get_bits_checked (ac_start_decoder (codec_on [0, 0, 0, 0])) 21 = none ∧
    ac_put_bits_checked (ac_start_encoder (codec_on [])) 5 3 =
      some (ac_put_bits (ac_start_encoder (codec_on [])) 5 3) ∧
    ac_get_bits_checked (ac_start_decoder (codec_on [0, 0, 0, 0])) 3 =
      some (ac_get_bits (ac_start_decoder (codec_on [0, 0, 0, 0])) 3) :=
  ⟨(raw_bits_contract _ 5 0).1 (Or.inl rfl),
   (raw_bits_contract _ 0 21).2.1 (Or.inr (by norm_num)),
   (raw_bits_contract _ 5 3).2.2.1 rfl (by norm_num) (by norm_num) (by norm_num),
   (raw_bits_contract _ 0 3).2.2.2 rfl (by norm_num) (by norm_num)⟩

--------------------------------------------------------------------------------
-- C7: carry propagation
--------------------------------------------------------------------------------

/-- C7: in every encoder operation that adds to `base`, the carry routine
runs exactly when the 32-bit addition wraps: the written prefix's big-endian
value gains 1 precisely when `base + x` reaches `2^32` (where `x` is the
operation's increment), and the carry routine itself turns the prefix into
that big-endian integer plus one, given some written byte below `0xFF`. -/
theorem carry_propagation (c : arithmetic_codec) (data k : Nat)
    (am : adaptive_data_model) (sm : static_data_model)
    (hp : c.ac_pointer = c.code_buffer.length)
    (hb : ∀ b ∈ c.code_buffer, b < 256)
    (hne : ∃ b ∈ c.code_buffer, b ≠ 255)
    (hbase : c.base < U32) (hlen : c.length < U32) :
    (beVal (ac_propagate_carry c).code_buffer = beVal c.code_buffer + 1 ∧
      (ac_propagate_carry c).code_buffer.length = c.code_buffer.length) ∧
    beVal ((ac_put_bit c 1).code_buffer.take c.code_buffer.length) =
      beVal c.code_buffer +
        (if U32 ≤ c.base + c.length >>> 1 then 1 else 0) ∧
    beVal ((ac_put_bits c data k).code_buffer.take c.code_buffer.length) =
      beVal c.code_buffer +
        (if U32 ≤ c.base + data * (c.length >>> k) % U32 then 1 else 0) ∧
    beVal ((ac_encode_adaptive c data am).1.code_buffer.take c.code_buffer.length) =
      beVal c.code_buffer +
        (if U32 ≤ c.base + am.distribution.getD data 0 * (c.length >>> DM_LengthShift) % U32
          then 1 else 0) ∧
    beVal ((ac_encode_static c data sm).code_buffer.take c.code_buffer.length) =
      beVal c.code_buffer +
        (if U32 ≤ c.base + sm.distribution.getD data 0 * (c.length >>> DM_LengthShift) % U32
          then 1 else 0) ∧
    beVal ((ac_stop_encoder c).2.code_buffer.take c.code_buffer.length) =
      beVal c.code_buffer +
        (if U32 ≤ c.base + (if 2 * AC_MinLength < c.length then AC_MinLength
          else AC_MinLength >>> 1) then 1 else 0) := by
  have hcarry := propagate_carry_spec c hp hb hne
  refine ⟨⟨hcarry.2.2.1, hcarry.1⟩, ?_, ?_, ?_, ?_, ?_⟩
  · -- ac_put_bit with the bit set
    have hx : c.length >>> 1 < U32 := by
      rw [Nat.shiftRight_eq_div_pow]
      exact lt_of_le_of_lt (Nat.div_le_self _ _) hlen
    simp only [ac_put_bit, ne_eq, one_ne_zero, not_false_eq_true, if_true]
    rw [narrow_tail_keeps_front]
    · rw [if_congr (wrap_iff c.base (c.length >>> 1) hbase hx) rfl rfl]
    · rfl
    · exact hp
    · exact hb
    · exact hne
  · -- ac_put_bits
    have hx : data * (c.length >>> k) % U32 < U32 := Nat.mod_lt _ (by norm_num [U32])
    simp only [ac_put_bits]
    rw [narrow_tail_keeps_front]
    · rw [if_congr (wrap_iff c.base _ hbase hx) rfl rfl]
    · rfl
    · exact hp
    · exact hb
    · exact hne
  · -- ac_encode_adaptive
    have hx : am.distribution.getD data 0 * (c.length >>> DM_LengthShift) % U32 < U32 :=
      Nat.mod_lt _ (by norm_num [U32])
    simp only [ac_encode_adaptive]
    split
    · rw [narrow_tail_keeps_front]
      · rw [if_congr (wrap_iff c.base _ hbase hx) rfl rfl]
      · rfl
      · exact hp
      · exact hb
      · exact hne
    · rw [narrow_tail_keeps_front]
      · rw [if_congr (wrap_iff c.base _ hbase hx) rfl rfl]
      · rfl
      · exact hp
      · exact hb
      · exact hne
  · -- ac_encode_static
    have hx : sm.distribution.getD data 0 * (c.length >>> DM_LengthShift) % U32 < U32 :=
      Nat.mod_lt _ (by norm_num [U32])
    simp only [ac_encode_static]
    split
    · rw [narrow_tail_keeps_front]
      · rw [if_congr (wrap_iff c.base _ hbase hx) rfl rfl]
      · rfl
      · exact hp
      · exact hb
      · exact hne
    · rw [narrow_tail_keeps_front]
      · rw [if_congr (wrap_iff c.base _ hbase hx) rfl rfl]
      · rfl
      · exact hp
      · exact hb
      · exact hne
  · -- ac_stop_encoder
    simp only [ac_stop_encoder]
    split
    next hcase =>
      have hx : AC_MinLength < U32 := by decide
      rw [stop_tail_keeps_front]
      · rw [if_congr (wrap_iff c.base AC_MinLength hbase hx) rfl rfl]
      · rfl
      · exact hp
      · exact hb
      · exact hne
    next hcase =>
      have hx : AC_MinLength >>> 1 < U32 := by decide
      rw [stop_tail_keeps_front]
      · rw [if_congr (wrap_iff c.base (AC_MinLength >>> 1) hbase hx) rfl rfl]
      · rfl
      · exact hp
      · exact hb
      · exact hne

/-- Witness for C7 at a concrete encoder state. -/
theorem carry_propagation_witness :
    beVal (ac_propagate_carry
      { code_buffer := [1, 255], ac_pointer := 2, base := 0, value := 0,
        length := 4, mode := 1 }).code_buffer = beVal [1, 255] + 1 ∧
    (ac_propagate_carry
      { code_buffer := [1, 255], ac_pointer := 2, base := 0, value := 0,
        length := 4, mode := 1 }).code_buffer.length = 2 := by
  have h := carry_propagation
    { code_buffer := [1, 255], ac_pointer := 2, base := 0, value := 0,
      length := 4, mode := 1 }
    0 1 (adaptive_data_model_init 2)
    { distribution := [], decoder_table := [], data_symbols := 0, last_symbol := 0,
      table_size := 0, table_shift := 0 }
    rfl (by decide) ⟨1, by decide, by decide⟩ (by decide) (by decide)
  exact ⟨h.1.1, h.1.2⟩

--------------------------------------------------------------------------------
-- C6: encoder termination
--------------------------------------------------------------------------------

/-- Pointer and buffer-length bookkeeping of the `ac_stop_encoder` tail:
with `length = AC__MinLength >> 1` the final renormalization emits exactly
one byte, with `length = AC__MinLength >> 9` exactly two. -/
theorem stop_components (c1 : arithmetic_codec) (w : Prop) [Decidable w]
    (hp : c1.ac_pointer = c1.code_buffer.length) :
    (c1.length = AC_MinLength >>> 1 →
      (ac_renorm_enc_interval
        (if w then ac_propagate_carry c1 else c1)).ac_pointer = c1.ac_pointer + 1 ∧
      (ac_renorm_enc_interval
        (if w then ac_propagate_carry c1 else c1)).code_buffer.length =
        c1.ac_pointer + 1) ∧
    (c1.length = AC_MinLength >>> 9 →
      (ac_renorm_enc_interval
        (if w then ac_propagate_carry c1 else c1)).ac_pointer = c1.ac_pointer + 2 ∧
      (ac_renorm_enc_interval
        (if w then ac_propagate_carry c1 else c1)).code_buffer.length =
        c1.ac_pointer + 2) := by
  have hfields : ∀ (d : arithmetic_codec), d = (if w then ac_propagate_carry c1 else c1) →
      d.ac_pointer = c1.ac_pointer ∧ d.length = c1.length ∧
      d.code_buffer.length = c1.code_buffer.length := by
    intro d hd
    by_cases hw : w
    · rw [hd, if_pos hw]
      exact ⟨rfl, rfl, (propagate_carry_fields c1 (le_of_eq hp)).1⟩
    · rw [hd, if_neg hw]
      exact ⟨rfl, rfl, rfl⟩
  obtain ⟨hptr, hlen, hblen⟩ := hfields _ rfl
  constructor
  · intro h1
    simp only [ac_renorm_enc_interval, hlen, h1]
    rw [renorm_loop_min_half _ _ _ (by rw [hptr, hblen, hp])]
    constructor
    · simp [hptr]
    · simp [hblen, hp]
  · intro h1
    simp only [ac_renorm_enc_interval, hlen, h1]
    rw [renorm_loop_min_ninth _ _ _ (by rw [hptr, hblen, hp])]
    constructor
    · simp [hptr]
    · simp [hblen, hp]

/-- C6: when `ac_stop_encoder` runs, the `length > 2 * MIN_LENGTH` case emits
exactly one more byte and the other case exactly two; the returned count is
`ac_pointer - code_buffer`, the total number of bytes written; and the
written prefix gains a carry exactly when the final base addition wraps. -/
theorem stop_encoder_spec (c : arithmetic_codec)
    (hp : c.ac_pointer = c.code_buffer.length)
    (hb : ∀ b ∈ c.code_buffer, b < 256)
    (hbase : c.base < U32) :
    ((ac_stop_encoder c).2.ac_pointer =
      c.ac_pointer + (if 2 * AC_MinLength < c.length then 1 else 2)) ∧
    (ac_stop_encoder c).1 = (ac_stop_encoder c).2.ac_pointer ∧
    (ac_stop_encoder c).2.code_buffer.length = (ac_stop_encoder c).1 ∧
    ((∃ b ∈ c.code_buffer, b ≠ 255) →
      beVal ((ac_stop_encoder c).2.code_buffer.take c.code_buffer.length) =
        beVal c.code_buffer +
          (if U32 ≤ c.base + (if 2 * AC_MinLength < c.length then AC_MinLength
            else AC_MinLength >>> 1) then 1 else 0)) := by
  simp only [ac_stop_encoder]
  split
  next hcase =>
    have hcomp := stop_components { c with mode := 0, base := (c.base + AC_MinLength) % U32, length := AC_MinLength >>> 1 } (c.base > (c.base + AC_MinLength) % U32) hp
    obtain ⟨hA, hB⟩ := hcomp.1 rfl
    refine ⟨hA, by trivial, hB.trans hA.symm, ?_⟩
    intro hne
    rw [stop_tail_keeps_front]
    · rw [if_congr (wrap_iff c.base AC_MinLength hbase (by decide)) rfl rfl]
    · rfl
    · exact hp
    · exact hb
    · exact hne
  next hcase =>
    have hcomp := stop_components { c with mode := 0, base := (c.base + AC_MinLength >>> 1) % U32, length := AC_MinLength >>> 9 } (c.base > (c.base + AC_MinLength >>> 1) % U32) hp
    obtain ⟨hA, hB⟩ := hcomp.2 rfl
    refine ⟨hA, by trivial, hB.trans hA.symm, ?_⟩
    intro hne
    rw [stop_tail_keeps_front]
    · rw [if_congr (wrap_iff c.base (AC_MinLength >>> 1) hbase (by decide)) rfl rfl]
    · rfl
    · exact hp
    · exact hb
    · exact hne

/-- Witness for C6 on a concrete encoder state (a fresh encoder, whose
`length = 2^32 - 1` falls in the one-extra-byte case). -/
theorem stop_encoder_spec_witness :
    (ac_stop_encoder (ac_start_encoder (codec_on []))).1 = 1 ∧
    (ac_stop_encoder (ac_start_encoder (codec_on []))).2.code_buffer.length = 1 := by
  have h := stop_encoder_spec (ac_start_encoder (codec_on []))
    rfl (by decide) (by decide)
  refine ⟨?_, ?_⟩
  · rw [h.2.1, h.1]
    decide
  · rw [h.2.2.1, h.2.1, h.1]
    decide

--------------------------------------------------------------------------------
-- C8: bit operations are the one-bit specializations
--------------------------------------------------------------------------------

/-- C8: `ac_put_bit b` produces exactly the state of `ac_put_bits b 1`, and
on states with `value < 2 * (length >> 1)`, `ac_get_bit` returns the bit
`value ≥ length` (after `length >>= 1`) and the state of `ac_get_bits 1`. -/
theorem bit_ops_one_bit_specialization (c : arithmetic_codec) (b : Nat)
    (hbase : c.base < U32) (hlen : c.length < U32) (hb : b < 2) :
    ac_put_bit c b = ac_put_bits c b 1 ∧
    (c.value < 2 * (c.length >>> 1) →
      ac_get_bit c = ac_get_bits c 1 ∧
      (ac_get_bit c).1 = if c.length >>> 1 ≤ c.value then 1 else 0) := by
  constructor
  · have hl2 : c.length >>> 1 < U32 := by
      rw [Nat.shiftRight_eq_div_pow]
      exact lt_of_le_of_lt (Nat.div_le_self _ _) hlen
    interval_cases b
    · simp only [ac_put_bit, ac_put_bits, ne_eq, not_true_eq_false, if_false,
        Nat.zero_mul, Nat.zero_mod, Nat.add_zero, Nat.mod_eq_of_lt hbase]
      exact narrow_tail_congr _ _ _ (iff_of_false (fun h => h) (lt_irrefl c.base))
    · simp only [ac_put_bit, ac_put_bits, ne_eq, one_ne_zero, not_false_eq_true,
        if_true, Nat.one_mul, Nat.mod_eq_of_lt hl2]
  · intro hval
    have hlpos : 0 < c.length >>> 1 := by
      by_contra hz
      omega
    have hdiv : c.value / (c.length >>> 1) = if c.length >>> 1 ≤ c.value then 1 else 0 := by
      rcases le_or_lt (c.length >>> 1) c.value with hge | hlt
      · rw [if_pos hge]
        refine Nat.div_eq_of_lt_le (by omega) (by omega)
      · rw [if_neg (by omega)]
        exact Nat.div_eq_of_lt hlt
    constructor
    · simp only [ac_get_bit, ac_get_bits, hdiv, ge_iff_le]
      rcases le_or_lt (c.length >>> 1) c.value with hge | hlt
      · simp only [if_pos hge, Nat.mul_one]
      · simp only [if_neg (not_le.mpr hlt), Nat.mul_zero, Nat.sub_zero]
    · simp only [ac_get_bit, ge_iff_le]

/-- Witness for C8 at a concrete encoder/decoder state. -/
theorem bit_ops_one_bit_specialization_witness :
    (ac_start_encoder (codec_on [])).base < U32 ∧
    (ac_start_encoder (codec_on [])).length < U32 ∧ 1 < 2 ∧
    ac_put_bit (ac_start_encoder (codec_on [])) 1 =
      ac_put_bits (ac_start_encoder (codec_on [])) 1 1 := by
  refine ⟨by decide, by decide, by decide, ?_⟩
  exact (bit_ops_one_bit_specialization (ac_start_encoder (codec_on []))
    1 (by decide) (by decide) (by decide)).1

--------------------------------------------------------------------------------
-- C3: encoder interval invariant
--------------------------------------------------------------------------------

/-- The encoder writes at the end of the written region. -/
theorem write_byte_append (buf : List Nat) (b : Nat) :
    write_byte buf buf.length b = buf ++ [b] := by
  simp [write_byte]

/-- The emitted byte is the top byte of a 32-bit `base`. -/
theorem top_byte_lt (base : Nat) (h : base < U32) : base >>> 24 < 256 := by
  rw [Nat.shiftRight_eq_div_pow]
  have : base < 256 * 2 ^ 24 := by
    simp only [U32] at h
    omega
  omega

/-- Shifting `base` left by 8 modulo `2^32` keeps the low 24 bits. -/
theorem base_shift_mod (base : Nat) :
    (base <<< 8) % U32 = base % 2 ^ 24 * 256 := by
  rw [Nat.shiftLeft_eq]
  show base * 2 ^ 8 % U32 = base % 2 ^ 24 * 256
  have hU : U32 = 2 ^ 24 * 2 ^ 8 := by norm_num [U32]
  rw [hU, Nat.mul_mod_mul_right]

/-- One renormalization pass multiplies the stream value
`beVal buf * 2^32 + base` by 256. -/
theorem renorm_pass_stream (buf : List Nat) (base : Nat) :
    beVal (buf ++ [base >>> 24]) * U32 + (base <<< 8) % U32 =
      256 * (beVal buf * U32 + base) := by
  rw [beVal_append_byte, base_shift_mod, Nat.shiftRight_eq_div_pow]
  simp only [U32]
  omega

/-- Bytes stay below 256 after emitting the top byte of a 32-bit `base`. -/
theorem bytes_append_ok (buf : List Nat) (base : Nat)
    (hb : ∀ b ∈ buf, b < 256) (hbase : base < U32) :
    ∀ b ∈ buf ++ [base >>> 24], b < 256 := by
  intro x hx
  rcases List.mem_append.mp hx with hx | hx
  · exact hb x hx
  · simp only [List.mem_singleton] at hx
    subst hx
    exact top_byte_lt base hbase

theorem len_shift_mod (len : Nat) (h : len * 256 < U32) :
    (len <<< 8) % U32 = len * 256 := by
  rw [Nat.shiftLeft_eq]
  have h8 : (2 : Nat) ^ 8 = 256 := by norm_num
  rw [h8]
  exact Nat.mod_eq_of_lt h

/-- Master specification of the encoder renormalization loop: entered with
`0 < length < AC__MinLength` and enough iteration budget, it emits `j ≥ 1`
bytes, multiplies `length` by `256^j` ending in `[AC__MinLength, 2^32)`,
keeps every byte below 256, and multiplies the stream value
`beVal buf * 2^32 + base` by exactly `256^j`. -/
theorem renorm_enc_loop_spec :
    ∀ (bound : Nat) (buf : List Nat) (base len : Nat),
    0 < len → len < AC_MinLength → AC_MinLength ≤ len * 256 ^ (bound + 1) →
    (∀ b ∈ buf, b < 256) → base < U32 →
    ∃ j, 0 < j ∧
      (renorm_enc_loop bound buf buf.length base len).2.2.2 = len * 256 ^ j ∧
      AC_MinLength ≤ len * 256 ^ j ∧ len * 256 ^ j < U32 ∧
      (renorm_enc_loop bound buf buf.length base len).1.length = buf.length + j ∧
      (renorm_enc_loop bound buf buf.length base len).2.1 = buf.length + j ∧
      (∀ b ∈ (renorm_enc_loop bound buf buf.length base len).1, b < 256) ∧
      (renorm_enc_loop bound buf buf.length base len).2.2.1 < U32 ∧
      beVal (renorm_enc_loop bound buf buf.length base len).1 * U32 +
        (renorm_enc_loop bound buf buf.length base len).2.2.1 =
        256 ^ j * (beVal buf * U32 + base) := by
  intro bound
  induction bound with
  | zero =>
    intro buf base len hlen0 hlenM hbig hb hbase
    refine ⟨1, Nat.one_pos, ?_⟩
    have hlen256 : len * 256 < U32 := by
      simp only [AC_MinLength] at hlenM
      simp only [U32]
      omega
    have hbig1 : AC_MinLength ≤ len * 256 := by
      have : (256 : Nat) ^ (0 + 1) = 256 := by norm_num
      rw [this] at hbig
      exact hbig
    simp only [renorm_enc_loop, write_byte_append, pow_one, len_shift_mod len hlen256]
    refine ⟨by trivial, hbig1, hlen256, by simp, by simp,
      bytes_append_ok buf base hb hbase, Nat.mod_lt _ (by norm_num [U32]), ?_⟩
    rw [renorm_pass_stream buf base]
  | succ bound ih =>
    intro buf base len hlen0 hlenM hbig hb hbase
    have hlen256 : len * 256 < U32 := by
      simp only [AC_MinLength] at hlenM
      simp only [U32]
      omega
    rw [renorm_enc_loop]
    simp only [write_byte_append, len_shift_mod len hlen256]
    by_cases hcont : len * 256 < AC_MinLength
    · rw [if_pos hcont]
      have hbase' : (base <<< 8) % U32 < U32 := Nat.mod_lt _ (by norm_num [U32])
      have hbig' : AC_MinLength ≤ len * 256 * 256 ^ (bound + 1) := by
        calc AC_MinLength ≤ len * 256 ^ (bound + 1 + 1) := hbig
        _ = len * 256 * 256 ^ (bound + 1) := by ring
      have hrec := ih (buf ++ [base >>> 24]) ((base <<< 8) % U32) (len * 256)
        (by omega) hcont hbig' (bytes_append_ok buf base hb hbase) hbase'
      obtain ⟨j, hj0, hlenj, hminj, hUj, hlj, hpj, hbj, hbsj, hvj⟩ := hrec
      simp only [List.length_append, List.length_singleton] at hlenj hlj hpj hbj hbsj hvj
      refine ⟨j + 1, by omega, ?_, ?_, ?_, ?_, ?_, ?_, ?_, ?_⟩
      · rw [hlenj]; ring
      · calc AC_MinLength ≤ len * 256 * 256 ^ j := hminj
        _ = len * 256 ^ (j + 1) := by ring
      · calc len * 256 ^ (j + 1) = len * 256 * 256 ^ j := by ring
        _ < U32 := hUj
      · rw [hlj]; omega
      · rw [hpj]; omega
      · exact hbj
      · exact hbsj
      · rw [hvj, renorm_pass_stream buf base]
        ring
    · rw [if_neg hcont]
      push_neg at hcont
      refine ⟨1, Nat.one_pos, ?_⟩
      simp only [pow_one]
      refine ⟨by trivial, hcont, hlen256, by simp, by simp,
        bytes_append_ok buf base hb hbase, Nat.mod_lt _ (by norm_num [U32]), ?_⟩
      rw [renorm_pass_stream buf base]

/-- `u32sub` is plain subtraction on in-range operands. -/
theorem u32sub_eq (a b : Nat) (hb : b ≤ a) (ha : a < U32) : u32sub a b = a - b := by
  unfold u32sub
  have hbU : b % U32 = b := Nat.mod_eq_of_lt (by omega)
  rw [hbU]
  have h1 : a + U32 - b = a - b + U32 := by omega
  rw [h1, Nat.add_mod_right, Nat.mod_eq_of_lt (by omega)]

/-- The encoding-session invariant (claim C3): pointer at the end of the
written bytes, bytes below 256, 32-bit registers in range,
`length ≥ AC__MinLength`, and the stream value
`beVal code_buffer * 2^32 + base` plus `length` bounded by `2^(32+8n)` —
precisely the statement that `base + length` never passes `2^32` without
the carry having been added into the written bytes. -/
def enc_inv (c : arithmetic_codec) : Prop :=
  c.mode = 1 ∧
  c.ac_pointer = c.code_buffer.length ∧
  (∀ b ∈ c.code_buffer, b < 256) ∧
  c.base < U32 ∧
  AC_MinLength ≤ c.length ∧ c.length < U32 ∧
  beVal c.code_buffer * U32 + c.base + c.length ≤ U32 * 256 ^ c.code_buffer.length

instance (c : arithmetic_codec) : Decidable (enc_inv c) := by
  unfold enc_inv
  infer_instance

/-- The renormalization check at the end of a narrowing step restores the
full invariant from the weaker post-narrowing state. -/
theorem tail_renorm_inv (c2 : arithmetic_codec)
    (hmode : c2.mode = 1)
    (hp : c2.ac_pointer = c2.code_buffer.length)
    (hb : ∀ b ∈ c2.code_buffer, b < 256)
    (hbase : c2.base < U32)
    (hlen0 : 0 < c2.length) (hlenU : c2.length < U32)
    (hF : beVal c2.code_buffer * U32 + c2.base + c2.length ≤
      U32 * 256 ^ c2.code_buffer.length) :
    enc_inv (if c2.length < AC_MinLength then ac_renorm_enc_interval c2 else c2) := by
  by_cases hq : c2.length < AC_MinLength
  · rw [if_pos hq]
    have hbig : AC_MinLength ≤ c2.length * 256 ^ (24 + 1) := by
      have h1 : (16777216 : Nat) ≤ 256 ^ 25 := by norm_num
      calc AC_MinLength = 16777216 * 1 := by norm_num [AC_MinLength]
      _ ≤ 256 ^ 25 * c2.length := Nat.mul_le_mul h1 hlen0
      _ = c2.length * 256 ^ (24 + 1) := by ring
    obtain ⟨j, hj0, hlenj, hminj, hUj, hlj, hpj, hbj, hbsj, hvj⟩ :=
      renorm_enc_loop_spec 24 c2.code_buffer c2.base c2.length hlen0 hq hbig hb hbase
    simp only [ac_renorm_enc_interval, hp]
    refine ⟨hmode, ?_, hbj, hbsj, ?_, ?_, ?_⟩
    · rw [hpj, hlj]
    · rw [hlenj]; exact hminj
    · rw [hlenj]; exact hUj
    · rw [hlenj, hlj, hvj]
      calc 256 ^ j * (beVal c2.code_buffer * U32 + c2.base) + c2.length * 256 ^ j
          = 256 ^ j * (beVal c2.code_buffer * U32 + c2.base + c2.length) := by ring
      _ ≤ 256 ^ j * (U32 * 256 ^ c2.code_buffer.length) :=
          Nat.mul_le_mul_left _ hF
      _ = U32 * 256 ^ (c2.code_buffer.length + j) := by rw [pow_add]; ring
  · rw [if_neg hq]
    exact ⟨hmode, hp, hb, hbase, not_lt.mp hq, hlenU, hF⟩

/-- Core invariant-preservation of one narrowing step: add `x` to `base`
(with the carry on 32-bit wraparound), shrink `length` to `len1` with
`x + len1 ≤ length`, then renormalize if needed. -/
theorem narrow_tail_inv (c c1 : arithmetic_codec) (w : Prop) [Decidable w]
    (x len1 : Nat) (hinv : enc_inv c)
    (hbuf : c1.code_buffer = c.code_buffer) (hptr : c1.ac_pointer = c.ac_pointer)
    (hbase1 : c1.base = (c.base + x) % U32) (hlen1 : c1.length = len1)
    (hmode : c1.mode = c.mode)
    (hw : w ↔ (c.base + x) % U32 < c.base)
    (hx : x + len1 ≤ c.length) (hlen0 : 0 < len1) :
    enc_inv (narrow_tail c1 w) := by
  obtain ⟨hm, hp, hb, hbs, hminl, hlU, hF⟩ := hinv
  have hxU : x < U32 := by omega
  have hl1U : len1 < U32 := by omega
  by_cases hwrap : U32 ≤ c.base + x
  · have hwT : w := hw.mpr ((wrap_iff c.base x hbs hxU).mpr hwrap)
    have hne : ∃ b ∈ c.code_buffer, b ≠ 255 := by
      apply exists_non_ff _ hb
      have h3 : (beVal c.code_buffer + 1) * U32 < 256 ^ c.code_buffer.length * U32 := by
        simp only [U32] at *
        omega
      have := Nat.lt_of_mul_lt_mul_right h3
      omega
    have hp1 : c1.ac_pointer = c1.code_buffer.length := by rw [hptr, hbuf]; exact hp
    have hb1 : ∀ b ∈ c1.code_buffer, b < 256 := by rw [hbuf]; exact hb
    have hne1 : ∃ b ∈ c1.code_buffer, b ≠ 255 := by rw [hbuf]; exact hne
    have hcar := propagate_carry_spec c1 hp1 hb1 hne1
    unfold narrow_tail
    rw [if_pos hwT]
    apply tail_renorm_inv
    · rw [hcar.2.2.2.2.2.2.2, hmode, hm]
    · rw [hcar.2.2.2.1, hcar.1, hp1]
    · exact hcar.2.1
    · rw [hcar.2.2.2.2.1, hbase1]
      exact Nat.mod_lt _ (by norm_num [U32])
    · rw [hcar.2.2.2.2.2.2.1, hlen1]; exact hlen0
    · rw [hcar.2.2.2.2.2.2.1, hlen1]; exact hl1U
    · rw [hcar.2.2.1, hcar.1, hcar.2.2.2.2.1, hcar.2.2.2.2.2.2.1, hbuf, hbase1, hlen1]
      have hmod : (c.base + x) % U32 = c.base + x - U32 := by
        have h2 := hwrap
        have h3 := hbs
        have h4 := hxU
        simp only [U32] at h2 h3 h4 ⊢
        omega
      rw [hmod]
      have hgoal : (beVal c.code_buffer + 1) * U32 + (c.base + x - U32) + len1 =
          beVal c.code_buffer * U32 + c.base + (x + len1) := by
        have h2 := hwrap
        simp only [U32] at h2 ⊢
        omega
      rw [hgoal]
      calc beVal c.code_buffer * U32 + c.base + (x + len1)
          ≤ beVal c.code_buffer * U32 + c.base + c.length := by omega
      _ ≤ U32 * 256 ^ c.code_buffer.length := hF
  · have hwF : ¬ w := by
      rw [hw, Nat.mod_eq_of_lt (by omega)]
      omega
    unfold narrow_tail
    rw [if_neg hwF]
    apply tail_renorm_inv
    · rw [hmode, hm]
    · rw [hptr, hbuf]; exact hp
    · rw [hbuf]; exact hb
    · rw [hbase1]; exact Nat.mod_lt _ (by norm_num [U32])
    · rw [hlen1]; exact hlen0
    · rw [hlen1]; exact hl1U
    · rw [hbuf, hbase1, hlen1, Nat.mod_eq_of_lt (by omega : c.base + x < U32)]
      calc beVal c.code_buffer * U32 + (c.base + x) + len1
          = beVal c.code_buffer * U32 + c.base + (x + len1) := by ring
      _ ≤ beVal c.code_buffer * U32 + c.base + c.length := by omega
      _ ≤ U32 * 256 ^ c.code_buffer.length := hF

/-- Well-formedness of a model's cumulative distribution for coding:
strictly increasing values below `2^15`, with `last_symbol = N - 1` and
`N` symbols stored (the shape every adaptive rebuild produces, see C4). -/
def dist_ok (dist : List Nat) (n last : Nat) : Prop :=
  dist.length = n ∧ last = n - 1 ∧ 0 < n ∧ List.Chain' (· < ·) dist ∧
  ∀ d ∈ dist, d < 2 ^ DM_LengthShift

instance (dist : List Nat) (n last : Nat) : Decidable (dist_ok dist n last) := by
  unfold dist_ok
  infer_instance

theorem getD_lt_of_forall (dist : List Nat) (i v : Nat) (hi : i < dist.length)
    (h : ∀ d ∈ dist, d < v) : dist.getD i 0 < v := by
  rw [List.getD_eq_getElem?_getD, List.getElem?_eq_getElem hi]
  exact h _ (List.getElem_mem hi)

theorem chain'_getD_lt (dist : List Nat) (i : Nat) (hi : i + 1 < dist.length)
    (h : List.Chain' (· < ·) dist) : dist.getD i 0 < dist.getD (i + 1) 0 := by
  rw [List.getD_eq_getElem?_getD, List.getElem?_eq_getElem (by omega),
    List.getD_eq_getElem?_getD, List.getElem?_eq_getElem hi]
  exact List.chain'_iff_get.mp h i (by omega)

/-- Invariant preservation of the model-driven narrowing of
`ac_encode_adaptive` / `ac_encode_static` (which share it verbatim), in
both the last-symbol and the interior-symbol branch. -/
theorem encode_narrow_inv (c : arithmetic_codec) (dist : List Nat) (data : Nat)
    (hinv : enc_inv c)
    (hchain : List.Chain' (· < ·) dist)
    (hbd : ∀ d ∈ dist, d < 2 ^ DM_LengthShift)
    (hdata : data < dist.length) :
    (data = dist.length - 1 →
      enc_inv (narrow_tail { c with base := (c.base + dist.getD data 0 * (c.length >>> DM_LengthShift) % U32) % U32, length := u32sub c.length (dist.getD data 0 * (c.length >>> DM_LengthShift) % U32) } (c.base > (c.base + dist.getD data 0 * (c.length >>> DM_LengthShift) % U32) % U32))) ∧
    (data + 1 < dist.length →
      enc_inv (narrow_tail { c with base := (c.base + dist.getD data 0 * (c.length >>> DM_LengthShift) % U32) % U32, length := u32sub (dist.getD (data + 1) 0 * (c.length >>> DM_LengthShift) % U32) (dist.getD data 0 * (c.length >>> DM_LengthShift) % U32) } (c.base > (c.base + dist.getD data 0 * (c.length >>> DM_LengthShift) % U32) % U32))) := by
  have hminl := hinv.2.2.2.2.1
  have hlU := hinv.2.2.2.2.2.1
  have hL : c.length >>> DM_LengthShift = c.length / 2 ^ 15 := by
    rw [Nat.shiftRight_eq_div_pow]; rfl
  have hLmul : c.length / 2 ^ 15 * 2 ^ 15 ≤ c.length := Nat.div_mul_le_self _ _
  have hLpos : 0 < c.length / 2 ^ 15 :=
    Nat.div_pos (by simp only [AC_MinLength] at hminl; omega) (by norm_num)
  have hd : dist.getD data 0 < 2 ^ 15 := getD_lt_of_forall dist data _ hdata hbd
  have hxle : dist.getD data 0 * (c.length >>> DM_LengthShift) ≤
      c.length - c.length / 2 ^ 15 := by
    rw [hL]
    calc dist.getD data 0 * (c.length / 2 ^ 15)
        ≤ (2 ^ 15 - 1) * (c.length / 2 ^ 15) :=
          Nat.mul_le_mul_right _ (by omega)
    _ = c.length / 2 ^ 15 * 2 ^ 15 - c.length / 2 ^ 15 := by
        rw [Nat.sub_one_mul]; ring_nf
    _ ≤ c.length - c.length / 2 ^ 15 := by omega
  have hxU : dist.getD data 0 * (c.length >>> DM_LengthShift) < U32 := by
    have : c.length < U32 := hlU
    omega
  have hmodx : dist.getD data 0 * (c.length >>> DM_LengthShift) % U32 =
      dist.getD data 0 * (c.length >>> DM_LengthShift) := Nat.mod_eq_of_lt hxU
  constructor
  · intro _
    have hsub : u32sub c.length
        (dist.getD data 0 * (c.length >>> DM_LengthShift) % U32) =
        c.length - dist.getD data 0 * (c.length >>> DM_LengthShift) := by
      rw [hmodx]
      exact u32sub_eq _ _ (by omega) hlU
    refine narrow_tail_inv c _ _
      (dist.getD data 0 * (c.length >>> DM_LengthShift) % U32)
      (c.length - dist.getD data 0 * (c.length >>> DM_LengthShift))
      hinv ?_ ?_ ?_ ?_ ?_ ?_ ?_ ?_
    · rfl
    · rfl
    · rfl
    · exact hsub
    · rfl
    · exact Iff.rfl
    · rw [hmodx]
      omega
    · omega
  · intro hnext
    have hd2 : dist.getD (data + 1) 0 < 2 ^ 15 :=
      getD_lt_of_forall dist (data + 1) _ hnext hbd
    have hdlt : dist.getD data 0 < dist.getD (data + 1) 0 :=
      chain'_getD_lt dist data hnext hchain
    have hx2U : dist.getD (data + 1) 0 * (c.length >>> DM_LengthShift) < U32 := by
      have h2 : dist.getD (data + 1) 0 * (c.length >>> DM_LengthShift) ≤
          c.length - c.length / 2 ^ 15 := by
        rw [hL]
        calc dist.getD (data + 1) 0 * (c.length / 2 ^ 15)
            ≤ (2 ^ 15 - 1) * (c.length / 2 ^ 15) :=
              Nat.mul_le_mul_right _ (by omega)
        _ = c.length / 2 ^ 15 * 2 ^ 15 - c.length / 2 ^ 15 := by
            rw [Nat.sub_one_mul]; ring_nf
        _ ≤ c.length - c.length / 2 ^ 15 := by omega
      omega
    have hsub : u32sub (dist.getD (data + 1) 0 * (c.length >>> DM_LengthShift) % U32)
        (dist.getD data 0 * (c.length >>> DM_LengthShift) % U32) =
        dist.getD (data + 1) 0 * (c.length >>> DM_LengthShift) -
          dist.getD data 0 * (c.length >>> DM_LengthShift) := by
      rw [hmodx, Nat.mod_eq_of_lt hx2U]
      exact u32sub_eq _ _ (Nat.mul_le_mul_right _ (by omega)) hx2U
    refine narrow_tail_inv c _ _
      (dist.getD data 0 * (c.length >>> DM_LengthShift) % U32)
      (dist.getD (data + 1) 0 * (c.length >>> DM_LengthShift) -
        dist.getD data 0 * (c.length >>> DM_LengthShift))
      hinv ?_ ?_ ?_ ?_ ?_ ?_ ?_ ?_
    · rfl
    · rfl
    · rfl
    · exact hsub
    · rfl
    · exact Iff.rfl
    · rw [hmodx]
      have h3 : dist.getD (data + 1) 0 * (c.length >>> DM_LengthShift) ≤
          c.length - c.length / 2 ^ 15 := by
        rw [hL]
        calc dist.getD (data + 1) 0 * (c.length / 2 ^ 15)
            ≤ (2 ^ 15 - 1) * (c.length / 2 ^ 15) :=
              Nat.mul_le_mul_right _ (by omega)
        _ = c.length / 2 ^ 15 * 2 ^ 15 - c.length / 2 ^ 15 := by
            rw [Nat.sub_one_mul]; ring_nf
        _ ≤ c.length - c.length / 2 ^ 15 := by omega
      omega
    · have h4 : (dist.getD (data + 1) 0 - dist.getD data 0) *
          (c.length >>> DM_LengthShift) ≤
          dist.getD (data + 1) 0 * (c.length >>> DM_LengthShift) -
            dist.getD data 0 * (c.length >>> DM_LengthShift) := by
        rw [Nat.sub_mul]
      have h5 : 0 < (dist.getD (data + 1) 0 - dist.getD data 0) *
          (c.length >>> DM_LengthShift) := by
        apply Nat.mul_pos (by omega)
        rw [hL]
        exact hLpos
      omega

/-- C3: on every state satisfying the encoding-session invariant (which
holds after `ac_start_encoder`), each encoding operation — `ac_put_bit`,
`ac_put_bits` with `1 ≤ k ≤ 20` and `data < 2^k`, `ac_encode_adaptive` and
`ac_encode_static` on a well-formed model — exits with
`length ≥ MIN_LENGTH` and with the stream value still satisfying
`beVal bytes * 2^32 + base + length ≤ 2^(32+8n)`: `base + length` never
wraps past `2^32` without the carry having been propagated into the
written bytes. -/
theorem encoder_interval_invariant (c : arithmetic_codec) (b data k : Nat)
    (am : adaptive_data_model) (sm : static_data_model)
    (hinv : enc_inv c) :
    enc_inv (ac_put_bit c b) ∧
    (1 ≤ k → k ≤ 20 → data < 2 ^ k → enc_inv (ac_put_bits c data k)) ∧
    (dist_ok am.distribution am.data_symbols am.last_symbol →
      data < am.data_symbols → enc_inv (ac_encode_adaptive c data am).1) ∧
    (dist_ok sm.distribution sm.data_symbols sm.last_symbol →
      data < sm.data_symbols → enc_inv (ac_encode_static c data sm)) := by
  have hbs := hinv.2.2.2.1
  have hminl := hinv.2.2.2.2.1
  have hlU := hinv.2.2.2.2.2.1
  have hhalf : c.length >>> 1 = c.length / 2 := by
    rw [Nat.shiftRight_eq_div_pow]
  refine ⟨?_, ?_, ?_, ?_⟩
  · -- ac_put_bit
    by_cases hbit : b ≠ 0
    · simp only [ac_put_bit, if_pos hbit]
      refine narrow_tail_inv c _ _ (c.length >>> 1) (c.length >>> 1)
        hinv ?_ ?_ ?_ ?_ ?_ ?_ ?_ ?_
      · rfl
      · rfl
      · rfl
      · rfl
      · rfl
      · exact Iff.rfl
      · rw [hhalf]; omega
      · rw [hhalf]
        simp only [AC_MinLength] at hminl
        omega
    · simp only [ac_put_bit, if_neg hbit]
      refine narrow_tail_inv c _ _ 0 (c.length >>> 1) hinv ?_ ?_ ?_ ?_ ?_ ?_ ?_ ?_
      · rfl
      · rfl
      · rw [Nat.add_zero, Nat.mod_eq_of_lt hbs]
      · rfl
      · rfl
      · rw [Nat.add_zero, Nat.mod_eq_of_lt hbs]
        exact iff_of_false (fun h => h) (lt_irrefl c.base)
      · rw [hhalf]; omega
      · rw [hhalf]
        simp only [AC_MinLength] at hminl
        omega
  · -- ac_put_bits
    intro hk1 hk20 hdata
    have hP : (0 : Nat) < 2 ^ k := Nat.pos_pow_of_pos k (by norm_num)
    have hkdiv : c.length >>> k = c.length / 2 ^ k := Nat.shiftRight_eq_div_pow _ _
    have hdm : 2 ^ k ≤ c.length := by
      have h1 : (2 : Nat) ^ k ≤ 2 ^ 20 := Nat.pow_le_pow_right (by norm_num) hk20
      simp only [AC_MinLength] at hminl
      omega
    have hdpos : 0 < c.length / 2 ^ k := Nat.div_pos hdm hP
    have hmul : c.length / 2 ^ k * 2 ^ k ≤ c.length := Nat.div_mul_le_self _ _
    have hle1 : data * (c.length / 2 ^ k) ≤ (2 ^ k - 1) * (c.length / 2 ^ k) :=
      Nat.mul_le_mul_right _ (by omega)
    have hle2 : (2 ^ k - 1) * (c.length / 2 ^ k) =
        c.length / 2 ^ k * 2 ^ k - c.length / 2 ^ k := by
      rw [Nat.sub_one_mul]; ring_nf
    simp only [ac_put_bits]
    refine narrow_tail_inv c _ _ (data * (c.length >>> k) % U32) (c.length >>> k)
      hinv ?_ ?_ ?_ ?_ ?_ ?_ ?_ ?_
    · rfl
    · rfl
    · rfl
    · rfl
    · rfl
    · exact Iff.rfl
    · have e1 : data * (c.length / 2 ^ k) % U32 ≤ data * (c.length / 2 ^ k) :=
        Nat.mod_le _ _
      have e2 : data * (c.length / 2 ^ k) + c.length / 2 ^ k ≤
          2 ^ k * (c.length / 2 ^ k) := by
        calc data * (c.length / 2 ^ k) + c.length / 2 ^ k
            = (data + 1) * (c.length / 2 ^ k) := by ring
        _ ≤ 2 ^ k * (c.length / 2 ^ k) := Nat.mul_le_mul_right _ (by omega)
      have e3 : 2 ^ k * (c.length / 2 ^ k) ≤ c.length := by
        rw [Nat.mul_comm]
        exact Nat.div_mul_le_self _ _
      rw [hkdiv]
      omega
    · rw [hkdiv]; exact hdpos
  · -- ac_encode_adaptive
    intro hok hdata
    obtain ⟨hlen, hlast, hn, hchain, hbd⟩ := hok
    have h := encode_narrow_inv c am.distribution data hinv hchain hbd (by omega)
    simp only [ac_encode_adaptive]
    split
    next hcase =>
      exact h.1 (by omega)
    next hcase =>
      refine h.2 ?_
      omega
  · -- ac_encode_static
    intro hok hdata
    obtain ⟨hlen, hlast, hn, hchain, hbd⟩ := hok
    have h := encode_narrow_inv c sm.distribution data hinv hchain hbd (by omega)
    simp only [ac_encode_static]
    split
    next hcase =>
      exact h.1 (by omega)
    next hcase =>
      refine h.2 ?_
      omega

/-- Witness for C3 on the fresh encoder state. -/
theorem encoder_interval_invariant_witness :
    enc_inv (ac_start_encoder (codec_on [])) ∧
    enc_inv (ac_put_bit (ac_start_encoder (codec_on [])) 1) :=
  ⟨by decide,
   (encoder_interval_invariant (ac_start_encoder (codec_on [])) 1 0 1
     (adaptive_data_model_init 2)
     { distribution := [], decoder_table := [], data_symbols := 0, last_symbol := 0,
       table_size := 0, table_shift := 0 }
     (by decide)).1⟩

--------------------------------------------------------------------------------
-- C4: adaptive model invariant after a rebuild
--------------------------------------------------------------------------------

theorem cdf_list_getD_zero (scale : Nat) (cs : List Nat) :
    (cdf_list scale cs 0).getD 0 0 = 0 := by
  cases cs <;> simp [cdf_list]

theorem cdf_list_length (scale : Nat) :
    ∀ (cs : List Nat) (s : Nat), (cdf_list scale cs s).length = cs.length := by
  intro cs
  induction cs with
  | nil => intro s; rfl
  | cons c cs ih => intro s; simp [cdf_list, ih]

/-- The cumulative-distribution values are non-decreasing as long as the
products `scale * sum` stay below `2^32` (so the C `unsigned` products do
not wrap). -/
theorem cdf_list_chain (scale : Nat) :
    ∀ (cs : List Nat) (s : Nat), scale * (s + cs.sum) < U32 →
    List.Chain' (· ≤ ·) (cdf_list scale cs s) := by
  intro cs
  induction cs with
  | nil => intro s _; simp [cdf_list]
  | cons c cs ih =>
    intro s hlt
    have hrest : scale * (s + c + cs.sum) < U32 := by
      have hs : (c :: cs).sum = c + cs.sum := by simp
      rw [hs] at hlt
      have he : s + c + cs.sum = s + (c + cs.sum) := by omega
      rw [he]
      exact hlt
    have hchain := ih (s + c) hrest
    cases cs with
    | nil => simp [cdf_list]
    | cons c2 cs2 =>
      rw [cdf_list, cdf_list]
      rw [cdf_list] at hchain
      refine List.Chain'.cons ?_ hchain
      have h1 : scale * s < U32 := by
        have hs : scale * s ≤ scale * (s + (c :: c2 :: cs2).sum) :=
          Nat.mul_le_mul_left scale (by omega)
        omega
      have h2 : scale * (s + c) < U32 := by
        have hs : scale * (s + c) ≤ scale * (s + (c :: c2 :: cs2).sum) :=
          Nat.mul_le_mul_left scale (by
            have hcc : (c :: c2 :: cs2).sum = c + (c2 :: cs2).sum := by simp
            omega)
        omega
      rw [Nat.mod_eq_of_lt h1, Nat.mod_eq_of_lt h2]
      simp only [Nat.shiftRight_eq_div_pow]
      exact Nat.div_le_div_right (Nat.mul_le_mul_left scale (by omega))

/-- C4: after every adaptive rebuild entered with positive counts and the
bookkeeping identity `total_count + update_cycle = Σ counts`, the
distribution is non-decreasing with `distribution[0] = 0`, every count stays
`≥ 1`, and when the rescale fires each count becomes `(count + 1) >> 1` with
`total_count` rebuilt as their sum. -/
theorem adaptive_update_invariant (m : adaptive_data_model) (e : Bool)
    (hcounts : ∀ x ∈ m.symbol_count, 1 ≤ x)
    (htot : m.total_count + m.update_cycle = m.symbol_count.sum) :
    List.Chain' (· ≤ ·) (adaptive_data_model_update m e).distribution ∧
    (adaptive_data_model_update m e).distribution.getD 0 0 = 0 ∧
    (∀ x ∈ (adaptive_data_model_update m e).symbol_count, 1 ≤ x) ∧
    (DM_MaxCount < m.total_count + m.update_cycle →
      (adaptive_data_model_update m e).symbol_count =
        m.symbol_count.map (fun x => (x + 1) >>> 1) ∧
      (adaptive_data_model_update m e).total_count =
        (m.symbol_count.map (fun x => (x + 1) >>> 1)).sum) := by
  by_cases hres : m.total_count + m.update_cycle > DM_MaxCount
  · simp only [adaptive_data_model_update, if_pos hres]
    have hsum : 2 ^ 31 / (m.symbol_count.map (fun x => (x + 1) >>> 1)).sum *
        (0 + (m.symbol_count.map (fun x => (x + 1) >>> 1)).sum) < U32 := by
      have h1 := Nat.div_mul_le_self (2 ^ 31)
        ((m.symbol_count.map (fun x => (x + 1) >>> 1)).sum)
      have : (0 : Nat) + (m.symbol_count.map (fun x => (x + 1) >>> 1)).sum =
          (m.symbol_count.map (fun x => (x + 1) >>> 1)).sum := by omega
      rw [this]
      calc 2 ^ 31 / (m.symbol_count.map (fun x => (x + 1) >>> 1)).sum *
            (m.symbol_count.map (fun x => (x + 1) >>> 1)).sum ≤ 2 ^ 31 := h1
        _ < U32 := by norm_num [U32]
    refine ⟨cdf_list_chain _ _ 0 hsum, cdf_list_getD_zero _ _, ?_, fun _ => ⟨by trivial, by trivial⟩⟩
    intro x hx
    obtain ⟨y, hy, hxy⟩ := List.mem_map.mp hx
    have := hcounts y hy
    subst hxy
    simp only [Nat.shiftRight_eq_div_pow]
    omega
  · simp only [adaptive_data_model_update, if_neg hres]
    have hsum : 2 ^ 31 / (m.total_count + m.update_cycle) *
        (0 + m.symbol_count.sum) < U32 := by
      rw [← htot]
      have h1 := Nat.div_mul_le_self (2 ^ 31) (m.total_count + m.update_cycle)
      have : (0 : Nat) + (m.total_count + m.update_cycle) =
          m.total_count + m.update_cycle := by omega
      rw [this]
      calc 2 ^ 31 / (m.total_count + m.update_cycle) *
            (m.total_count + m.update_cycle) ≤ 2 ^ 31 := h1
        _ < U32 := by norm_num [U32]
    exact ⟨cdf_list_chain _ _ 0 hsum, cdf_list_getD_zero _ _, hcounts,
      fun hcontr => absurd hcontr hres⟩

/-- A concrete adaptive model state as `adaptive_data_model_update` sees it
at the end of the first cycle after a reset with 16 symbols. -/
def update_entry_model : adaptive_data_model :=
  { distribution := [], symbol_count := List.replicate 16 1, decoder_table := []
    total_count := 5, update_cycle := 11, symbols_until_update := 0
    data_symbols := 16, last_symbol := 15, table_size := 0, table_shift := 0 }

/-- Witness for C4 at a concrete model state. -/
theorem adaptive_update_invariant_witness :
    (∀ x ∈ update_entry_model.symbol_count, 1 ≤ x) ∧
    update_entry_model.total_count + update_entry_model.update_cycle =
      update_entry_model.symbol_count.sum ∧
    List.Chain' (· ≤ ·)
      (adaptive_data_model_update update_entry_model true).distribution := by
  refine ⟨by decide, by decide, ?_⟩
  exact (adaptive_update_invariant update_entry_model true
    (by decide) (by decide)).1

--------------------------------------------------------------------------------
-- C5: decoder table bracketing
--------------------------------------------------------------------------------

/-- The running maximum `s` of the decoder-table walk: fold of
`d >>> shift` over the distribution. -/
def wfold (shift : Nat) (ds : List Nat) (s : Nat) : Nat :=
  ds.foldl (fun a d => max a (d >>> shift)) s

theorem wfold_nil (shift s : Nat) : wfold shift [] s = s := rfl

theorem wfold_cons (shift : Nat) (d : Nat) (ds : List Nat) (s : Nat) :
    wfold shift (d :: ds) s = wfold shift ds (max s (d >>> shift)) := rfl

theorem wfold_ge_start (shift : Nat) :
    ∀ (ds : List Nat) (s : Nat), s ≤ wfold shift ds s := by
  intro ds
  induction ds with
  | nil => intro s; simp [wfold_nil]
  | cons d ds ih =>
    intro s
    rw [wfold_cons]
    calc s ≤ max s (d >>> shift) := le_max_left _ _
    _ ≤ wfold shift ds (max s (d >>> shift)) := ih _

theorem wfold_le (shift : Nat) :
    ∀ (ds : List Nat) (s B : Nat), s ≤ B → (∀ d ∈ ds, d >>> shift ≤ B) →
    wfold shift ds s ≤ B := by
  intro ds
  induction ds with
  | nil => intro s B hs _; simpa [wfold_nil] using hs
  | cons d ds ih =>
    intro s B hs hb
    rw [wfold_cons]
    exact ih _ _ (max_le hs (hb d (by simp)))
      (fun x hx => hb x (by simp [hx]))

theorem wfold_ge_elem (shift : Nat) :
    ∀ (ds : List Nat) (s i : Nat), i < ds.length →
    ds.getD i 0 >>> shift ≤ wfold shift ds s := by
  intro ds
  induction ds with
  | nil => intro s i hi; simp at hi
  | cons d ds ih =>
    intro s i hi
    rw [wfold_cons]
    cases i with
    | zero =>
      calc (d :: ds).getD 0 0 >>> shift = d >>> shift := rfl
      _ ≤ max s (d >>> shift) := le_max_right _ _
      _ ≤ wfold shift ds (max s (d >>> shift)) := wfold_ge_start shift ds _
    | succ i =>
      have : (d :: ds).getD (i + 1) 0 = ds.getD i 0 := rfl
      rw [this]
      exact ih _ i (by simpa using hi)

theorem dec_table_entries_length (shift : Nat) :
    ∀ (ds : List Nat) (k s : Nat),
    (dec_table_entries shift ds k s).length = wfold shift ds s - s := by
  intro ds
  induction ds with
  | nil => intro k s; simp [dec_table_entries, wfold_nil]
  | cons d ds ih =>
    intro k s
    rw [dec_table_entries, wfold_cons]
    simp only [List.length_append, List.length_replicate, ih]
    have h1 := wfold_ge_start shift ds (max s (d >>> shift))
    rcases le_or_lt s (d >>> shift) with h | h
    · rw [max_eq_right h] at *
      omega
    · rw [max_eq_left (le_of_lt h)] at *
      omega

/-- Characterization of the decoder-table walk entries: the entry for table
index `s + 1 + j` is `k + p - 1` where `p` is the first position whose
scaled CDF value `ds[p] >> shift` reaches `s + 1 + j`. -/
theorem dec_table_entries_getD (shift : Nat) :
    ∀ (ds : List Nat) (k s j : Nat),
    j < (dec_table_entries shift ds k s).length →
    ∃ p, p < ds.length ∧ s + 1 + j ≤ ds.getD p 0 >>> shift ∧
      (∀ q, q < p → ds.getD q 0 >>> shift < s + 1 + j) ∧
      (dec_table_entries shift ds k s).getD j 0 = k + p - 1 := by
  intro ds
  induction ds with
  | nil =>
    intro k s j hj
    simp [dec_table_entries] at hj
  | cons d ds ih =>
    intro k s j hj
    rw [dec_table_entries] at hj ⊢
    simp only [List.length_append, List.length_replicate] at hj
    by_cases hcase : j < d >>> shift - s
    · refine ⟨0, by simp, ?_, by omega, ?_⟩
      · have : (d :: ds).getD 0 0 = d := rfl
        rw [this]
        omega
      · rw [List.getD_append _ _ _ _ (by simpa using hcase)]
        simp [List.getD, List.getElem?_replicate, hcase]
    · have hj' : j - (d >>> shift - s) < (dec_table_entries shift ds (k + 1)
          (max s (d >>> shift))).length := by
        omega
      obtain ⟨p, hp, hge, hfirst, hval⟩ := ih (k + 1) (max s (d >>> shift))
        (j - (d >>> shift - s)) hj'
      have hidx : max s (d >>> shift) + 1 + (j - (d >>> shift - s)) = s + 1 + j := by
        rcases le_or_lt s (d >>> shift) with h | h
        · rw [max_eq_right h]
          omega
        · rw [max_eq_left (le_of_lt h)]
          omega
      rw [hidx] at hge hfirst
      refine ⟨p + 1, by simpa using hp, ?_, ?_, ?_⟩
      · have : (d :: ds).getD (p + 1) 0 = ds.getD p 0 := rfl
        rw [this]
        exact hge
      · intro q hq
        cases q with
        | zero =>
          have : (d :: ds).getD 0 0 = d := rfl
          rw [this]
          omega
        | succ q =>
          have : (d :: ds).getD (q + 1) 0 = ds.getD q 0 := rfl
          rw [this]
          exact hfirst q (by omega)
      · rw [List.getD_append_right _ _ _ _ (by simpa using hcase)]
        simp only [List.length_replicate]
        rw [hval]
        omega

/-- Every cumulative-distribution value computed with `scale = 2^31 / T`
stays below `2^DM__LengthShift` as long as the running sums stay below the
total `T` (counts are positive, so every partial sum is at most `T - 1`). -/
theorem cdf_list_lt_length_shift (T : Nat) :
    ∀ (cs : List Nat) (s0 : Nat), (∀ c ∈ cs, 1 ≤ c) → s0 + cs.sum ≤ T →
    ∀ d ∈ cdf_list (2 ^ 31 / T) cs s0, d < 2 ^ DM_LengthShift := by
  intro cs
  induction cs with
  | nil =>
    intro s0 _ _ d hd
    simp [cdf_list] at hd
  | cons c cs ih =>
    intro s0 hc hsum d hd
    rw [cdf_list] at hd
    rcases List.mem_cons.mp hd with rfl | hd
    · have hc1 : 1 ≤ c := hc c (by simp)
      have hcs : (c :: cs).sum = c + cs.sum := by simp
      rw [hcs] at hsum
      have hs0 : s0 + 1 ≤ T := by omega
      have ha : 2 ^ 31 / T * T ≤ 2 ^ 31 := Nat.div_mul_le_self _ _
      have hb : 2 ^ 31 / T * s0 + 2 ^ 31 / T ≤ 2 ^ 31 / T * T := by
        have h1 : 2 ^ 31 / T * (s0 + 1) ≤ 2 ^ 31 / T * T :=
          Nat.mul_le_mul_left _ hs0
        have h2 : 2 ^ 31 / T * (s0 + 1) = 2 ^ 31 / T * s0 + 2 ^ 31 / T :=
          Nat.mul_succ _ _

        omega
      rcases Nat.eq_zero_or_pos (2 ^ 31 / T) with hq | hq
      · rw [hq, Nat.zero_mul]
        decide
      · have hlt : 2 ^ 31 / T * s0 < 2 ^ 31 := by omega
        rw [Nat.mod_eq_of_lt (by simp only [U32]; omega)]
        simp only [DM_LengthShift, Nat.shiftRight_eq_div_pow]
        have : (31 : Nat) - 15 = 16 := by norm_num
        rw [this]
        refine (Nat.div_lt_iff_lt_mul (by norm_num)).mpr ?_
        calc 2 ^ 31 / T * s0 < 2 ^ 31 := hlt
        _ ≤ 2 ^ 15 * 2 ^ 16 := by norm_num
    · refine ih (s0 + c) (fun x hx => hc x (by simp [hx])) ?_ d hd
      have hcs : (c :: cs).sum = c + cs.sum := by simp
      omega

/-- Bracketing property of the raw decoder table built by `dec_table`: for
every table slot `t ≤ table_size` the entry `e = decoder_table[t]` satisfies
`distribution[e] ≤ t·2^shift` and `t·2^shift ≤ distribution[e+1]` (with
`table_size·2^shift` standing for the out-of-range value `distribution[N]`). -/
theorem dec_table_bracket (shift ts N : Nat) (dist : List Nat)
    (hlen : dist.length = N) (hN : 0 < N) (hts : 0 < ts)
    (h0 : dist.getD 0 0 = 0)
    (hbd : ∀ d ∈ dist, d >>> shift < ts)
    (t : Nat) (ht : t ≤ ts) :
    dist.getD ((dec_table shift ts N dist).getD t 0) 0 ≤ t * 2 ^ shift ∧
    t * 2 ^ shift ≤
      (if (dec_table shift ts N dist).getD t 0 + 1 < N
       then dist.getD ((dec_table shift ts N dist).getD t 0 + 1) 0
       else ts * 2 ^ shift) := by
  have hW : (dec_table_entries shift dist 0 0).length = wfold shift dist 0 := by
    rw [dec_table_entries_length, Nat.sub_zero]
  have hps : 0 < 2 ^ shift := pow_pos (by norm_num) shift
  cases t with
  | zero =>
    have hget : (dec_table shift ts N dist).getD 0 0 = 0 := by
      simp [dec_table]
    rw [hget]
    constructor
    · rw [h0]
      exact Nat.zero_le _
    · rw [Nat.zero_mul]
      split <;> exact Nat.zero_le _
  | succ u =>
    have hcons : (dec_table shift ts N dist).getD (u + 1) 0 =
        (dec_table_entries shift dist 0 0 ++
          List.replicate (ts + 1 - (dec_table_entries shift dist 0 0).length)
            (N - 1)).getD u 0 := by
      simp [dec_table]
    by_cases hcase : u < (dec_table_entries shift dist 0 0).length
    · obtain ⟨p, hp, hge, hfirst, hval⟩ :=
        dec_table_entries_getD shift dist 0 0 u hcase
      have hp1 : 1 ≤ p := by
        rcases Nat.eq_zero_or_pos p with rfl | h
        · rw [h0, Nat.zero_shiftRight] at hge
          omega
        · exact h
      have hentry : (dec_table shift ts N dist).getD (u + 1) 0 = p - 1 := by
        rw [hcons, List.getD_append _ _ _ _ hcase, hval]
        omega
      rw [hentry]
      constructor
      · have hf := hfirst (p - 1) (by omega)
        rw [Nat.shiftRight_eq_div_pow, Nat.zero_add, Nat.add_comm 1 u] at hf
        exact le_of_lt ((Nat.div_lt_iff_lt_mul hps).mp hf)
      · have hplt : p - 1 + 1 < N := by
          rw [hlen] at hp
          omega
        rw [if_pos hplt]
        have hpe : p - 1 + 1 = p := by omega
        rw [hpe]
        rw [Nat.shiftRight_eq_div_pow, Nat.zero_add, Nat.add_comm 1 u] at hge
        exact (Nat.le_div_iff_mul_le hps).mp hge
    · push_neg at hcase
      have hentry : (dec_table shift ts N dist).getD (u + 1) 0 = N - 1 := by
        rw [hcons, List.getD_append_right _ _ _ _ hcase]
        have hin : u - (dec_table_entries shift dist 0 0).length <
            ts + 1 - (dec_table_entries shift dist 0 0).length := by
          omega
        simp [List.getD, List.getElem?_replicate, hin]
      rw [hentry]
      constructor
      · have hgw := wfold_ge_elem shift dist 0 (N - 1) (by rw [hlen]; omega)
        rw [Nat.shiftRight_eq_div_pow] at hgw
        rw [hW] at hcase
        have hlt : dist.getD (N - 1) 0 / 2 ^ shift < u + 1 := by omega
        exact le_of_lt ((Nat.div_lt_iff_lt_mul hps).mp hlt)
      · have hN1 : ¬ (N - 1 + 1 < N) := by omega
        rw [if_neg hN1]
        exact Nat.mul_le_mul_right _ ht

/-- The bracketing property for a freshly rebuilt cumulative distribution:
`dec_table_bracket` applied to `cdf_list (2^31 / T) counts 0`. -/
theorem update_bracket_aux (shift ts N T : Nat) (counts : List Nat)
    (hc : ∀ c ∈ counts, 1 ≤ c)
    (hlen : counts.length = N) (hN : 0 < N) (hts : 0 < ts)
    (hT : counts.sum = T)
    (hpow : ts * 2 ^ shift = 2 ^ DM_LengthShift)
    (t : Nat) (ht : t ≤ ts) :
    (cdf_list (2 ^ 31 / T) counts 0).getD
        ((dec_table shift ts N (cdf_list (2 ^ 31 / T) counts 0)).getD t 0) 0
      ≤ t * 2 ^ shift ∧
    t * 2 ^ shift ≤
      (if (dec_table shift ts N (cdf_list (2 ^ 31 / T) counts 0)).getD t 0 + 1 < N
       then (cdf_list (2 ^ 31 / T) counts 0).getD
          ((dec_table shift ts N (cdf_list (2 ^ 31 / T) counts 0)).getD t 0 + 1) 0
       else 2 ^ DM_LengthShift) := by
  have hdlen : (cdf_list (2 ^ 31 / T) counts 0).length = N := by
    rw [cdf_list_length, hlen]
  have h0 : (cdf_list (2 ^ 31 / T) counts 0).getD 0 0 = 0 :=
    cdf_list_getD_zero _ _
  have hbd : ∀ d ∈ cdf_list (2 ^ 31 / T) counts 0, d >>> shift < ts := by
    intro d hd
    have hlt := cdf_list_lt_length_shift T counts 0 hc (by omega) d hd
    rw [Nat.shiftRight_eq_div_pow]
    refine (Nat.div_lt_iff_lt_mul (pow_pos (by norm_num) shift)).mpr ?_
    rw [hpow]
    exact hlt
  have hmain := dec_table_bracket shift ts N (cdf_list (2 ^ 31 / T) counts 0)
    hdlen hN hts h0 hbd t ht
  refine ⟨hmain.1, ?_⟩
  rw [← hpow]
  exact hmain.2

/-- Core of the decoder-table bracketing after an adaptive rebuild with
`from_encoder = false` and `table_size = 2^tb`. -/
theorem decoder_table_bracketing_core (m : adaptive_data_model) (tb t : Nat)
    (hcounts : ∀ c ∈ m.symbol_count, 1 ≤ c)
    (hlen : m.symbol_count.length = m.data_symbols)
    (htot : m.total_count + m.update_cycle = m.symbol_count.sum)
    (hN : 16 < m.data_symbols)
    (htb : tb ≤ DM_LengthShift)
    (hsh : m.table_shift = DM_LengthShift - tb)
    (hts : m.table_size = 2 ^ tb)
    (ht : t ≤ m.table_size) :
    (adaptive_data_model_update m false).distribution.getD
        ((adaptive_data_model_update m false).decoder_table.getD t 0) 0
      ≤ t * 2 ^ m.table_shift ∧
    t * 2 ^ m.table_shift ≤
      (if (adaptive_data_model_update m false).decoder_table.getD t 0 + 1
            < m.data_symbols
       then (adaptive_data_model_update m false).distribution.getD
          ((adaptive_data_model_update m false).decoder_table.getD t 0 + 1) 0
       else 2 ^ DM_LengthShift) := by
  have hts0 : ¬ m.table_size = 0 := by
    rw [hts]
    exact (pow_pos (by norm_num) tb).ne'
  have htspos : 0 < m.table_size := by
    rw [hts]
    exact pow_pos (by norm_num) tb
  have hpow : m.table_size * 2 ^ m.table_shift = 2 ^ DM_LengthShift := by
    rw [hts, hsh, ← pow_add]
    congr 1
    simp only [DM_LengthShift] at htb ⊢
    omega
  by_cases hres : m.total_count + m.update_cycle > DM_MaxCount
  · simp only [adaptive_data_model_update, if_pos hres, Bool.false_or,
      decide_eq_true_eq, if_neg hts0]
    refine update_bracket_aux m.table_shift m.table_size m.data_symbols _
      (m.symbol_count.map fun c => (c + 1) >>> 1) ?_ ?_ (by omega) htspos rfl
      hpow t ht
    · intro x hx
      obtain ⟨y, hy, hxy⟩ := List.mem_map.mp hx
      have := hcounts y hy
      subst hxy
      simp only [Nat.shiftRight_eq_div_pow]
      omega
    · rw [List.length_map, hlen]
  · simp only [adaptive_data_model_update, if_neg hres, Bool.false_or,
      decide_eq_true_eq, if_neg hts0]
    exact update_bracket_aux m.table_shift m.table_size m.data_symbols _
      m.symbol_count hcounts hlen (by omega) htspos htot.symm hpow t ht

/-- Characterization of the `table_bits` search loop of
`adaptive_data_model_set_alphabet`. -/
theorem table_bits_loop_char : ∀ (bound tb n : Nat), n ≤ 2 ^ (tb + bound + 2) →
    n ≤ 2 ^ (table_bits_loop bound n tb + 2) ∧ tb ≤ table_bits_loop bound n tb ∧
    (table_bits_loop bound n tb = tb ∨ 2 ^ (table_bits_loop bound n tb + 1) < n) := by
  intro bound
  induction bound with
  | zero =>
    intro tb n hn
    refine ⟨?_, le_refl _, Or.inl rfl⟩
    simpa using hn
  | succ bound ih =>
    intro tb n hn
    rw [table_bits_loop]
    by_cases hc : n > 2 ^ (tb + 2)
    · rw [if_pos hc]
      have hrec := ih (tb + 1) n (by
        have : tb + 1 + bound + 2 = tb + (bound + 1) + 2 := by omega
        rw [this]
        exact hn)
      refine ⟨hrec.1, by omega, Or.inr ?_⟩
      rcases hrec.2.2 with he | h
      · rw [he]
        exact hc
      · exact h
    · rw [if_neg hc]
      exact ⟨by omega, le_refl _, Or.inl rfl⟩

/-- For alphabets up to `2^11` the computed `table_bits` lies in `[3, 9]`
and the table covers the alphabet: `n ≤ 2^(tb+2)`. -/
theorem ac_table_bits_char (n : Nat) (hn : n ≤ 2048) :
    n ≤ 2 ^ (ac_table_bits n 3 + 2) ∧ 3 ≤ ac_table_bits n 3 ∧
    ac_table_bits n 3 ≤ 9 := by
  simp only [ac_table_bits]
  have hpow : n ≤ 2 ^ (3 + n + 2) := by
    have h1 : n < 2 ^ n := Nat.lt_two_pow n
    have h2 : (2 : Nat) ^ n ≤ 2 ^ (3 + n + 2) :=
      Nat.pow_le_pow_right (by norm_num) (by omega)
    omega
  obtain ⟨h1, h2, h3⟩ := table_bits_loop_char n 3 n hpow
  refine ⟨h1, h2, ?_⟩
  rcases h3 with he | h
  · rw [he]
    norm_num
  · by_contra hgt
    push_neg at hgt
    have hp2 : (2 : Nat) ^ 11 ≤ 2 ^ (table_bits_loop n n 3 + 1) :=
      Nat.pow_le_pow_right (by norm_num) (by omega)
    have hlt : (2048 : Nat) < n := by
      calc (2048 : Nat) = 2 ^ 11 := by norm_num
      _ ≤ 2 ^ (table_bits_loop n n 3 + 1) := hp2
      _ < n := h
    omega

/-- `static_data_model_set_distribution` (the C static-model build): the
table geometry (`table_bits` / `table_size` / `table_shift` for alphabets
above 16 symbols) and the integer decoder-table walk
(`while (s < w) decoder_table[++s] = k - 1`, then `decoder_table[0] = 0`
and the `data_symbols - 1` tail fill, shared verbatim with the adaptive
rebuild and embedded by `dec_table`).  The cumulative distribution itself
is accumulated in C with `float` arithmetic
(`distribution[k] = (unsigned)(sum * (1 << DM__LengthShift))`), so the
quantized cumulative values enter here as the parameter `dist`; the builder
always produces `dist[0] = 0` (the running sum starts at `0.0`) and, for
probabilities summing to at most 1, values below `2^DM__LengthShift`. -/
def static_data_model_set_distribution (number_of_symbols : Nat)
    (dist : List Nat) : static_data_model :=
  let tb := if number_of_symbols > 16 then ac_table_bits number_of_symbols 3 else 0
  let ts := if number_of_symbols > 16 then 2 ^ tb else 0
  let sh := if number_of_symbols > 16 then DM_LengthShift - tb else 0
  { distribution := dist
    decoder_table :=
      if number_of_symbols > 16 then dec_table sh ts number_of_symbols dist
      else []
    data_symbols := number_of_symbols
    last_symbol := number_of_symbols - 1
    table_size := ts
    table_shift := sh }

/-- Field geometry of the static build for a table-carrying alphabet. -/
theorem static_build_geom (N : Nat) (dist : List Nat) (h16 : 16 < N) :
    (static_data_model_set_distribution N dist).distribution = dist ∧
    (static_data_model_set_distribution N dist).table_size =
      2 ^ ac_table_bits N 3 ∧
    (static_data_model_set_distribution N dist).table_shift =
      DM_LengthShift - ac_table_bits N 3 ∧
    (static_data_model_set_distribution N dist).decoder_table =
      dec_table (DM_LengthShift - ac_table_bits N 3) (2 ^ ac_table_bits N 3) N
        dist := by
  have hgt : N > 16 := h16
  refine ⟨rfl, ?_, ?_, ?_⟩ <;>
    simp only [static_data_model_set_distribution, if_pos hgt]

/-- Bracketing of the static build's decoder table: for any quantized
cumulative distribution starting at 0 with values below `2^15` (the shape
the float accumulation of `static_data_model_set_distribution` produces for
probabilities summing to at most 1), every table slot of the built model
brackets its CDF bucket. -/
theorem static_table_bracket_core (N : Nat) (dist : List Nat) (t : Nat)
    (hN16 : 16 < N) (hN2 : N ≤ 2048)
    (hdlen : dist.length = N)
    (h0 : dist.getD 0 0 = 0)
    (hdbd : ∀ d ∈ dist, d < 2 ^ DM_LengthShift)
    (ht : t ≤ (static_data_model_set_distribution N dist).table_size) :
    (static_data_model_set_distribution N dist).distribution.getD
        ((static_data_model_set_distribution N dist).decoder_table.getD t 0) 0
      ≤ t * 2 ^ (static_data_model_set_distribution N dist).table_shift ∧
    t * 2 ^ (static_data_model_set_distribution N dist).table_shift ≤
      (if (static_data_model_set_distribution N dist).decoder_table.getD t 0 + 1
            < N
       then (static_data_model_set_distribution N dist).distribution.getD
          ((static_data_model_set_distribution N dist).decoder_table.getD t 0
            + 1) 0
       else 2 ^ DM_LengthShift) := by
  obtain ⟨g1, g2, g3, g4⟩ := static_build_geom N dist hN16
  obtain ⟨htbn, htb3, htb9⟩ := ac_table_bits_char N hN2
  have hpow : 2 ^ ac_table_bits N 3 * 2 ^ (DM_LengthShift - ac_table_bits N 3) =
      2 ^ DM_LengthShift := by
    rw [← pow_add]
    congr 1
    simp only [DM_LengthShift] at htb9 ⊢
    omega
  have hbd : ∀ d ∈ dist,
      d >>> (DM_LengthShift - ac_table_bits N 3) < 2 ^ ac_table_bits N 3 := by
    intro d hd
    rw [Nat.shiftRight_eq_div_pow]
    refine (Nat.div_lt_iff_lt_mul (pow_pos (by norm_num) _)).mpr ?_
    calc d < 2 ^ DM_LengthShift := hdbd d hd
    _ = 2 ^ ac_table_bits N 3 * 2 ^ (DM_LengthShift - ac_table_bits N 3) :=
      hpow.symm
  have hts : t ≤ 2 ^ ac_table_bits N 3 := by
    rw [g2] at ht
    exact ht
  have hmain := dec_table_bracket (DM_LengthShift - ac_table_bits N 3)
    (2 ^ ac_table_bits N 3) N dist hdlen (by omega)
    (pow_pos (by norm_num) _) h0 hbd t hts
  rw [g1, g3, g4]
  refine ⟨hmain.1, ?_⟩
  rw [← hpow]
  exact hmain.2

/-- C5 (amended): decoder-table bracketing after either build of the table.
After an adaptive rebuild with a decoder table (`from_encoder = false`,
`table_size = 2^tb`), entered with positive counts and the bookkeeping
identity `total_count + update_cycle = Σ counts`, and likewise after the
static build `static_data_model_set_distribution` on any quantized
cumulative distribution starting at 0 with values below `2^15` (the shape
its `float` accumulation produces for probabilities summing to at most 1),
every table slot `t ≤ table_size` brackets its CDF bucket:
`distribution[decoder_table[t]] ≤ t · 2^table_shift` and
`t · 2^table_shift ≤ distribution[decoder_table[t] + 1]` (non-strict on the
upper side; `distribution[data_symbols]` read as `2^DM__LengthShift`). -/
theorem decoder_table_bracketing (m : adaptive_data_model) (tb t : Nat)
    (Ns ts : Nat) (sdist : List Nat)
    (hcounts : ∀ c ∈ m.symbol_count, 1 ≤ c)
    (hlen : m.symbol_count.length = m.data_symbols)
    (htot : m.total_count + m.update_cycle = m.symbol_count.sum)
    (hN : 16 < m.data_symbols)
    (htb : tb ≤ DM_LengthShift)
    (hsh : m.table_shift = DM_LengthShift - tb)
    (hts : m.table_size = 2 ^ tb)
    (ht : t ≤ m.table_size)
    (hNs16 : 16 < Ns) (hNs2 : Ns ≤ 2048)
    (hsdlen : sdist.length = Ns)
    (hsd0 : sdist.getD 0 0 = 0)
    (hsdbd : ∀ d ∈ sdist, d < 2 ^ DM_LengthShift)
    (hts2 : ts ≤ (static_data_model_set_distribution Ns sdist).table_size) :
    ((adaptive_data_model_update m false).distribution.getD
        ((adaptive_data_model_update m false).decoder_table.getD t 0) 0
      ≤ t * 2 ^ m.table_shift ∧
    t * 2 ^ m.table_shift ≤
      (if (adaptive_data_model_update m false).decoder_table.getD t 0 + 1
            < m.data_symbols
       then (adaptive_data_model_update m false).distribution.getD
          ((adaptive_data_model_update m false).decoder_table.getD t 0 + 1) 0
       else 2 ^ DM_LengthShift)) ∧
    ((static_data_model_set_distribution Ns sdist).distribution.getD
        ((static_data_model_set_distribution Ns sdist).decoder_table.getD ts 0) 0
      ≤ ts * 2 ^ (static_data_model_set_distribution Ns sdist).table_shift ∧
    ts * 2 ^ (static_data_model_set_distribution Ns sdist).table_shift ≤
      (if (static_data_model_set_distribution Ns sdist).decoder_table.getD ts 0
            + 1 < Ns
       then (static_data_model_set_distribution Ns sdist).distribution.getD
          ((static_data_model_set_distribution Ns sdist).decoder_table.getD ts 0
            + 1) 0
       else 2 ^ DM_LengthShift)) :=
  ⟨decoder_table_bracketing_core m tb t hcounts hlen htot hN htb hsh hts ht,
   static_table_bracket_core Ns sdist ts hNs16 hNs2 hsdlen hsd0 hsdbd hts2⟩

/-- C5 counterexample to the claimed strict inequality: for the freshly
initialized 32-symbol adaptive model (whose rebuild ran with
`from_encoder = false`), at table slot `t = 1` the entry `e = decoder_table[1]`
has `e + 1 = 4` strictly inside the alphabet (so no boundary convention is
involved), yet `distribution[e + 1] = 4096 = 1 · 2^table_shift`: the upper
bound holds only non-strictly, refuting
`distribution[decoder_table[t] + 1] > t · 2^table_shift`. -/
theorem decoder_table_bracketing_counterexample :
    16 < (adaptive_data_model_init 32).data_symbols ∧
    (adaptive_data_model_init 32).table_size = 8 ∧
    (adaptive_data_model_init 32).decoder_table.getD 1 0 + 1 <
      (adaptive_data_model_init 32).data_symbols ∧
    ¬ (1 * 2 ^ (adaptive_data_model_init 32).table_shift <
        (adaptive_data_model_init 32).distribution.getD
          ((adaptive_data_model_init 32).decoder_table.getD 1 0 + 1) 0) := by
  decide

/-- The 32-symbol adaptive model state exactly as `adaptive_data_model_update`
receives it from `adaptive_data_model_reset` (counts all 1, table geometry
`table_size = 2^3`, `table_shift = 15 - 3`). -/
def bracket_entry_model : adaptive_data_model :=
  { distribution := [], symbol_count := List.replicate 32 1, decoder_table := []
    total_count := 0, update_cycle := 32, symbols_until_update := 0
    data_symbols := 32, last_symbol := 31, table_size := 8, table_shift := 12 }

/-- The uniform 32-symbol quantized cumulative distribution
`[0, 1024, 2048, ...]` as a concrete static-build input. -/
def static_bracket_dist : List Nat := (List.range 32).map (fun k => k * 1024)

/-- Witness for the amended C5 bracketing at a concrete adaptive rebuild
(slot 5) and a concrete static build (slot 3). -/
theorem decoder_table_bracketing_witness :
    ((adaptive_data_model_update bracket_entry_model false).distribution.getD
        ((adaptive_data_model_update bracket_entry_model false).decoder_table.getD
          5 0) 0
      ≤ 5 * 2 ^ bracket_entry_model.table_shift ∧
    5 * 2 ^ bracket_entry_model.table_shift ≤
      (if (adaptive_data_model_update bracket_entry_model false).decoder_table.getD
            5 0 + 1 < bracket_entry_model.data_symbols
       then (adaptive_data_model_update bracket_entry_model false).distribution.getD
          ((adaptive_data_model_update bracket_entry_model false).decoder_table.getD
            5 0 + 1) 0
       else 2 ^ DM_LengthShift)) ∧
    ((static_data_model_set_distribution 32 static_bracket_dist).distribution.getD
        ((static_data_model_set_distribution 32
          static_bracket_dist).decoder_table.getD 3 0) 0
      ≤ 3 * 2 ^ (static_data_model_set_distribution 32
          static_bracket_dist).table_shift ∧
    3 * 2 ^ (static_data_model_set_distribution 32
          static_bracket_dist).table_shift ≤
      (if (static_data_model_set_distribution 32
            static_bracket_dist).decoder_table.getD 3 0 + 1 < 32
       then (static_data_model_set_distribution 32
            static_bracket_dist).distribution.getD
          ((static_data_model_set_distribution 32
            static_bracket_dist).decoder_table.getD 3 0 + 1) 0
       else 2 ^ DM_LengthShift)) :=
  decoder_table_bracketing bracket_entry_model 3 5 32 3 static_bracket_dist
    (by decide) (by decide) (by decide) (by decide) (by decide) (by decide)
    (by decide) (by decide) (by decide) (by decide) (by decide) (by decide)
    (by decide) (by decide)

/-- Step lemma: `encode_adaptive_list` over a cons is the tail call on the
states produced by `ac_encode_adaptive`. -/
theorem encode_adaptive_list_step {c cn : arithmetic_codec}
    {m mn : adaptive_data_model} {s : Nat} (rest : List Nat)
    (h : ac_encode_adaptive c s m = (cn, mn)) :
    encode_adaptive_list c m (s :: rest) = encode_adaptive_list cn mn rest := by
  simp only [encode_adaptive_list, h]

/-- Step lemma: `decode_adaptive_list` over `n + 1` conses the symbol
decoded by `ac_decode_adaptive` onto the remaining decode. -/
theorem decode_adaptive_list_step {c cn : arithmetic_codec}
    {m mn : adaptive_data_model} {s : Nat} (n : Nat)
    {out : List Nat} {fin : arithmetic_codec × adaptive_data_model}
    (h : ac_decode_adaptive c m = (s, cn, mn))
    (h2 : decode_adaptive_list cn mn n = (out, fin)) :
    decode_adaptive_list c m (n + 1) = (s :: out, fin) := by
  simp only [decode_adaptive_list, h, h2]

/-- C2: with a freshly reset 16-symbol adaptive model, encoding the
20-symbol sequence `[0,0,15,15,15,15,3,3,2,1,15,15,15,15,15,0,0,0,8,3]`
and stopping the encoder yields exactly 9 bytes
`00 FF F7 33 28 66 E6 03 1F`, and decoding those 9 bytes with a freshly
reset model returns the same 20 symbols in order. -/
theorem adaptive_concrete_trace :
    adaptive_session_encode 16 [0, 0, 15, 15, 15, 15, 3, 3, 2, 1, 15, 15, 15, 15, 15, 0, 0, 0, 8, 3] =
      (9, [0, 255, 247, 51, 40, 102, 230, 3, 31]) ∧
    adaptive_session_decode 16 [0, 255, 247, 51, 40, 102, 230, 3, 31] 20 =
      [0, 0, 15, 15, 15, 15, 3, 3, 2, 1, 15, 15, 15, 15, 15, 0, 0, 0, 8, 3] := by
  have hs : ac_start_encoder (codec_on []) = (⟨[], 0, 0, 0, 4294967295, 1⟩ : arithmetic_codec) := by decide
  have hm : adaptive_data_model_init 16 = (⟨[0, 2048, 4096, 6144, 8192, 10240, 12288, 14336, 16384, 18432, 20480, 22528, 24576, 26624, 28672, 30720], [1, 1, 1, 1, 1, 1, 1, 1, 1, 1, 1, 1, 1, 1, 1, 1], [], 16, 11, 11, 16, 15, 0, 0⟩ : adaptive_data_model) := by decide
  have he1 : ac_encode_adaptive (⟨[], 0, 0, 0, 4294967295, 1⟩ : arithmetic_codec) 0
      (⟨[0, 2048, 4096, 6144, 8192, 10240, 12288, 14336, 16384, 18432, 20480, 22528, 24576, 26624, 28672, 30720], [1, 1, 1, 1, 1, 1, 1, 1, 1, 1, 1, 1, 1, 1, 1, 1], [], 16, 11, 11, 16, 15, 0, 0⟩ : adaptive_data_model) =
      (⟨[], 0, 0, 0, 268433408, 1⟩, ⟨[0, 2048, 4096, 6144, 8192, 10240, 12288, 14336, 16384, 18432, 20480, 22528, 24576, 26624, 28672, 30720], [2, 1, 1, 1, 1, 1, 1, 1, 1, 1, 1, 1, 1, 1, 1, 1], [], 16, 11, 10, 16, 15, 0, 0⟩) := by decide
  have he2 : ac_encode_adaptive (⟨[], 0, 0, 0, 268433408, 1⟩ : arithmetic_codec) 0
      (⟨[0, 2048, 4096, 6144, 8192, 10240, 12288, 14336, 16384, 18432, 20480, 22528, 24576, 26624, 28672, 30720], [2, 1, 1, 1, 1, 1, 1, 1, 1, 1, 1, 1, 1, 1, 1, 1], [], 16, 11, 10, 16, 15, 0, 0⟩ : adaptive_data_model) =
      (⟨[0], 1, 0, 0, 4294443008, 1⟩, ⟨[0, 2048, 4096, 6144, 8192, 10240, 12288, 14336, 16384, 18432, 20480, 22528, 24576, 26624, 28672, 30720], [3, 1, 1, 1, 1, 1, 1, 1, 1, 1, 1, 1, 1, 1, 1, 1], [], 16, 11, 9, 16, 15, 0, 0⟩) := by decide
  have he3 : ac_encode_adaptive (⟨[0], 1, 0, 0, 4294443008, 1⟩ : arithmetic_codec) 15
      (⟨[0, 2048, 4096, 6144, 8192, 10240, 12288, 14336, 16384, 18432, 20480, 22528, 24576, 26624, 28672, 30720], [3, 1, 1, 1, 1, 1, 1, 1, 1, 1, 1, 1, 1, 1, 1, 1], [], 16, 11, 9, 16, 15, 0, 0⟩ : adaptive_data_model) =
      (⟨[0], 1, 4026040320, 0, 268402688, 1⟩, ⟨[0, 2048, 4096, 6144, 8192, 10240, 12288, 14336, 16384, 18432, 20480, 22528, 24576, 26624, 28672, 30720], [3, 1, 1, 1, 1, 1, 1, 1, 1, 1, 1, 1, 1, 1, 1, 2], [], 16, 11, 8, 16, 15, 0, 0⟩) := by decide
  have he4 : ac_encode_adaptive (⟨[0], 1, 4026040320, 0, 268402688, 1⟩ : arithmetic_codec) 15
      (⟨[0, 2048, 4096, 6144, 8192, 10240, 12288, 14336, 16384, 18432, 20480, 22528, 24576, 26624, 28672, 30720], [3, 1, 1, 1, 1, 1, 1, 1, 1, 1, 1, 1, 1, 1, 1, 2], [], 16, 11, 8, 16, 15, 0, 0⟩ : adaptive_data_model) =
      (⟨[0, 254], 2, 4161273856, 0, 4294443008, 1⟩, ⟨[0, 2048, 4096, 6144, 8192, 10240, 12288, 14336, 16384, 18432, 20480, 22528, 24576, 26624, 28672, 30720], [3, 1, 1, 1, 1, 1, 1, 1, 1, 1, 1, 1, 1, 1, 1, 3], [], 16, 11, 7, 16, 15, 0, 0⟩) := by decide
  have he5 : ac_encode_adaptive (⟨[0, 254], 2, 4161273856, 0, 4294443008, 1⟩ : arithmetic_codec) 15
      (⟨[0, 2048, 4096, 6144, 8192, 10240, 12288, 14336, 16384, 18432, 20480, 22528, 24576, 26624, 28672, 30720], [3, 1, 1, 1, 1, 1, 1, 1, 1, 1, 1, 1, 1, 1, 1, 3], [], 16, 11, 7, 16, 15, 0, 0⟩ : adaptive_data_model) =
      (⟨[0, 255], 2, 3892346880, 0, 268402688, 1⟩, ⟨[0, 2048, 4096, 6144, 8192, 10240, 12288, 14336, 16384, 18432, 20480, 22528, 24576, 26624, 28672, 30720], [3, 1, 1, 1, 1, 1, 1, 1, 1, 1, 1, 1, 1, 1, 1, 4], [], 16, 11, 6, 16, 15, 0, 0⟩) := by decide
  have he6 : ac_encode_adaptive (⟨[0, 255], 2, 3892346880, 0, 268402688, 1⟩ : arithmetic_codec) 15
      (⟨[0, 2048, 4096, 6144, 8192, 10240, 12288, 14336, 16384, 18432, 20480, 22528, 24576, 26624, 28672, 30720], [3, 1, 1, 1, 1, 1, 1, 1, 1, 1, 1, 1, 1, 1, 1, 4], [], 16, 11, 6, 16, 15, 0, 0⟩ : adaptive_data_model) =
      (⟨[0, 255, 247], 3, 524288, 0, 4294443008, 1⟩, ⟨[0, 2048, 4096, 6144, 8192, 10240, 12288, 14336, 16384, 18432, 20480, 22528, 24576, 26624, 28672, 30720], [3, 1, 1, 1, 1, 1, 1, 1, 1, 1, 1, 1, 1, 1, 1, 5], [], 16, 11, 5, 16, 15, 0, 0⟩) := by decide
  have he7 : ac_encode_adaptive (⟨[0, 255, 247], 3, 524288, 0, 4294443008, 1⟩ : arithmetic_codec) 3
      (⟨[0, 2048, 4096, 6144, 8192, 10240, 12288, 14336, 16384, 18432, 20480, 22528, 24576, 26624, 28672, 30720], [3, 1, 1, 1, 1, 1, 1, 1, 1, 1, 1, 1, 1, 1, 1, 5], [], 16, 11, 5, 16, 15, 0, 0⟩ : adaptive_data_model) =
      (⟨[0, 255, 247], 3, 805732352, 0, 268402688, 1⟩, ⟨[0, 2048, 4096, 6144, 8192, 10240, 12288, 14336, 16384, 18432, 20480, 22528, 24576, 26624, 28672, 30720], [3, 1, 1, 2, 1, 1, 1, 1, 1, 1, 1, 1, 1, 1, 1, 5], [], 16, 11, 4, 16, 15, 0, 0⟩) := by decide
  have he8 : ac_encode_adaptive (⟨[0, 255, 247], 3, 805732352, 0, 268402688, 1⟩ : arithmetic_codec) 3
      (⟨[0, 2048, 4096, 6144, 8192, 10240, 12288, 14336, 16384, 18432, 20480, 22528, 24576, 26624, 28672, 30720], [3, 1, 1, 2, 1, 1, 1, 1, 1, 1, 1, 1, 1, 1, 1, 5], [], 16, 11, 4, 16, 15, 0, 0⟩ : adaptive_data_model) =
      (⟨[0, 255, 247, 51], 4, 107479040, 0, 4294443008, 1⟩, ⟨[0, 2048, 4096, 6144, 8192, 10240, 12288, 14336, 16384, 18432, 20480, 22528, 24576, 26624, 28672, 30720], [3, 1, 1, 3, 1, 1, 1, 1, 1, 1, 1, 1, 1, 1, 1, 5], [], 16, 11, 3, 16, 15, 0, 0⟩) := by decide
  have he9 : ac_encode_adaptive (⟨[0, 255, 247, 51], 4, 107479040, 0, 4294443008, 1⟩ : arithmetic_codec) 2
      (⟨[0, 2048, 4096, 6144, 8192, 10240, 12288, 14336, 16384, 18432, 20480, 22528, 24576, 26624, 28672, 30720], [3, 1, 1, 3, 1, 1, 1, 1, 1, 1, 1, 1, 1, 1, 1, 5], [], 16, 11, 3, 16, 15, 0, 0⟩ : adaptive_data_model) =
      (⟨[0, 255, 247, 51], 4, 644284416, 0, 268402688, 1⟩, ⟨[0, 2048, 4096, 6144, 8192, 10240, 12288, 14336, 16384, 18432, 20480, 22528, 24576, 26624, 28672, 30720], [3, 1, 2, 3, 1, 1, 1, 1, 1, 1, 1, 1, 1, 1, 1, 5], [], 16, 11, 2, 16, 15, 0, 0⟩) := by decide
  have he10 : ac_encode_adaptive (⟨[0, 255, 247, 51], 4, 644284416, 0, 268402688, 1⟩ : arithmetic_codec) 1
      (⟨[0, 2048, 4096, 6144, 8192, 10240, 12288, 14336, 16384, 18432, 20480, 22528, 24576, 26624, 28672, 30720], [3, 1, 2, 3, 1, 1, 1, 1, 1, 1, 1, 1, 1, 1, 1, 5], [], 16, 11, 2, 16, 15, 0, 0⟩ : adaptive_data_model) =
      (⟨[0, 255, 247, 51, 39], 5, 1727528960, 0, 4294443008, 1⟩, ⟨[0, 2048, 4096, 6144, 8192, 10240, 12288, 14336, 16384, 18432, 20480, 22528, 24576, 26624, 28672, 30720], [3, 2, 2, 3, 1, 1, 1, 1, 1, 1, 1, 1, 1, 1, 1, 5], [], 16, 11, 1, 16, 15, 0, 0⟩) := by decide
  have he11 : ac_encode_adaptive (⟨[0, 255, 247, 51, 39], 5, 1727528960, 0, 4294443008, 1⟩ : arithmetic_codec) 15
      (⟨[0, 2048, 4096, 6144, 8192, 10240, 12288, 14336, 16384, 18432, 20480, 22528, 24576, 26624, 28672, 30720], [3, 2, 2, 3, 1, 1, 1, 1, 1, 1, 1, 1, 1, 1, 1, 5], [], 16, 11, 1, 16, 15, 0, 0⟩ : adaptive_data_model) =
      (⟨[0, 255, 247, 51, 40], 5, 1458601984, 0, 268402688, 1⟩, ⟨[0, 3640, 6068, 8495, 12136, 13349, 14563, 15777, 16990, 18204, 19418, 20631, 21845, 23058, 24272, 25486], [3, 2, 2, 3, 1, 1, 1, 1, 1, 1, 1, 1, 1, 1, 1, 6], [], 27, 13, 13, 16, 15, 0, 0⟩) := by decide
  have he12 : ac_encode_adaptive (⟨[0, 255, 247, 51, 40], 5, 1458601984, 0, 268402688, 1⟩ : arithmetic_codec) 15
      (⟨[0, 3640, 6068, 8495, 12136, 13349, 14563, 15777, 16990, 18204, 19418, 20631, 21845, 23058, 24272, 25486], [3, 2, 2, 3, 1, 1, 1, 1, 1, 1, 1, 1, 1, 1, 1, 6], [], 27, 13, 13, 16, 15, 0, 0⟩ : adaptive_data_model) =
      (⟨[0, 255, 247, 51, 40], 5, 1667357810, 0, 59646862, 1⟩, ⟨[0, 3640, 6068, 8495, 12136, 13349, 14563, 15777, 16990, 18204, 19418, 20631, 21845, 23058, 24272, 25486], [3, 2, 2, 3, 1, 1, 1, 1, 1, 1, 1, 1, 1, 1, 1, 7], [], 27, 13, 12, 16, 15, 0, 0⟩) := by decide
  have he13 : ac_encode_adaptive (⟨[0, 255, 247, 51, 40], 5, 1667357810, 0, 59646862, 1⟩ : arithmetic_codec) 15
      (⟨[0, 3640, 6068, 8495, 12136, 13349, 14563, 15777, 16990, 18204, 19418, 20631, 21845, 23058, 24272, 25486], [3, 2, 2, 3, 1, 1, 1, 1, 1, 1, 1, 1, 1, 1, 1, 7], [], 27, 13, 12, 16, 15, 0, 0⟩ : adaptive_data_model) =
      (⟨[0, 255, 247, 51, 40, 102], 6, 631372288, 0, 3395159552, 1⟩, ⟨[0, 3640, 6068, 8495, 12136, 13349, 14563, 15777, 16990, 18204, 19418, 20631, 21845, 23058, 24272, 25486], [3, 2, 2, 3, 1, 1, 1, 1, 1, 1, 1, 1, 1, 1, 1, 8], [], 27, 13, 11, 16, 15, 0, 0⟩) := by decide
  have he14 : ac_encode_adaptive (⟨[0, 255, 247, 51, 40, 102], 6, 631372288, 0, 3395159552, 1⟩ : arithmetic_codec) 15
      (⟨[0, 3640, 6068, 8495, 12136, 13349, 14563, 15777, 16990, 18204, 19418, 20631, 21845, 23058, 24272, 25486], [3, 2, 2, 3, 1, 1, 1, 1, 1, 1, 1, 1, 1, 1, 1, 8], [], 27, 13, 11, 16, 15, 0, 0⟩ : adaptive_data_model) =
      (⟨[0, 255, 247, 51, 40, 102], 6, 3272027720, 0, 754504120, 1⟩, ⟨[0, 3640, 6068, 8495, 12136, 13349, 14563, 15777, 16990, 18204, 19418, 20631, 21845, 23058, 24272, 25486], [3, 2, 2, 3, 1, 1, 1, 1, 1, 1, 1, 1, 1, 1, 1, 9], [], 27, 13, 10, 16, 15, 0, 0⟩) := by decide
  have he15 : ac_encode_adaptive (⟨[0, 255, 247, 51, 40, 102], 6, 3272027720, 0, 754504120, 1⟩ : arithmetic_codec) 15
      (⟨[0, 3640, 6068, 8495, 12136, 13349, 14563, 15777, 16990, 18204, 19418, 20631, 21845, 23058, 24272, 25486], [3, 2, 2, 3, 1, 1, 1, 1, 1, 1, 1, 1, 1, 1, 1, 9], [], 27, 13, 10, 16, 15, 0, 0⟩ : adaptive_data_model) =
      (⟨[0, 255, 247, 51, 40, 102], 6, 3858842870, 0, 167688970, 1⟩, ⟨[0, 3640, 6068, 8495, 12136, 13349, 14563, 15777, 16990, 18204, 19418, 20631, 21845, 23058, 24272, 25486], [3, 2, 2, 3, 1, 1, 1, 1, 1, 1, 1, 1, 1, 1, 1, 10], [], 27, 13, 9, 16, 15, 0, 0⟩) := by decide
  have he16 : ac_encode_adaptive (⟨[0, 255, 247, 51, 40, 102], 6, 3858842870, 0, 167688970, 1⟩ : arithmetic_codec) 0
      (⟨[0, 3640, 6068, 8495, 12136, 13349, 14563, 15777, 16990, 18204, 19418, 20631, 21845, 23058, 24272, 25486], [3, 2, 2, 3, 1, 1, 1, 1, 1, 1, 1, 1, 1, 1, 1, 10], [], 27, 13, 9, 16, 15, 0, 0⟩ : adaptive_data_model) =
      (⟨[0, 255, 247, 51, 40, 102], 6, 3858842870, 0, 18625880, 1⟩, ⟨[0, 3640, 6068, 8495, 12136, 13349, 14563, 15777, 16990, 18204, 19418, 20631, 21845, 23058, 24272, 25486], [4, 2, 2, 3, 1, 1, 1, 1, 1, 1, 1, 1, 1, 1, 1, 10], [], 27, 13, 8, 16, 15, 0, 0⟩) := by decide
  have he17 : ac_encode_adaptive (⟨[0, 255, 247, 51, 40, 102], 6, 3858842870, 0, 18625880, 1⟩ : arithmetic_codec) 0
      (⟨[0, 3640, 6068, 8495, 12136, 13349, 14563, 15777, 16990, 18204, 19418, 20631, 21845, 23058, 24272, 25486], [4, 2, 2, 3, 1, 1, 1, 1, 1, 1, 1, 1, 1, 1, 1, 10], [], 27, 13, 8, 16, 15, 0, 0⟩ : adaptive_data_model) =
      (⟨[0, 255, 247, 51, 40, 102, 230], 7, 21296640, 0, 529285120, 1⟩, ⟨[0, 3640, 6068, 8495, 12136, 13349, 14563, 15777, 16990, 18204, 19418, 20631, 21845, 23058, 24272, 25486], [5, 2, 2, 3, 1, 1, 1, 1, 1, 1, 1, 1, 1, 1, 1, 10], [], 27, 13, 7, 16, 15, 0, 0⟩) := by decide
  have he18 : ac_encode_adaptive (⟨[0, 255, 247, 51, 40, 102, 230], 7, 21296640, 0, 529285120, 1⟩ : arithmetic_codec) 0
      (⟨[0, 3640, 6068, 8495, 12136, 13349, 14563, 15777, 16990, 18204, 19418, 20631, 21845, 23058, 24272, 25486], [5, 2, 2, 3, 1, 1, 1, 1, 1, 1, 1, 1, 1, 1, 1, 10], [], 27, 13, 7, 16, 15, 0, 0⟩ : adaptive_data_model) =
      (⟨[0, 255, 247, 51, 40, 102, 230], 7, 21296640, 0, 58793280, 1⟩, ⟨[0, 3640, 6068, 8495, 12136, 13349, 14563, 15777, 16990, 18204, 19418, 20631, 21845, 23058, 24272, 25486], [6, 2, 2, 3, 1, 1, 1, 1, 1, 1, 1, 1, 1, 1, 1, 10], [], 27, 13, 6, 16, 15, 0, 0⟩) := by decide
  have he19 : ac_encode_adaptive (⟨[0, 255, 247, 51, 40, 102, 230], 7, 21296640, 0, 58793280, 1⟩ : arithmetic_codec) 8
      (⟨[0, 3640, 6068, 8495, 12136, 13349, 14563, 15777, 16990, 18204, 19418, 20631, 21845, 23058, 24272, 25486], [6, 2, 2, 3, 1, 1, 1, 1, 1, 1, 1, 1, 1, 1, 1, 10], [], 27, 13, 6, 16, 15, 0, 0⟩ : adaptive_data_model) =
      (⟨[0, 255, 247, 51, 40, 102, 230, 3], 8, 369933312, 0, 557546496, 1⟩, ⟨[0, 3640, 6068, 8495, 12136, 13349, 14563, 15777, 16990, 18204, 19418, 20631, 21845, 23058, 24272, 25486], [6, 2, 2, 3, 1, 1, 1, 1, 2, 1, 1, 1, 1, 1, 1, 10], [], 27, 13, 5, 16, 15, 0, 0⟩) := by decide
  have he20 : ac_encode_adaptive (⟨[0, 255, 247, 51, 40, 102, 230, 3], 8, 369933312, 0, 557546496, 1⟩ : arithmetic_codec) 3
      (⟨[0, 3640, 6068, 8495, 12136, 13349, 14563, 15777, 16990, 18204, 19418, 20631, 21845, 23058, 24272, 25486], [6, 2, 2, 3, 1, 1, 1, 1, 2, 1, 1, 1, 1, 1, 1, 10], [], 27, 13, 5, 16, 15, 0, 0⟩ : adaptive_data_model) =
      (⟨[0, 255, 247, 51, 40, 102, 230, 3], 8, 514467242, 0, 61947974, 1⟩, ⟨[0, 3640, 6068, 8495, 12136, 13349, 14563, 15777, 16990, 18204, 19418, 20631, 21845, 23058, 24272, 25486], [6, 2, 2, 4, 1, 1, 1, 1, 2, 1, 1, 1, 1, 1, 1, 10], [], 27, 13, 4, 16, 15, 0, 0⟩) := by decide
  have hchain : encode_adaptive_list (⟨[], 0, 0, 0, 4294967295, 1⟩ : arithmetic_codec)
      (⟨[0, 2048, 4096, 6144, 8192, 10240, 12288, 14336, 16384, 18432, 20480, 22528, 24576, 26624, 28672, 30720], [1, 1, 1, 1, 1, 1, 1, 1, 1, 1, 1, 1, 1, 1, 1, 1], [], 16, 11, 11, 16, 15, 0, 0⟩ : adaptive_data_model) [0, 0, 15, 15, 15, 15, 3, 3, 2, 1, 15, 15, 15, 15, 15, 0, 0, 0, 8, 3] =
      (⟨[0, 255, 247, 51, 40, 102, 230, 3], 8, 514467242, 0, 61947974, 1⟩, ⟨[0, 3640, 6068, 8495, 12136, 13349, 14563, 15777, 16990, 18204, 19418, 20631, 21845, 23058, 24272, 25486], [6, 2, 2, 4, 1, 1, 1, 1, 2, 1, 1, 1, 1, 1, 1, 10], [], 27, 13, 4, 16, 15, 0, 0⟩) := by
    rw [encode_adaptive_list_step _ he1, encode_adaptive_list_step _ he2, encode_adaptive_list_step _ he3, encode_adaptive_list_step _ he4, encode_adaptive_list_step _ he5, encode_adaptive_list_step _ he6, encode_adaptive_list_step _ he7, encode_adaptive_list_step _ he8, encode_adaptive_list_step _ he9, encode_adaptive_list_step _ he10, encode_adaptive_list_step _ he11, encode_adaptive_list_step _ he12, encode_adaptive_list_step _ he13, encode_adaptive_list_step _ he14, encode_adaptive_list_step _ he15, encode_adaptive_list_step _ he16, encode_adaptive_list_step _ he17, encode_adaptive_list_step _ he18, encode_adaptive_list_step _ he19, encode_adaptive_list_step _ he20]
    simp only [encode_adaptive_list]
  have hstop : ac_stop_encoder (⟨[0, 255, 247, 51, 40, 102, 230, 3], 8, 514467242, 0, 61947974, 1⟩ : arithmetic_codec) =
      (9, ⟨[0, 255, 247, 51, 40, 102, 230, 3, 31], 9, 2854595072, 0, 2147483648, 0⟩) := by decide
  have hds : ac_start_decoder (codec_on [0, 255, 247, 51, 40, 102, 230, 3, 31]) = (⟨[0, 255, 247, 51, 40, 102, 230, 3, 31], 3, 0, 16774963, 4294967295, 2⟩ : arithmetic_codec) := by decide
  have hd1 : ac_decode_adaptive (⟨[0, 255, 247, 51, 40, 102, 230, 3, 31], 3, 0, 16774963, 4294967295, 2⟩ : arithmetic_codec)
      (⟨[0, 2048, 4096, 6144, 8192, 10240, 12288, 14336, 16384, 18432, 20480, 22528, 24576, 26624, 28672, 30720], [1, 1, 1, 1, 1, 1, 1, 1, 1, 1, 1, 1, 1, 1, 1, 1], [], 16, 11, 11, 16, 15, 0, 0⟩ : adaptive_data_model) =
      (0, ⟨[0, 255, 247, 51, 40, 102, 230, 3, 31], 3, 0, 16774963, 268433408, 2⟩, ⟨[0, 2048, 4096, 6144, 8192, 10240, 12288, 14336, 16384, 18432, 20480, 22528, 24576, 26624, 28672, 30720], [2, 1, 1, 1, 1, 1, 1, 1, 1, 1, 1, 1, 1, 1, 1, 1], [], 16, 11, 10, 16, 15, 0, 0⟩) := by decide
  have hd2 : ac_decode_adaptive (⟨[0, 255, 247, 51, 40, 102, 230, 3, 31], 3, 0, 16774963, 268433408, 2⟩ : arithmetic_codec)
      (⟨[0, 2048, 4096, 6144, 8192, 10240, 12288, 14336, 16384, 18432, 20480, 22528, 24576, 26624, 28672, 30720], [2, 1, 1, 1, 1, 1, 1, 1, 1, 1, 1, 1, 1, 1, 1, 1], [], 16, 11, 10, 16, 15, 0, 0⟩ : adaptive_data_model) =
      (0, ⟨[0, 255, 247, 51, 40, 102, 230, 3, 31], 4, 0, 4294390568, 4294443008, 2⟩, ⟨[0, 2048, 4096, 6144, 8192, 10240, 12288, 14336, 16384, 18432, 20480, 22528, 24576, 26624, 28672, 30720], [3, 1, 1, 1, 1, 1, 1, 1, 1, 1, 1, 1, 1, 1, 1, 1], [], 16, 11, 9, 16, 15, 0, 0⟩) := by decide
  have hd3 : ac_decode_adaptive (⟨[0, 255, 247, 51, 40, 102, 230, 3, 31], 4, 0, 4294390568, 4294443008, 2⟩ : arithmetic_codec)
      (⟨[0, 2048, 4096, 6144, 8192, 10240, 12288, 14336, 16384, 18432, 20480, 22528, 24576, 26624, 28672, 30720], [3, 1, 1, 1, 1, 1, 1, 1, 1, 1, 1, 1, 1, 1, 1, 1], [], 16, 11, 9, 16, 15, 0, 0⟩ : adaptive_data_model) =
      (15, ⟨[0, 255, 247, 51, 40, 102, 230, 3, 31], 4, 0, 268350248, 268402688, 2⟩, ⟨[0, 2048, 4096, 6144, 8192, 10240, 12288, 14336, 16384, 18432, 20480, 22528, 24576, 26624, 28672, 30720], [3, 1, 1, 1, 1, 1, 1, 1, 1, 1, 1, 1, 1, 1, 1, 2], [], 16, 11, 8, 16, 15, 0, 0⟩) := by decide
  have hd4 : ac_decode_adaptive (⟨[0, 255, 247, 51, 40, 102, 230, 3, 31], 4, 0, 268350248, 268402688, 2⟩ : arithmetic_codec)
      (⟨[0, 2048, 4096, 6144, 8192, 10240, 12288, 14336, 16384, 18432, 20480, 22528, 24576, 26624, 28672, 30720], [3, 1, 1, 1, 1, 1, 1, 1, 1, 1, 1, 1, 1, 1, 1, 2], [], 16, 11, 8, 16, 15, 0, 0⟩ : adaptive_data_model) =
      (15, ⟨[0, 255, 247, 51, 40, 102, 230, 3, 31], 5, 0, 4281018470, 4294443008, 2⟩, ⟨[0, 2048, 4096, 6144, 8192, 10240, 12288, 14336, 16384, 18432, 20480, 22528, 24576, 26624, 28672, 30720], [3, 1, 1, 1, 1, 1, 1, 1, 1, 1, 1, 1, 1, 1, 1, 3], [], 16, 11, 7, 16, 15, 0, 0⟩) := by decide
  have hd5 : ac_decode_adaptive (⟨[0, 255, 247, 51, 40, 102, 230, 3, 31], 5, 0, 4281018470, 4294443008, 2⟩ : arithmetic_codec)
      (⟨[0, 2048, 4096, 6144, 8192, 10240, 12288, 14336, 16384, 18432, 20480, 22528, 24576, 26624, 28672, 30720], [3, 1, 1, 1, 1, 1, 1, 1, 1, 1, 1, 1, 1, 1, 1, 3], [], 16, 11, 7, 16, 15, 0, 0⟩ : adaptive_data_model) =
      (15, ⟨[0, 255, 247, 51, 40, 102, 230, 3, 31], 5, 0, 254978150, 268402688, 2⟩, ⟨[0, 2048, 4096, 6144, 8192, 10240, 12288, 14336, 16384, 18432, 20480, 22528, 24576, 26624, 28672, 30720], [3, 1, 1, 1, 1, 1, 1, 1, 1, 1, 1, 1, 1, 1, 1, 4], [], 16, 11, 6, 16, 15, 0, 0⟩) := by decide
  have hd6 : ac_decode_adaptive (⟨[0, 255, 247, 51, 40, 102, 230, 3, 31], 5, 0, 254978150, 268402688, 2⟩ : arithmetic_codec)
      (⟨[0, 2048, 4096, 6144, 8192, 10240, 12288, 14336, 16384, 18432, 20480, 22528, 24576, 26624, 28672, 30720], [3, 1, 1, 1, 1, 1, 1, 1, 1, 1, 1, 1, 1, 1, 1, 4], [], 16, 11, 6, 16, 15, 0, 0⟩ : adaptive_data_model) =
      (15, ⟨[0, 255, 247, 51, 40, 102, 230, 3, 31], 6, 0, 857761510, 4294443008, 2⟩, ⟨[0, 2048, 4096, 6144, 8192, 10240, 12288, 14336, 16384, 18432, 20480, 22528, 24576, 26624, 28672, 30720], [3, 1, 1, 1, 1, 1, 1, 1, 1, 1, 1, 1, 1, 1, 1, 5], [], 16, 11, 5, 16, 15, 0, 0⟩) := by decide
  have hd7 : ac_decode_adaptive (⟨[0, 255, 247, 51, 40, 102, 230, 3, 31], 6, 0, 857761510, 4294443008, 2⟩ : arithmetic_codec)
      (⟨[0, 2048, 4096, 6144, 8192, 10240, 12288, 14336, 16384, 18432, 20480, 22528, 24576, 26624, 28672, 30720], [3, 1, 1, 1, 1, 1, 1, 1, 1, 1, 1, 1, 1, 1, 1, 5], [], 16, 11, 5, 16, 15, 0, 0⟩ : adaptive_data_model) =
      (3, ⟨[0, 255, 247, 51, 40, 102, 230, 3, 31], 6, 0, 52553446, 268402688, 2⟩, ⟨[0, 2048, 4096, 6144, 8192, 10240, 12288, 14336, 16384, 18432, 20480, 22528, 24576, 26624, 28672, 30720], [3, 1, 1, 2, 1, 1, 1, 1, 1, 1, 1, 1, 1, 1, 1, 5], [], 16, 11, 4, 16, 15, 0, 0⟩) := by decide
  have hd8 : ac_decode_adaptive (⟨[0, 255, 247, 51, 40, 102, 230, 3, 31], 6, 0, 52553446, 268402688, 2⟩ : arithmetic_codec)
      (⟨[0, 2048, 4096, 6144, 8192, 10240, 12288, 14336, 16384, 18432, 20480, 22528, 24576, 26624, 28672, 30720], [3, 1, 1, 2, 1, 1, 1, 1, 1, 1, 1, 1, 1, 1, 1, 5], [], 16, 11, 4, 16, 15, 0, 0⟩ : adaptive_data_model) =
      (3, ⟨[0, 255, 247, 51, 40, 102, 230, 3, 31], 7, 0, 570353155, 4294443008, 2⟩, ⟨[0, 2048, 4096, 6144, 8192, 10240, 12288, 14336, 16384, 18432, 20480, 22528, 24576, 26624, 28672, 30720], [3, 1, 1, 3, 1, 1, 1, 1, 1, 1, 1, 1, 1, 1, 1, 5], [], 16, 11, 3, 16, 15, 0, 0⟩) := by decide
  have hd9 : ac_decode_adaptive (⟨[0, 255, 247, 51, 40, 102, 230, 3, 31], 7, 0, 570353155, 4294443008, 2⟩ : arithmetic_codec)
      (⟨[0, 2048, 4096, 6144, 8192, 10240, 12288, 14336, 16384, 18432, 20480, 22528, 24576, 26624, 28672, 30720], [3, 1, 1, 3, 1, 1, 1, 1, 1, 1, 1, 1, 1, 1, 1, 5], [], 16, 11, 3, 16, 15, 0, 0⟩ : adaptive_data_model) =
      (2, ⟨[0, 255, 247, 51, 40, 102, 230, 3, 31], 7, 0, 33547779, 268402688, 2⟩, ⟨[0, 2048, 4096, 6144, 8192, 10240, 12288, 14336, 16384, 18432, 20480, 22528, 24576, 26624, 28672, 30720], [3, 1, 2, 3, 1, 1, 1, 1, 1, 1, 1, 1, 1, 1, 1, 5], [], 16, 11, 2, 16, 15, 0, 0⟩) := by decide
  have hd10 : ac_decode_adaptive (⟨[0, 255, 247, 51, 40, 102, 230, 3, 31], 7, 0, 33547779, 268402688, 2⟩ : arithmetic_codec)
      (⟨[0, 2048, 4096, 6144, 8192, 10240, 12288, 14336, 16384, 18432, 20480, 22528, 24576, 26624, 28672, 30720], [3, 1, 2, 3, 1, 1, 1, 1, 1, 1, 1, 1, 1, 1, 1, 5], [], 16, 11, 2, 16, 15, 0, 0⟩ : adaptive_data_model) =
      (1, ⟨[0, 255, 247, 51, 40, 102, 230, 3, 31], 8, 0, 4293788447, 4294443008, 2⟩, ⟨[0, 2048, 4096, 6144, 8192, 10240, 12288, 14336, 16384, 18432, 20480, 22528, 24576, 26624, 28672, 30720], [3, 2, 2, 3, 1, 1, 1, 1, 1, 1, 1, 1, 1, 1, 1, 5], [], 16, 11, 1, 16, 15, 0, 0⟩) := by decide
  have hd11 : ac_decode_adaptive (⟨[0, 255, 247, 51, 40, 102, 230, 3, 31], 8, 0, 4293788447, 4294443008, 2⟩ : arithmetic_codec)
      (⟨[0, 2048, 4096, 6144, 8192, 10240, 12288, 14336, 16384, 18432, 20480, 22528, 24576, 26624, 28672, 30720], [3, 2, 2, 3, 1, 1, 1, 1, 1, 1, 1, 1, 1, 1, 1, 5], [], 16, 11, 1, 16, 15, 0, 0⟩ : adaptive_data_model) =
      (15, ⟨[0, 255, 247, 51, 40, 102, 230, 3, 31], 8, 0, 267748127, 268402688, 2⟩, ⟨[0, 3640, 6068, 8495, 12136, 13349, 14563, 15777, 16990, 18204, 19418, 20631, 21845, 23058, 24272, 25486], [3, 2, 2, 3, 1, 1, 1, 1, 1, 1, 1, 1, 1, 1, 1, 6], [], 27, 13, 13, 16, 15, 0, 0⟩) := by decide
  have hd12 : ac_decode_adaptive (⟨[0, 255, 247, 51, 40, 102, 230, 3, 31], 8, 0, 267748127, 268402688, 2⟩ : arithmetic_codec)
      (⟨[0, 3640, 6068, 8495, 12136, 13349, 14563, 15777, 16990, 18204, 19418, 20631, 21845, 23058, 24272, 25486], [3, 2, 2, 3, 1, 1, 1, 1, 1, 1, 1, 1, 1, 1, 1, 6], [], 27, 13, 13, 16, 15, 0, 0⟩ : adaptive_data_model) =
      (15, ⟨[0, 255, 247, 51, 40, 102, 230, 3, 31], 8, 0, 58992301, 59646862, 2⟩, ⟨[0, 3640, 6068, 8495, 12136, 13349, 14563, 15777, 16990, 18204, 19418, 20631, 21845, 23058, 24272, 25486], [3, 2, 2, 3, 1, 1, 1, 1, 1, 1, 1, 1, 1, 1, 1, 7], [], 27, 13, 12, 16, 15, 0, 0⟩) := by decide
  have hd13 : ac_decode_adaptive (⟨[0, 255, 247, 51, 40, 102, 230, 3, 31], 8, 0, 58992301, 59646862, 2⟩ : arithmetic_codec)
      (⟨[0, 3640, 6068, 8495, 12136, 13349, 14563, 15777, 16990, 18204, 19418, 20631, 21845, 23058, 24272, 25486], [3, 2, 2, 3, 1, 1, 1, 1, 1, 1, 1, 1, 1, 1, 1, 7], [], 27, 13, 12, 16, 15, 0, 0⟩ : adaptive_data_model) =
      (15, ⟨[0, 255, 247, 51, 40, 102, 230, 3, 31], 9, 0, 3227591936, 3395159552, 2⟩, ⟨[0, 3640, 6068, 8495, 12136, 13349, 14563, 15777, 16990, 18204, 19418, 20631, 21845, 23058, 24272, 25486], [3, 2, 2, 3, 1, 1, 1, 1, 1, 1, 1, 1, 1, 1, 1, 8], [], 27, 13, 11, 16, 15, 0, 0⟩) := by decide
  have hd14 : ac_decode_adaptive (⟨[0, 255, 247, 51, 40, 102, 230, 3, 31], 9, 0, 3227591936, 3395159552, 2⟩ : arithmetic_codec)
      (⟨[0, 3640, 6068, 8495, 12136, 13349, 14563, 15777, 16990, 18204, 19418, 20631, 21845, 23058, 24272, 25486], [3, 2, 2, 3, 1, 1, 1, 1, 1, 1, 1, 1, 1, 1, 1, 8], [], 27, 13, 11, 16, 15, 0, 0⟩ : adaptive_data_model) =
      (15, ⟨[0, 255, 247, 51, 40, 102, 230, 3, 31], 9, 0, 586936504, 754504120, 2⟩, ⟨[0, 3640, 6068, 8495, 12136, 13349, 14563, 15777, 16990, 18204, 19418, 20631, 21845, 23058, 24272, 25486], [3, 2, 2, 3, 1, 1, 1, 1, 1, 1, 1, 1, 1, 1, 1, 9], [], 27, 13, 10, 16, 15, 0, 0⟩) := by decide
  have hd15 : ac_decode_adaptive (⟨[0, 255, 247, 51, 40, 102, 230, 3, 31], 9, 0, 586936504, 754504120, 2⟩ : arithmetic_codec)
      (⟨[0, 3640, 6068, 8495, 12136, 13349, 14563, 15777, 16990, 18204, 19418, 20631, 21845, 23058, 24272, 25486], [3, 2, 2, 3, 1, 1, 1, 1, 1, 1, 1, 1, 1, 1, 1, 9], [], 27, 13, 10, 16, 15, 0, 0⟩ : adaptive_data_model) =
      (15, ⟨[0, 255, 247, 51, 40, 102, 230, 3, 31], 9, 0, 121354, 167688970, 2⟩, ⟨[0, 3640, 6068, 8495, 12136, 13349, 14563, 15777, 16990, 18204, 19418, 20631, 21845, 23058, 24272, 25486], [3, 2, 2, 3, 1, 1, 1, 1, 1, 1, 1, 1, 1, 1, 1, 10], [], 27, 13, 9, 16, 15, 0, 0⟩) := by decide
  have hd16 : ac_decode_adaptive (⟨[0, 255, 247, 51, 40, 102, 230, 3, 31], 9, 0, 121354, 167688970, 2⟩ : arithmetic_codec)
      (⟨[0, 3640, 6068, 8495, 12136, 13349, 14563, 15777, 16990, 18204, 19418, 20631, 21845, 23058, 24272, 25486], [3, 2, 2, 3, 1, 1, 1, 1, 1, 1, 1, 1, 1, 1, 1, 10], [], 27, 13, 9, 16, 15, 0, 0⟩ : adaptive_data_model) =
      (0, ⟨[0, 255, 247, 51, 40, 102, 230, 3, 31], 9, 0, 121354, 18625880, 2⟩, ⟨[0, 3640, 6068, 8495, 12136, 13349, 14563, 15777, 16990, 18204, 19418, 20631, 21845, 23058, 24272, 25486], [4, 2, 2, 3, 1, 1, 1, 1, 1, 1, 1, 1, 1, 1, 1, 10], [], 27, 13, 8, 16, 15, 0, 0⟩) := by decide
  have hd17 : ac_decode_adaptive (⟨[0, 255, 247, 51, 40, 102, 230, 3, 31], 9, 0, 121354, 18625880, 2⟩ : arithmetic_codec)
      (⟨[0, 3640, 6068, 8495, 12136, 13349, 14563, 15777, 16990, 18204, 19418, 20631, 21845, 23058, 24272, 25486], [4, 2, 2, 3, 1, 1, 1, 1, 1, 1, 1, 1, 1, 1, 1, 10], [], 27, 13, 8, 16, 15, 0, 0⟩ : adaptive_data_model) =
      (0, ⟨[0, 255, 247, 51, 40, 102, 230, 3, 31], 10, 0, 31066624, 529285120, 2⟩, ⟨[0, 3640, 6068, 8495, 12136, 13349, 14563, 15777, 16990, 18204, 19418, 20631, 21845, 23058, 24272, 25486], [5, 2, 2, 3, 1, 1, 1, 1, 1, 1, 1, 1, 1, 1, 1, 10], [], 27, 13, 7, 16, 15, 0, 0⟩) := by decide
  have hd18 : ac_decode_adaptive (⟨[0, 255, 247, 51, 40, 102, 230, 3, 31], 10, 0, 31066624, 529285120, 2⟩ : arithmetic_codec)
      (⟨[0, 3640, 6068, 8495, 12136, 13349, 14563, 15777, 16990, 18204, 19418, 20631, 21845, 23058, 24272, 25486], [5, 2, 2, 3, 1, 1, 1, 1, 1, 1, 1, 1, 1, 1, 1, 10], [], 27, 13, 7, 16, 15, 0, 0⟩ : adaptive_data_model) =
      (0, ⟨[0, 255, 247, 51, 40, 102, 230, 3, 31], 10, 0, 31066624, 58793280, 2⟩, ⟨[0, 3640, 6068, 8495, 12136, 13349, 14563, 15777, 16990, 18204, 19418, 20631, 21845, 23058, 24272, 25486], [6, 2, 2, 3, 1, 1, 1, 1, 1, 1, 1, 1, 1, 1, 1, 10], [], 27, 13, 6, 16, 15, 0, 0⟩) := by decide
  have hd19 : ac_decode_adaptive (⟨[0, 255, 247, 51, 40, 102, 230, 3, 31], 10, 0, 31066624, 58793280, 2⟩ : arithmetic_codec)
      (⟨[0, 3640, 6068, 8495, 12136, 13349, 14563, 15777, 16990, 18204, 19418, 20631, 21845, 23058, 24272, 25486], [6, 2, 2, 3, 1, 1, 1, 1, 1, 1, 1, 1, 1, 1, 1, 10], [], 27, 13, 6, 16, 15, 0, 0⟩ : adaptive_data_model) =
      (8, ⟨[0, 255, 247, 51, 40, 102, 230, 3, 31], 11, 0, 150160384, 557546496, 2⟩, ⟨[0, 3640, 6068, 8495, 12136, 13349, 14563, 15777, 16990, 18204, 19418, 20631, 21845, 23058, 24272, 25486], [6, 2, 2, 3, 1, 1, 1, 1, 2, 1, 1, 1, 1, 1, 1, 10], [], 27, 13, 5, 16, 15, 0, 0⟩) := by decide
  have hd20 : ac_decode_adaptive (⟨[0, 255, 247, 51, 40, 102, 230, 3, 31], 11, 0, 150160384, 557546496, 2⟩ : arithmetic_codec)
      (⟨[0, 3640, 6068, 8495, 12136, 13349, 14563, 15777, 16990, 18204, 19418, 20631, 21845, 23058, 24272, 25486], [6, 2, 2, 3, 1, 1, 1, 1, 2, 1, 1, 1, 1, 1, 1, 10], [], 27, 13, 5, 16, 15, 0, 0⟩ : adaptive_data_model) =
      (3, ⟨[0, 255, 247, 51, 40, 102, 230, 3, 31], 11, 0, 5626454, 61947974, 2⟩, ⟨[0, 3640, 6068, 8495, 12136, 13349, 14563, 15777, 16990, 18204, 19418, 20631, 21845, 23058, 24272, 25486], [6, 2, 2, 4, 1, 1, 1, 1, 2, 1, 1, 1, 1, 1, 1, 10], [], 27, 13, 4, 16, 15, 0, 0⟩) := by decide
  have hg20 : decode_adaptive_list (⟨[0, 255, 247, 51, 40, 102, 230, 3, 31], 11, 0, 5626454, 61947974, 2⟩ : arithmetic_codec)
      (⟨[0, 3640, 6068, 8495, 12136, 13349, 14563, 15777, 16990, 18204, 19418, 20631, 21845, 23058, 24272, 25486], [6, 2, 2, 4, 1, 1, 1, 1, 2, 1, 1, 1, 1, 1, 1, 10], [], 27, 13, 4, 16, 15, 0, 0⟩ : adaptive_data_model) 0 = ([], ⟨[0, 255, 247, 51, 40, 102, 230, 3, 31], 11, 0, 5626454, 61947974, 2⟩, ⟨[0, 3640, 6068, 8495, 12136, 13349, 14563, 15777, 16990, 18204, 19418, 20631, 21845, 23058, 24272, 25486], [6, 2, 2, 4, 1, 1, 1, 1, 2, 1, 1, 1, 1, 1, 1, 10], [], 27, 13, 4, 16, 15, 0, 0⟩) := rfl
  have hg19 : decode_adaptive_list (⟨[0, 255, 247, 51, 40, 102, 230, 3, 31], 11, 0, 150160384, 557546496, 2⟩ : arithmetic_codec)
      (⟨[0, 3640, 6068, 8495, 12136, 13349, 14563, 15777, 16990, 18204, 19418, 20631, 21845, 23058, 24272, 25486], [6, 2, 2, 3, 1, 1, 1, 1, 2, 1, 1, 1, 1, 1, 1, 10], [], 27, 13, 5, 16, 15, 0, 0⟩ : adaptive_data_model) 1 = ([3], ⟨[0, 255, 247, 51, 40, 102, 230, 3, 31], 11, 0, 5626454, 61947974, 2⟩, ⟨[0, 3640, 6068, 8495, 12136, 13349, 14563, 15777, 16990, 18204, 19418, 20631, 21845, 23058, 24272, 25486], [6, 2, 2, 4, 1, 1, 1, 1, 2, 1, 1, 1, 1, 1, 1, 10], [], 27, 13, 4, 16, 15, 0, 0⟩) :=
    decode_adaptive_list_step 0 hd20 hg20
  have hg18 : decode_adaptive_list (⟨[0, 255, 247, 51, 40, 102, 230, 3, 31], 10, 0, 31066624, 58793280, 2⟩ : arithmetic_codec)
      (⟨[0, 3640, 6068, 8495, 12136, 13349, 14563, 15777, 16990, 18204, 19418, 20631, 21845, 23058, 24272, 25486], [6, 2, 2, 3, 1, 1, 1, 1, 1, 1, 1, 1, 1, 1, 1, 10], [], 27, 13, 6, 16, 15, 0, 0⟩ : adaptive_data_model) 2 = ([8, 3], ⟨[0, 255, 247, 51, 40, 102, 230, 3, 31], 11, 0, 5626454, 61947974, 2⟩, ⟨[0, 3640, 6068, 8495, 12136, 13349, 14563, 15777, 16990, 18204, 19418, 20631, 21845, 23058, 24272, 25486], [6, 2, 2, 4, 1, 1, 1, 1, 2, 1, 1, 1, 1, 1, 1, 10], [], 27, 13, 4, 16, 15, 0, 0⟩) :=
    decode_adaptive_list_step 1 hd19 hg19
  have hg17 : decode_adaptive_list (⟨[0, 255, 247, 51, 40, 102, 230, 3, 31], 10, 0, 31066624, 529285120, 2⟩ : arithmetic_codec)
      (⟨[0, 3640, 6068, 8495, 12136, 13349, 14563, 15777, 16990, 18204, 19418, 20631, 21845, 23058, 24272, 25486], [5, 2, 2, 3, 1, 1, 1, 1, 1, 1, 1, 1, 1, 1, 1, 10], [], 27, 13, 7, 16, 15, 0, 0⟩ : adaptive_data_model) 3 = ([0, 8, 3], ⟨[0, 255, 247, 51, 40, 102, 230, 3, 31], 11, 0, 5626454, 61947974, 2⟩, ⟨[0, 3640, 6068, 8495, 12136, 13349, 14563, 15777, 16990, 18204, 19418, 20631, 21845, 23058, 24272, 25486], [6, 2, 2, 4, 1, 1, 1, 1, 2, 1, 1, 1, 1, 1, 1, 10], [], 27, 13, 4, 16, 15, 0, 0⟩) :=
    decode_adaptive_list_step 2 hd18 hg18
  have hg16 : decode_adaptive_list (⟨[0, 255, 247, 51, 40, 102, 230, 3, 31], 9, 0, 121354, 18625880, 2⟩ : arithmetic_codec)
      (⟨[0, 3640, 6068, 8495, 12136, 13349, 14563, 15777, 16990, 18204, 19418, 20631, 21845, 23058, 24272, 25486], [4, 2, 2, 3, 1, 1, 1, 1, 1, 1, 1, 1, 1, 1, 1, 10], [], 27, 13, 8, 16, 15, 0, 0⟩ : adaptive_data_model) 4 = ([0, 0, 8, 3], ⟨[0, 255, 247, 51, 40, 102, 230, 3, 31], 11, 0, 5626454, 61947974, 2⟩, ⟨[0, 3640, 6068, 8495, 12136, 13349, 14563, 15777, 16990, 18204, 19418, 20631, 21845, 23058, 24272, 25486], [6, 2, 2, 4, 1, 1, 1, 1, 2, 1, 1, 1, 1, 1, 1, 10], [], 27, 13, 4, 16, 15, 0, 0⟩) :=
    decode_adaptive_list_step 3 hd17 hg17
  have hg15 : decode_adaptive_list (⟨[0, 255, 247, 51, 40, 102, 230, 3, 31], 9, 0, 121354, 167688970, 2⟩ : arithmetic_codec)
      (⟨[0, 3640, 6068, 8495, 12136, 13349, 14563, 15777, 16990, 18204, 19418, 20631, 21845, 23058, 24272, 25486], [3, 2, 2, 3, 1, 1, 1, 1, 1, 1, 1, 1, 1, 1, 1, 10], [], 27, 13, 9, 16, 15, 0, 0⟩ : adaptive_data_model) 5 = ([0, 0, 0, 8, 3], ⟨[0, 255, 247, 51, 40, 102, 230, 3, 31], 11, 0, 5626454, 61947974, 2⟩, ⟨[0, 3640, 6068, 8495, 12136, 13349, 14563, 15777, 16990, 18204, 19418, 20631, 21845, 23058, 24272, 25486], [6, 2, 2, 4, 1, 1, 1, 1, 2, 1, 1, 1, 1, 1, 1, 10], [], 27, 13, 4, 16, 15, 0, 0⟩) :=
    decode_adaptive_list_step 4 hd16 hg16
  have hg14 : decode_adaptive_list (⟨[0, 255, 247, 51, 40, 102, 230, 3, 31], 9, 0, 586936504, 754504120, 2⟩ : arithmetic_codec)
      (⟨[0, 3640, 6068, 8495, 12136, 13349, 14563, 15777, 16990, 18204, 19418, 20631, 21845, 23058, 24272, 25486], [3, 2, 2, 3, 1, 1, 1, 1, 1, 1, 1, 1, 1, 1, 1, 9], [], 27, 13, 10, 16, 15, 0, 0⟩ : adaptive_data_model) 6 = ([15, 0, 0, 0, 8, 3], ⟨[0, 255, 247, 51, 40, 102, 230, 3, 31], 11, 0, 5626454, 61947974, 2⟩, ⟨[0, 3640, 6068, 8495, 12136, 13349, 14563, 15777, 16990, 18204, 19418, 20631, 21845, 23058, 24272, 25486], [6, 2, 2, 4, 1, 1, 1, 1, 2, 1, 1, 1, 1, 1, 1, 10], [], 27, 13, 4, 16, 15, 0, 0⟩) :=
    decode_adaptive_list_step 5 hd15 hg15
  have hg13 : decode_adaptive_list (⟨[0, 255, 247, 51, 40, 102, 230, 3, 31], 9, 0, 3227591936, 3395159552, 2⟩ : arithmetic_codec)
      (⟨[0, 3640, 6068, 8495, 12136, 13349, 14563, 15777, 16990, 18204, 19418, 20631, 21845, 23058, 24272, 25486], [3, 2, 2, 3, 1, 1, 1, 1, 1, 1, 1, 1, 1, 1, 1, 8], [], 27, 13, 11, 16, 15, 0, 0⟩ : adaptive_data_model) 7 = ([15, 15, 0, 0, 0, 8, 3], ⟨[0, 255, 247, 51, 40, 102, 230, 3, 31], 11, 0, 5626454, 61947974, 2⟩, ⟨[0, 3640, 6068, 8495, 12136, 13349, 14563, 15777, 16990, 18204, 19418, 20631, 21845, 23058, 24272, 25486], [6, 2, 2, 4, 1, 1, 1, 1, 2, 1, 1, 1, 1, 1, 1, 10], [], 27, 13, 4, 16, 15, 0, 0⟩) :=
    decode_adaptive_list_step 6 hd14 hg14
  have hg12 : decode_adaptive_list (⟨[0, 255, 247, 51, 40, 102, 230, 3, 31], 8, 0, 58992301, 59646862, 2⟩ : arithmetic_codec)
      (⟨[0, 3640, 6068, 8495, 12136, 13349, 14563, 15777, 16990, 18204, 19418, 20631, 21845, 23058, 24272, 25486], [3, 2, 2, 3, 1, 1, 1, 1, 1, 1, 1, 1, 1, 1, 1, 7], [], 27, 13, 12, 16, 15, 0, 0⟩ : adaptive_data_model) 8 = ([15, 15, 15, 0, 0, 0, 8, 3], ⟨[0, 255, 247, 51, 40, 102, 230, 3, 31], 11, 0, 5626454, 61947974, 2⟩, ⟨[0, 3640, 6068, 8495, 12136, 13349, 14563, 15777, 16990, 18204, 19418, 20631, 21845, 23058, 24272, 25486], [6, 2, 2, 4, 1, 1, 1, 1, 2, 1, 1, 1, 1, 1, 1, 10], [], 27, 13, 4, 16, 15, 0, 0⟩) :=
    decode_adaptive_list_step 7 hd13 hg13
  have hg11 : decode_adaptive_list (⟨[0, 255, 247, 51, 40, 102, 230, 3, 31], 8, 0, 267748127, 268402688, 2⟩ : arithmetic_codec)
      (⟨[0, 3640, 6068, 8495, 12136, 13349, 14563, 15777, 16990, 18204, 19418, 20631, 21845, 23058, 24272, 25486], [3, 2, 2, 3, 1, 1, 1, 1, 1, 1, 1, 1, 1, 1, 1, 6], [], 27, 13, 13, 16, 15, 0, 0⟩ : adaptive_data_model) 9 = ([15, 15, 15, 15, 0, 0, 0, 8, 3], ⟨[0, 255, 247, 51, 40, 102, 230, 3, 31], 11, 0, 5626454, 61947974, 2⟩, ⟨[0, 3640, 6068, 8495, 12136, 13349, 14563, 15777, 16990, 18204, 19418, 20631, 21845, 23058, 24272, 25486], [6, 2, 2, 4, 1, 1, 1, 1, 2, 1, 1, 1, 1, 1, 1, 10], [], 27, 13, 4, 16, 15, 0, 0⟩) :=
    decode_adaptive_list_step 8 hd12 hg12
  have hg10 : decode_adaptive_list (⟨[0, 255, 247, 51, 40, 102, 230, 3, 31], 8, 0, 4293788447, 4294443008, 2⟩ : arithmetic_codec)
      (⟨[0, 2048, 4096, 6144, 8192, 10240, 12288, 14336, 16384, 18432, 20480, 22528, 24576, 26624, 28672, 30720], [3, 2, 2, 3, 1, 1, 1, 1, 1, 1, 1, 1, 1, 1, 1, 5], [], 16, 11, 1, 16, 15, 0, 0⟩ : adaptive_data_model) 10 = ([15, 15, 15, 15, 15, 0, 0, 0, 8, 3], ⟨[0, 255, 247, 51, 40, 102, 230, 3, 31], 11, 0, 5626454, 61947974, 2⟩, ⟨[0, 3640, 6068, 8495, 12136, 13349, 14563, 15777, 16990, 18204, 19418, 20631, 21845, 23058, 24272, 25486], [6, 2, 2, 4, 1, 1, 1, 1, 2, 1, 1, 1, 1, 1, 1, 10], [], 27, 13, 4, 16, 15, 0, 0⟩) :=
    decode_adaptive_list_step 9 hd11 hg11
  have hg9 : decode_adaptive_list (⟨[0, 255, 247, 51, 40, 102, 230, 3, 31], 7, 0, 33547779, 268402688, 2⟩ : arithmetic_codec)
      (⟨[0, 2048, 4096, 6144, 8192, 10240, 12288, 14336, 16384, 18432, 20480, 22528, 24576, 26624, 28672, 30720], [3, 1, 2, 3, 1, 1, 1, 1, 1, 1, 1, 1, 1, 1, 1, 5], [], 16, 11, 2, 16, 15, 0, 0⟩ : adaptive_data_model) 11 = ([1, 15, 15, 15, 15, 15, 0, 0, 0, 8, 3], ⟨[0, 255, 247, 51, 40, 102, 230, 3, 31], 11, 0, 5626454, 61947974, 2⟩, ⟨[0, 3640, 6068, 8495, 12136, 13349, 14563, 15777, 16990, 18204, 19418, 20631, 21845, 23058, 24272, 25486], [6, 2, 2, 4, 1, 1, 1, 1, 2, 1, 1, 1, 1, 1, 1, 10], [], 27, 13, 4, 16, 15, 0, 0⟩) :=
    decode_adaptive_list_step 10 hd10 hg10
  have hg8 : decode_adaptive_list (⟨[0, 255, 247, 51, 40, 102, 230, 3, 31], 7, 0, 570353155, 4294443008, 2⟩ : arithmetic_codec)
      (⟨[0, 2048, 4096, 6144, 8192, 10240, 12288, 14336, 16384, 18432, 20480, 22528, 24576, 26624, 28672, 30720], [3, 1, 1, 3, 1, 1, 1, 1, 1, 1, 1, 1, 1, 1, 1, 5], [], 16, 11, 3, 16, 15, 0, 0⟩ : adaptive_data_model) 12 = ([2, 1, 15, 15, 15, 15, 15, 0, 0, 0, 8, 3], ⟨[0, 255, 247, 51, 40, 102, 230, 3, 31], 11, 0, 5626454, 61947974, 2⟩, ⟨[0, 3640, 6068, 8495, 12136, 13349, 14563, 15777, 16990, 18204, 19418, 20631, 21845, 23058, 24272, 25486], [6, 2, 2, 4, 1, 1, 1, 1, 2, 1, 1, 1, 1, 1, 1, 10], [], 27, 13, 4, 16, 15, 0, 0⟩) :=
    decode_adaptive_list_step 11 hd9 hg9
  have hg7 : decode_adaptive_list (⟨[0, 255, 247, 51, 40, 102, 230, 3, 31], 6, 0, 52553446, 268402688, 2⟩ : arithmetic_codec)
      (⟨[0, 2048, 4096, 6144, 8192, 10240, 12288, 14336, 16384, 18432, 20480, 22528, 24576, 26624, 28672, 30720], [3, 1, 1, 2, 1, 1, 1, 1, 1, 1, 1, 1, 1, 1, 1, 5], [], 16, 11, 4, 16, 15, 0, 0⟩ : adaptive_data_model) 13 = ([3, 2, 1, 15, 15, 15, 15, 15, 0, 0, 0, 8, 3], ⟨[0, 255, 247, 51, 40, 102, 230, 3, 31], 11, 0, 5626454, 61947974, 2⟩, ⟨[0, 3640, 6068, 8495, 12136, 13349, 14563, 15777, 16990, 18204, 19418, 20631, 21845, 23058, 24272, 25486], [6, 2, 2, 4, 1, 1, 1, 1, 2, 1, 1, 1, 1, 1, 1, 10], [], 27, 13, 4, 16, 15, 0, 0⟩) :=
    decode_adaptive_list_step 12 hd8 hg8
  have hg6 : decode_adaptive_list (⟨[0, 255, 247, 51, 40, 102, 230, 3, 31], 6, 0, 857761510, 4294443008, 2⟩ : arithmetic_codec)
      (⟨[0, 2048, 4096, 6144, 8192, 10240, 12288, 14336, 16384, 18432, 20480, 22528, 24576, 26624, 28672, 30720], [3, 1, 1, 1, 1, 1, 1, 1, 1, 1, 1, 1, 1, 1, 1, 5], [], 16, 11, 5, 16, 15, 0, 0⟩ : adaptive_data_model) 14 = ([3, 3, 2, 1, 15, 15, 15, 15, 15, 0, 0, 0, 8, 3], ⟨[0, 255, 247, 51, 40, 102, 230, 3, 31], 11, 0, 5626454, 61947974, 2⟩, ⟨[0, 3640, 6068, 8495, 12136, 13349, 14563, 15777, 16990, 18204, 19418, 20631, 21845, 23058, 24272, 25486], [6, 2, 2, 4, 1, 1, 1, 1, 2, 1, 1, 1, 1, 1, 1, 10], [], 27, 13, 4, 16, 15, 0, 0⟩) :=
    decode_adaptive_list_step 13 hd7 hg7
  have hg5 : decode_adaptive_list (⟨[0, 255, 247, 51, 40, 102, 230, 3, 31], 5, 0, 254978150, 268402688, 2⟩ : arithmetic_codec)
      (⟨[0, 2048, 4096, 6144, 8192, 10240, 12288, 14336, 16384, 18432, 20480, 22528, 24576, 26624, 28672, 30720], [3, 1, 1, 1, 1, 1, 1, 1, 1, 1, 1, 1, 1, 1, 1, 4], [], 16, 11, 6, 16, 15, 0, 0⟩ : adaptive_data_model) 15 = ([15, 3, 3, 2, 1, 15, 15, 15, 15, 15, 0, 0, 0, 8, 3], ⟨[0, 255, 247, 51, 40, 102, 230, 3, 31], 11, 0, 5626454, 61947974, 2⟩, ⟨[0, 3640, 6068, 8495, 12136, 13349, 14563, 15777, 16990, 18204, 19418, 20631, 21845, 23058, 24272, 25486], [6, 2, 2, 4, 1, 1, 1, 1, 2, 1, 1, 1, 1, 1, 1, 10], [], 27, 13, 4, 16, 15, 0, 0⟩) :=
    decode_adaptive_list_step 14 hd6 hg6
  have hg4 : decode_adaptive_list (⟨[0, 255, 247, 51, 40, 102, 230, 3, 31], 5, 0, 4281018470, 4294443008, 2⟩ : arithmetic_codec)
      (⟨[0, 2048, 4096, 6144, 8192, 10240, 12288, 14336, 16384, 18432, 20480, 22528, 24576, 26624, 28672, 30720], [3, 1, 1, 1, 1, 1, 1, 1, 1, 1, 1, 1, 1, 1, 1, 3], [], 16, 11, 7, 16, 15, 0, 0⟩ : adaptive_data_model) 16 = ([15, 15, 3, 3, 2, 1, 15, 15, 15, 15, 15, 0, 0, 0, 8, 3], ⟨[0, 255, 247, 51, 40, 102, 230, 3, 31], 11, 0, 5626454, 61947974, 2⟩, ⟨[0, 3640, 6068, 8495, 12136, 13349, 14563, 15777, 16990, 18204, 19418, 20631, 21845, 23058, 24272, 25486], [6, 2, 2, 4, 1, 1, 1, 1, 2, 1, 1, 1, 1, 1, 1, 10], [], 27, 13, 4, 16, 15, 0, 0⟩) :=
    decode_adaptive_list_step 15 hd5 hg5
  have hg3 : decode_adaptive_list (⟨[0, 255, 247, 51, 40, 102, 230, 3, 31], 4, 0, 268350248, 268402688, 2⟩ : arithmetic_codec)
      (⟨[0, 2048, 4096, 6144, 8192, 10240, 12288, 14336, 16384, 18432, 20480, 22528, 24576, 26624, 28672, 30720], [3, 1, 1, 1, 1, 1, 1, 1, 1, 1, 1, 1, 1, 1, 1, 2], [], 16, 11, 8, 16, 15, 0, 0⟩ : adaptive_data_model) 17 = ([15, 15, 15, 3, 3, 2, 1, 15, 15, 15, 15, 15, 0, 0, 0, 8, 3], ⟨[0, 255, 247, 51, 40, 102, 230, 3, 31], 11, 0, 5626454, 61947974, 2⟩, ⟨[0, 3640, 6068, 8495, 12136, 13349, 14563, 15777, 16990, 18204, 19418, 20631, 21845, 23058, 24272, 25486], [6, 2, 2, 4, 1, 1, 1, 1, 2, 1, 1, 1, 1, 1, 1, 10], [], 27, 13, 4, 16, 15, 0, 0⟩) :=
    decode_adaptive_list_step 16 hd4 hg4
  have hg2 : decode_adaptive_list (⟨[0, 255, 247, 51, 40, 102, 230, 3, 31], 4, 0, 4294390568, 4294443008, 2⟩ : arithmetic_codec)
      (⟨[0, 2048, 4096, 6144, 8192, 10240, 12288, 14336, 16384, 18432, 20480, 22528, 24576, 26624, 28672, 30720], [3, 1, 1, 1, 1, 1, 1, 1, 1, 1, 1, 1, 1, 1, 1, 1], [], 16, 11, 9, 16, 15, 0, 0⟩ : adaptive_data_model) 18 = ([15, 15, 15, 15, 3, 3, 2, 1, 15, 15, 15, 15, 15, 0, 0, 0, 8, 3], ⟨[0, 255, 247, 51, 40, 102, 230, 3, 31], 11, 0, 5626454, 61947974, 2⟩, ⟨[0, 3640, 6068, 8495, 12136, 13349, 14563, 15777, 16990, 18204, 19418, 20631, 21845, 23058, 24272, 25486], [6, 2, 2, 4, 1, 1, 1, 1, 2, 1, 1, 1, 1, 1, 1, 10], [], 27, 13, 4, 16, 15, 0, 0⟩) :=
    decode_adaptive_list_step 17 hd3 hg3
  have hg1 : decode_adaptive_list (⟨[0, 255, 247, 51, 40, 102, 230, 3, 31], 3, 0, 16774963, 268433408, 2⟩ : arithmetic_codec)
      (⟨[0, 2048, 4096, 6144, 8192, 10240, 12288, 14336, 16384, 18432, 20480, 22528, 24576, 26624, 28672, 30720], [2, 1, 1, 1, 1, 1, 1, 1, 1, 1, 1, 1, 1, 1, 1, 1], [], 16, 11, 10, 16, 15, 0, 0⟩ : adaptive_data_model) 19 = ([0, 15, 15, 15, 15, 3, 3, 2, 1, 15, 15, 15, 15, 15, 0, 0, 0, 8, 3], ⟨[0, 255, 247, 51, 40, 102, 230, 3, 31], 11, 0, 5626454, 61947974, 2⟩, ⟨[0, 3640, 6068, 8495, 12136, 13349, 14563, 15777, 16990, 18204, 19418, 20631, 21845, 23058, 24272, 25486], [6, 2, 2, 4, 1, 1, 1, 1, 2, 1, 1, 1, 1, 1, 1, 10], [], 27, 13, 4, 16, 15, 0, 0⟩) :=
    decode_adaptive_list_step 18 hd2 hg2
  have hg0 : decode_adaptive_list (⟨[0, 255, 247, 51, 40, 102, 230, 3, 31], 3, 0, 16774963, 4294967295, 2⟩ : arithmetic_codec)
      (⟨[0, 2048, 4096, 6144, 8192, 10240, 12288, 14336, 16384, 18432, 20480, 22528, 24576, 26624, 28672, 30720], [1, 1, 1, 1, 1, 1, 1, 1, 1, 1, 1, 1, 1, 1, 1, 1], [], 16, 11, 11, 16, 15, 0, 0⟩ : adaptive_data_model) 20 = ([0, 0, 15, 15, 15, 15, 3, 3, 2, 1, 15, 15, 15, 15, 15, 0, 0, 0, 8, 3], ⟨[0, 255, 247, 51, 40, 102, 230, 3, 31], 11, 0, 5626454, 61947974, 2⟩, ⟨[0, 3640, 6068, 8495, 12136, 13349, 14563, 15777, 16990, 18204, 19418, 20631, 21845, 23058, 24272, 25486], [6, 2, 2, 4, 1, 1, 1, 1, 2, 1, 1, 1, 1, 1, 1, 10], [], 27, 13, 4, 16, 15, 0, 0⟩) :=
    decode_adaptive_list_step 19 hd1 hg1
  constructor
  · simp only [adaptive_session_encode, hs, hm, hchain, hstop]
  · simp only [adaptive_session_decode, hds, hm, hg0]

--------------------------------------------------------------------------------
-- C1: the universal adaptive round trip.  Denotation of the decoder's
-- byte window, and arithmetic helpers.
--------------------------------------------------------------------------------

/-- The first `k` bytes the decoder can see: the written buffer, padded with
zeros past its end exactly as the `getD _ 0` reads of the embedded decoder
behave. -/
def padTake (buf : List Nat) : Nat → List Nat
  | 0 => []
  | k + 1 => padTake buf k ++ [buf.getD k 0]

theorem beVal_padTake_succ (buf : List Nat) (k : Nat) :
    beVal (padTake buf (k + 1)) = beVal (padTake buf k) * 256 + buf.getD k 0 := by
  rw [padTake, beVal_append_byte]
  ring

theorem getD_bytes_lt (B : List Nat) (hB : ∀ b ∈ B, b < 256) (i : Nat) :
    B.getD i 0 < 256 := by
  rcases Nat.lt_or_ge i B.length with h | h
  · exact getD_lt_of_forall B i 256 h hB
  · rw [List.getD_eq_getElem?_getD, List.getElem?_eq_none (by omega)]
    norm_num

/-- Reading `j` more bytes extends the big-endian window value by a
remainder below `256^j`. -/
theorem beVal_padTake_add (buf : List Nat) (hB : ∀ b ∈ buf, b < 256)
    (k : Nat) : ∀ j, ∃ r, r < 256 ^ j ∧
    beVal (padTake buf (k + j)) = beVal (padTake buf k) * 256 ^ j + r := by
  intro j
  induction j with
  | zero => exact ⟨0, by norm_num, by simp⟩
  | succ j ih =>
    obtain ⟨r, hr, he⟩ := ih
    refine ⟨r * 256 + buf.getD (k + j) 0, ?_, ?_⟩
    · have hb := getD_bytes_lt buf hB (k + j)
      calc r * 256 + buf.getD (k + j) 0 < (r + 1) * 256 := by
            rw [Nat.add_mul, Nat.one_mul]
            omega
      _ ≤ 256 ^ j * 256 := Nat.mul_le_mul_right _ (by omega)
      _ = 256 ^ (j + 1) := by ring
    · have hidx : k + (j + 1) = (k + j) + 1 := rfl
      rw [hidx, beVal_padTake_succ, he]
      ring

theorem beVal_padTake_four (buf : List Nat) :
    beVal (padTake buf 4) = buf.getD 0 0 * 2 ^ 24 + buf.getD 1 0 * 2 ^ 16 +
      buf.getD 2 0 * 2 ^ 8 + buf.getD 3 0 := by
  have e4 : padTake buf 4 = padTake buf 3 ++ [buf.getD 3 0] := rfl
  have e3 : padTake buf 3 = padTake buf 2 ++ [buf.getD 2 0] := rfl
  have e2 : padTake buf 2 = padTake buf 1 ++ [buf.getD 1 0] := rfl
  have e1 : padTake buf 1 = [] ++ [buf.getD 0 0] := rfl
  rw [e4, beVal_append_byte, e3, beVal_append_byte, e2, beVal_append_byte,
    e1, beVal_append_byte, beVal_nil]
  ring

/-- Monotone access into a strictly increasing distribution. -/
theorem chain'_getD_le (dist : List Nat) (h : List.Chain' (· < ·) dist) :
    ∀ i j, i ≤ j → j < dist.length → dist.getD i 0 ≤ dist.getD j 0 := by
  intro i j
  induction j with
  | zero =>
    intro hij _
    have : i = 0 := by omega
    rw [this]
  | succ j ih =>
    intro hij hj
    rcases Nat.lt_or_ge i (j + 1) with h1 | h1
    · calc dist.getD i 0 ≤ dist.getD j 0 := ih (by omega) (by omega)
      _ ≤ dist.getD (j + 1) 0 := le_of_lt (chain'_getD_lt dist j hj h)
    · have : i = j + 1 := by omega
      rw [this]

theorem chain'_getD_lt_of_lt (dist : List Nat) (h : List.Chain' (· < ·) dist)
    (i j : Nat) (hij : i < j) (hj : j < dist.length) :
    dist.getD i 0 < dist.getD j 0 := by
  cases j with
  | zero => omega
  | succ j0 =>
    calc dist.getD i 0 ≤ dist.getD j0 0 := chain'_getD_le dist h i j0 (by omega) (by omega)
    _ < dist.getD (j0 + 1) 0 := chain'_getD_lt dist j0 hj h

/-- Incrementing one counter adds one to the sum. -/
theorem sum_set_succ (l : List Nat) : ∀ s, s < l.length →
    (l.set s (l.getD s 0 + 1)).sum = l.sum + 1 := by
  induction l with
  | nil =>
    intro s hs
    simp at hs
  | cons a l ih =>
    intro s hs
    cases s with
    | zero =>
      simp only [List.set, List.sum_cons]
      have : (a :: l).getD 0 0 = a := rfl
      rw [this]
      omega
    | succ s =>
      simp only [List.set, List.sum_cons]
      have h1 : (a :: l).getD (s + 1) 0 = l.getD s 0 := rfl
      rw [h1, ih s (by simpa using hs)]
      omega

theorem length_le_sum (l : List Nat) (h : ∀ c ∈ l, 1 ≤ c) : l.length ≤ l.sum := by
  induction l with
  | nil => simp
  | cons a l ih =>
    simp only [List.length_cons, List.sum_cons]
    have ha := h a (by simp)
    have := ih (fun c hc => h c (by simp [hc]))
    omega

/-- Rounding-up halving at most halves the sum plus the length. -/
theorem halved_sum_le (l : List Nat) :
    2 * (l.map (fun c => (c + 1) >>> 1)).sum ≤ l.sum + l.length := by
  induction l with
  | nil => simp
  | cons a l ih =>
    simp only [List.map_cons, List.sum_cons, List.length_cons]
    have h1 : (a + 1) >>> 1 = (a + 1) / 2 := by
      rw [Nat.shiftRight_eq_div_pow]
    have h2 : 2 * ((a + 1) / 2) ≤ a + 1 := by omega
    rw [h1]
    omega

/-- Strictly increasing cumulative values when the scale is at least `2^16`
and every count is positive (no product wraps below the given bound). -/
theorem cdf_list_strict_chain (scale : Nat) (hscale : 2 ^ 16 ≤ scale) :
    ∀ (cs : List Nat) (s : Nat), (∀ c ∈ cs, 1 ≤ c) → scale * (s + cs.sum) < U32 →
    List.Chain' (· < ·) (cdf_list scale cs s) := by
  intro cs
  induction cs with
  | nil =>
    intro s _ _
    simp [cdf_list]
  | cons c cs ih =>
    intro s hc hlt
    have hc1 : 1 ≤ c := hc c (by simp)
    have hrest : scale * (s + c + cs.sum) < U32 := by
      have hs : (c :: cs).sum = c + cs.sum := by simp
      rw [hs] at hlt
      have he : s + c + cs.sum = s + (c + cs.sum) := by omega
      rw [he]
      exact hlt
    have hchain := ih (s + c) (fun x hx => hc x (by simp [hx])) hrest
    cases cs with
    | nil => simp [cdf_list]
    | cons c2 cs2 =>
      rw [cdf_list, cdf_list]
      rw [cdf_list] at hchain
      refine List.Chain'.cons ?_ hchain
      have h1 : scale * s < U32 := by
        have hs : scale * s ≤ scale * (s + (c :: c2 :: cs2).sum) :=
          Nat.mul_le_mul_left scale (by omega)
        omega
      have h2 : scale * (s + c) < U32 := by
        have hs : scale * (s + c) ≤ scale * (s + (c :: c2 :: cs2).sum) :=
          Nat.mul_le_mul_left scale (by
            have hcc : (c :: c2 :: cs2).sum = c + (c2 :: cs2).sum := by simp
            omega)
        omega
      rw [Nat.mod_eq_of_lt h1, Nat.mod_eq_of_lt h2]
      simp only [DM_LengthShift, Nat.shiftRight_eq_div_pow]
      have hstep : scale * s + 2 ^ 16 ≤ scale * (s + c) := by
        have : scale * (s + 1) ≤ scale * (s + c) :=
          Nat.mul_le_mul_left scale (by omega)
        have hm : scale * (s + 1) = scale * s + scale := Nat.mul_succ _ _
        omega
      have hd : (scale * s + 2 ^ 16) / 2 ^ 16 = scale * s / 2 ^ 16 + 1 :=
        Nat.add_div_right _ (by norm_num)
      have hmono : (scale * s + 2 ^ 16) / 2 ^ 16 ≤ scale * (s + c) / 2 ^ 16 :=
        Nat.div_le_div_right hstep
      have hgoal : (31 : Nat) - 15 = 16 := by norm_num
      rw [hgoal]
      omega

/-- The encoder renormalization loop leaves `length < MIN_LENGTH * 256`:
the last doubling starts from a value below `MIN_LENGTH`. -/
theorem renorm_enc_loop_len_ub : ∀ (bound : Nat) (buf : List Nat) (p base len : Nat),
    len < AC_MinLength →
    (renorm_enc_loop bound buf p base len).2.2.2 < AC_MinLength * 256 := by
  intro bound
  induction bound with
  | zero =>
    intro buf p base len hlen
    simp only [renorm_enc_loop]
    calc (len <<< 8) % U32 ≤ len <<< 8 := Nat.mod_le _ _
    _ = len * 2 ^ 8 := Nat.shiftLeft_eq _ _
    _ < AC_MinLength * 256 := by
        have h28 : (2 : Nat) ^ 8 = 256 := by norm_num
        rw [h28]
        simp only [AC_MinLength] at hlen ⊢
        omega
  | succ bound ih =>
    intro buf p base len hlen
    rw [renorm_enc_loop]
    by_cases hc : (len <<< 8) % U32 < AC_MinLength
    · rw [if_pos hc]
      exact ih _ _ _ _ hc
    · rw [if_neg hc]
      calc (len <<< 8) % U32 ≤ len <<< 8 := Nat.mod_le _ _
      _ = len * 2 ^ 8 := Nat.shiftLeft_eq _ _
      _ < AC_MinLength * 256 := by
          have h28 : (2 : Nat) ^ 8 = 256 := by norm_num
          rw [h28]
          simp only [AC_MinLength] at hlen ⊢
          omega

/-- The number of renormalization passes is pinned by the sandwiched length. -/
theorem renorm_j_unique (len j1 j2 : Nat)
    (h1 : AC_MinLength ≤ len * 256 ^ j1) (h1u : len * 256 ^ (j1 - 1) < AC_MinLength)
    (h2 : AC_MinLength ≤ len * 256 ^ j2) (h2u : len * 256 ^ (j2 - 1) < AC_MinLength) :
    j1 = j2 := by
  by_contra hne
  rcases Nat.lt_or_ge j1 j2 with h | h
  · have hle : len * 256 ^ j1 ≤ len * 256 ^ (j2 - 1) :=
      Nat.mul_le_mul_left _ (Nat.pow_le_pow_right (by norm_num) (by omega))
    omega
  · have hlt : j2 < j1 := by omega
    have hle : len * 256 ^ j2 ≤ len * 256 ^ (j1 - 1) :=
      Nat.mul_le_mul_left _ (Nat.pow_le_pow_right (by norm_num) (by omega))
    omega

/-- The decoder renormalization loop, exactly: `j ≥ 1` passes multiply
`length` by `256^j` into `[MIN_LENGTH, 2^32)` (with the pass count pinned by
the sandwich), advance the read pointer by `j`, and shift the next `j`
stream bytes into `value`, which stays below `length`. -/
theorem renorm_dec_loop_spec :
    ∀ (bound : Nat) (buf : List Nat) (p value len : Nat),
    0 < len → len < AC_MinLength → AC_MinLength ≤ len * 256 ^ (bound + 1) →
    value < len → (∀ b ∈ buf, b < 256) →
    ∃ j, 0 < j ∧
      (renorm_dec_loop bound buf p value len).2.2 = len * 256 ^ j ∧
      AC_MinLength ≤ len * 256 ^ j ∧ len * 256 ^ j < U32 ∧
      len * 256 ^ (j - 1) < AC_MinLength ∧
      (renorm_dec_loop bound buf p value len).1 = p + j ∧
      (renorm_dec_loop bound buf p value len).2.1 +
          beVal (padTake buf (p + 1)) * 256 ^ j =
        value * 256 ^ j + beVal (padTake buf (p + 1 + j)) ∧
      (renorm_dec_loop bound buf p value len).2.1 < len * 256 ^ j := by
  intro bound
  induction bound with
  | zero =>
    intro buf p value len hlen0 hlenM hbig hval hB
    refine ⟨1, Nat.one_pos, ?_⟩
    have hlen256 : len * 256 < U32 := by
      simp only [AC_MinLength] at hlenM
      simp only [U32]
      omega
    have hval256 : value * 256 < U32 := by
      have : value * 256 ≤ len * 256 := Nat.mul_le_mul_right _ (by omega)
      omega
    have hbig1 : AC_MinLength ≤ len * 256 := by
      have he : (256 : Nat) ^ (0 + 1) = 256 := by norm_num
      rw [he] at hbig
      exact hbig
    have hb := getD_bytes_lt buf hB (p + 1)
    simp only [renorm_dec_loop, len_shift_mod len hlen256, len_shift_mod value hval256,
      pow_one]
    refine ⟨by trivial, hbig1, hlen256, by simpa using hlenM, by trivial, ?_, ?_⟩
    · have hstep := beVal_padTake_succ buf (p + 1)
      rw [hstep]
      omega
    · omega
  | succ bound ih =>
    intro buf p value len hlen0 hlenM hbig hval hB
    have hlen256 : len * 256 < U32 := by
      simp only [AC_MinLength] at hlenM
      simp only [U32]
      omega
    have hval256 : value * 256 < U32 := by
      have : value * 256 ≤ len * 256 := Nat.mul_le_mul_right _ (by omega)
      omega
    have hb := getD_bytes_lt buf hB (p + 1)
    rw [renorm_dec_loop]
    simp only [len_shift_mod len hlen256, len_shift_mod value hval256]
    by_cases hcont : len * 256 < AC_MinLength
    · rw [if_pos hcont]
      have hbig' : AC_MinLength ≤ len * 256 * 256 ^ (bound + 1) := by
        calc AC_MinLength ≤ len * 256 ^ (bound + 1 + 1) := hbig
        _ = len * 256 * 256 ^ (bound + 1) := by ring
      have hval' : value * 256 + buf.getD (p + 1) 0 < len * 256 := by omega
      obtain ⟨j, hj0, hlenj, hminj, hUj, hsand, hpj, hvj, hvltj⟩ :=
        ih buf (p + 1) (value * 256 + buf.getD (p + 1) 0) (len * 256)
          (by omega) hcont hbig' hval' hB
      refine ⟨j + 1, by omega, ?_, ?_, ?_, ?_, ?_, ?_, ?_⟩
      · rw [hlenj]; ring
      · calc AC_MinLength ≤ len * 256 * 256 ^ j := hminj
        _ = len * 256 ^ (j + 1) := by ring
      · calc len * 256 ^ (j + 1) = len * 256 * 256 ^ j := by ring
        _ < U32 := hUj
      · have he : j + 1 - 1 = j := by omega
        rw [he]
        have hpow : 256 ^ (j - 1) * 256 = 256 ^ j := by
          rw [← pow_succ]
          congr 1
          omega
        have hexp : len * 256 * 256 ^ (j - 1) = len * 256 ^ j := by
          calc len * 256 * 256 ^ (j - 1) = len * (256 ^ (j - 1) * 256) := by ring
          _ = len * 256 ^ j := by rw [hpow]
        rw [← hexp]
        exact hsand
      · rw [hpj]; omega
      · have hstep : beVal (padTake buf (p + 1 + 1)) =
            beVal (padTake buf (p + 1)) * 256 + buf.getD (p + 1) 0 :=
          beVal_padTake_succ buf (p + 1)
        have hidx : p + 1 + 1 + j = p + 1 + (j + 1) := by omega
        rw [hstep, hidx] at hvj
        have h1 : (beVal (padTake buf (p + 1)) * 256 + buf.getD (p + 1) 0) * 256 ^ j =
            beVal (padTake buf (p + 1)) * 256 ^ (j + 1) +
              buf.getD (p + 1) 0 * 256 ^ j := by ring
        have h2 : (value * 256 + buf.getD (p + 1) 0) * 256 ^ j =
            value * 256 ^ (j + 1) + buf.getD (p + 1) 0 * 256 ^ j := by ring
        rw [h1, h2] at hvj
        omega
      · calc (renorm_dec_loop bound buf (p + 1) (value * 256 + buf.getD (p + 1) 0)
              (len * 256)).2.1 < len * 256 * 256 ^ j := hvltj
        _ = len * 256 ^ (j + 1) := by ring
    · rw [if_neg hcont]
      push_neg at hcont
      refine ⟨1, Nat.one_pos, ?_⟩
      simp only [pow_one]
      refine ⟨by trivial, hcont, hlen256, by simpa using hlenM, by trivial, ?_, ?_⟩
      · have hstep := beVal_padTake_succ buf (p + 1)
        rw [hstep]
        omega
      · omega

/-- Exact effect of the conditional renormalization at the end of a
narrowing step: `j` passes scale `length` and the stream value
`beVal bytes * 2^32 + base` by `256^j`, appending `j` bytes, with the pass
count pinned by the sandwich. -/
theorem tail_renorm_exact (c2 : arithmetic_codec)
    (hp : c2.ac_pointer = c2.code_buffer.length)
    (hb : ∀ b ∈ c2.code_buffer, b < 256)
    (hbase : c2.base < U32)
    (hlen0 : 0 < c2.length) (hlenU : c2.length < U32) :
    ∃ j,
      (if c2.length < AC_MinLength then ac_renorm_enc_interval c2 else c2).length =
        c2.length * 256 ^ j ∧
      beVal (if c2.length < AC_MinLength then ac_renorm_enc_interval c2 else
          c2).code_buffer * U32 +
        (if c2.length < AC_MinLength then ac_renorm_enc_interval c2 else c2).base =
        256 ^ j * (beVal c2.code_buffer * U32 + c2.base) ∧
      (if c2.length < AC_MinLength then ac_renorm_enc_interval c2 else
          c2).code_buffer.length = c2.code_buffer.length + j ∧
      (AC_MinLength ≤ c2.length → j = 0) ∧
      (c2.length < AC_MinLength → 0 < j ∧ c2.length * 256 ^ (j - 1) < AC_MinLength) ∧
      AC_MinLength ≤ c2.length * 256 ^ j ∧ c2.length * 256 ^ j < U32 := by
  by_cases hq : c2.length < AC_MinLength
  · rw [if_pos hq]
    have hbig : AC_MinLength ≤ c2.length * 256 ^ (24 + 1) := by
      have h1 : (16777216 : Nat) ≤ 256 ^ 25 := by norm_num
      calc AC_MinLength = 16777216 * 1 := by norm_num [AC_MinLength]
      _ ≤ 256 ^ 25 * c2.length := Nat.mul_le_mul h1 hlen0
      _ = c2.length * 256 ^ (24 + 1) := by ring
    obtain ⟨j, hj0, hlenj, hminj, hUj, hlj, hpj, hbj, hbsj, hvj⟩ :=
      renorm_enc_loop_spec 24 c2.code_buffer c2.base c2.length hlen0 hq hbig hb hbase
    have hub := renorm_enc_loop_len_ub 24 c2.code_buffer c2.code_buffer.length
      c2.base c2.length hq
    refine ⟨j, ?_, ?_, ?_, ?_, ?_, hminj, hUj⟩
    · simp only [ac_renorm_enc_interval, hp]
      exact hlenj
    · simp only [ac_renorm_enc_interval, hp]
      exact hvj
    · simp only [ac_renorm_enc_interval, hp]
      exact hlj
    · intro h
      omega
    · intro _
      refine ⟨hj0, ?_⟩
      rw [hlenj] at hub
      have hpow : c2.length * 256 ^ j = c2.length * 256 ^ (j - 1) * 256 := by
        have hje : (j - 1) + 1 = j := by omega
        calc c2.length * 256 ^ j = c2.length * 256 ^ ((j - 1) + 1) := by rw [hje]
        _ = c2.length * 256 ^ (j - 1) * 256 := by ring
      rw [hpow] at hub
      have := Nat.lt_of_mul_lt_mul_right hub
      exact this
  · rw [if_neg hq]
    push_neg at hq
    refine ⟨0, ?_, ?_, ?_, fun _ => rfl, ?_, ?_, ?_⟩
    · simp
    · simp
    · simp
    · intro h
      omega
    · simpa using hq
    · simpa using hlenU

/-- Exact effect of one full narrowing step (`base += x` with carry on
wraparound, `length := len1`, conditional renormalization): the stream
value becomes `256^j * (old value + x)` and `length` becomes
`len1 * 256^j`, with `j` pinned by the sandwich. -/
theorem narrow_tail_exact (c c1 : arithmetic_codec) (w : Prop) [Decidable w]
    (x len1 : Nat) (hinv : enc_inv c)
    (hbuf : c1.code_buffer = c.code_buffer) (hptr : c1.ac_pointer = c.ac_pointer)
    (hbase1 : c1.base = (c.base + x) % U32) (hlen1 : c1.length = len1)
    (hmode : c1.mode = c.mode)
    (hw : w ↔ (c.base + x) % U32 < c.base)
    (hx : x + len1 ≤ c.length) (hlen0 : 0 < len1) :
    ∃ j,
      (narrow_tail c1 w).length = len1 * 256 ^ j ∧
      beVal (narrow_tail c1 w).code_buffer * U32 + (narrow_tail c1 w).base =
        256 ^ j * (beVal c.code_buffer * U32 + c.base + x) ∧
      (narrow_tail c1 w).code_buffer.length = c.code_buffer.length + j ∧
      (AC_MinLength ≤ len1 → j = 0) ∧
      (len1 < AC_MinLength → 0 < j ∧ len1 * 256 ^ (j - 1) < AC_MinLength) ∧
      AC_MinLength ≤ len1 * 256 ^ j ∧ len1 * 256 ^ j < U32 := by
  obtain ⟨hm, hp, hb, hbs, hminl, hlU, hF⟩ := hinv
  have hxU : x < U32 := by omega
  have hl1U : len1 < U32 := by omega
  by_cases hwrap : U32 ≤ c.base + x
  · have hwT : w := hw.mpr ((wrap_iff c.base x hbs hxU).mpr hwrap)
    have hp1 : c1.ac_pointer = c1.code_buffer.length := by
      rw [hptr, hbuf]
      exact hp
    have hb1 : ∀ b ∈ c1.code_buffer, b < 256 := by
      rw [hbuf]
      exact hb
    have hne1 : ∃ b ∈ c1.code_buffer, b ≠ 255 := by
      rw [hbuf]
      apply exists_non_ff _ hb
      have h3 : (beVal c.code_buffer + 1) * U32 < 256 ^ c.code_buffer.length * U32 := by
        simp only [U32] at *
        omega
      have := Nat.lt_of_mul_lt_mul_right h3
      omega
    have hcar := propagate_carry_spec c1 hp1 hb1 hne1
    have hmod : (c.base + x) % U32 = c.base + x - U32 := by
      simp only [U32] at hwrap hbs hxU ⊢
      omega
    have htr := tail_renorm_exact (ac_propagate_carry c1)
      (by rw [hcar.2.2.2.1, hcar.1, hp1])
      hcar.2.1
      (by rw [hcar.2.2.2.2.1, hbase1]; exact Nat.mod_lt _ (by norm_num [U32]))
      (by rw [hcar.2.2.2.2.2.2.1, hlen1]; exact hlen0)
      (by rw [hcar.2.2.2.2.2.2.1, hlen1]; exact hl1U)
    rw [hcar.2.2.2.2.2.2.1, hlen1] at htr
    obtain ⟨j, htl, htv, htb, htj0, htjs, htmin, htU⟩ := htr
    have hGmid : beVal (ac_propagate_carry c1).code_buffer * U32 +
        (ac_propagate_carry c1).base =
        beVal c.code_buffer * U32 + c.base + x := by
      rw [hcar.2.2.1, hbuf, hcar.2.2.2.2.1, hbase1, hmod]
      simp only [U32] at hwrap hbs hxU ⊢
      omega
    rw [hGmid] at htv
    refine ⟨j, ?_, ?_, ?_, htj0, htjs, htmin, htU⟩
    · simp only [narrow_tail]
      rw [if_pos hwT, hcar.2.2.2.2.2.2.1, hlen1]
      exact htl
    · simp only [narrow_tail]
      rw [if_pos hwT, hcar.2.2.2.2.2.2.1, hlen1]
      exact htv
    · simp only [narrow_tail]
      rw [if_pos hwT, hcar.2.2.2.2.2.2.1, hlen1, htb, hcar.1, hbuf]
  · have hwF : ¬ w := by
      rw [hw, Nat.mod_eq_of_lt (by omega)]
      omega
    have htr := tail_renorm_exact c1
      (by rw [hptr, hbuf]; exact hp)
      (by rw [hbuf]; exact hb)
      (by rw [hbase1]; exact Nat.mod_lt _ (by norm_num [U32]))
      (by rw [hlen1]; exact hlen0)
      (by rw [hlen1]; exact hl1U)
    rw [hlen1] at htr
    obtain ⟨j, htl, htv, htb, htj0, htjs, htmin, htU⟩ := htr
    have hGmid : beVal c1.code_buffer * U32 + c1.base =
        beVal c.code_buffer * U32 + c.base + x := by
      rw [hbuf, hbase1, Nat.mod_eq_of_lt (by omega : c.base + x < U32)]
      ring
    rw [hGmid] at htv
    refine ⟨j, ?_, ?_, ?_, htj0, htjs, htmin, htU⟩
    · simp only [narrow_tail]
      rw [if_neg hwF, hlen1]
      exact htl
    · simp only [narrow_tail]
      rw [if_neg hwF, hlen1]
      exact htv
    · simp only [narrow_tail]
      rw [if_neg hwF, hlen1, htb, hbuf]

--------------------------------------------------------------------------------
-- C1: model-level machinery — the per-symbol model transition shared by
-- encoder and decoder, its invariants, and the decoder-table package.
--------------------------------------------------------------------------------

/-- The model mutation every coded symbol performs (count increment,
countdown, rebuild when the countdown expires), exactly as both
`ac_encode_adaptive` (with `from_encoder = 1`) and `ac_decode_adaptive`
(with `from_encoder = 0`) perform it. -/
def model_step (m : adaptive_data_model) (s : Nat) (e : Bool) : adaptive_data_model :=
  let m1 := { m with
    symbol_count := m.symbol_count.set s (m.symbol_count.getD s 0 + 1)
    symbols_until_update := m.symbols_until_update - 1 }
  if m1.symbols_until_update = 0 then adaptive_data_model_update m1 e else m1

theorem encode_adaptive_model (c : arithmetic_codec) (s : Nat)
    (m : adaptive_data_model) :
    (ac_encode_adaptive c s m).2 = model_step m s true := rfl

/-- The encoder-side and decoder-side models agree on every field except the
decoder table (which only the decoder rebuilds and only the decoder reads). -/
def models_match (m md : adaptive_data_model) : Prop :=
  md.distribution = m.distribution ∧ md.symbol_count = m.symbol_count ∧
  md.total_count = m.total_count ∧ md.update_cycle = m.update_cycle ∧
  md.symbols_until_update = m.symbols_until_update ∧
  md.data_symbols = m.data_symbols ∧ md.last_symbol = m.last_symbol ∧
  md.table_size = m.table_size ∧ md.table_shift = m.table_shift

/-- The full reachability invariant of an adaptive model during a coding
session with alphabet size `N`. -/
def model_ok (N : Nat) (m : adaptive_data_model) : Prop :=
  m.data_symbols = N ∧ m.last_symbol = N - 1 ∧
  m.symbol_count.length = N ∧ (∀ x ∈ m.symbol_count, 1 ≤ x) ∧
  m.total_count ≤ DM_MaxCount ∧
  1 ≤ m.symbols_until_update ∧ m.symbols_until_update ≤ m.update_cycle ∧
  m.update_cycle ≤ 8 * (N + 6) ∧
  m.total_count + m.update_cycle = m.symbol_count.sum + m.symbols_until_update ∧
  dist_ok m.distribution N (N - 1) ∧
  m.distribution.getD 0 0 = 0

/-- The decoder-model table invariant: no table for small alphabets, and for
`N > 16` the geometry plus the bracketing of every table slot against the
current distribution. -/
def dec_model_ok (m : adaptive_data_model) (tb : Nat) : Prop :=
  (m.data_symbols ≤ 16 → m.table_size = 0 ∧ m.decoder_table = []) ∧
  (16 < m.data_symbols →
    m.table_size = 2 ^ tb ∧ m.table_shift = DM_LengthShift - tb ∧
    3 ≤ tb ∧ tb ≤ 9 ∧
    m.decoder_table ≠ [] ∧
    (∀ e ∈ m.decoder_table, e ≤ m.data_symbols - 1) ∧
    m.decoder_table.getD (m.table_size + 1) 0 = m.data_symbols - 1 ∧
    (∀ t, t ≤ m.table_size →
      m.distribution.getD (m.decoder_table.getD t 0) 0 ≤ t * 2 ^ m.table_shift ∧
      t * 2 ^ m.table_shift ≤
        (if m.decoder_table.getD t 0 + 1 < m.data_symbols
         then m.distribution.getD (m.decoder_table.getD t 0 + 1) 0
         else 2 ^ DM_LengthShift)))

theorem dec_table_entries_le (shift : Nat) :
    ∀ (ds : List Nat) (k s : Nat), ∀ e ∈ dec_table_entries shift ds k s,
    e ≤ k + ds.length - 1 := by
  intro ds
  induction ds with
  | nil =>
    intro k s e he
    simp [dec_table_entries] at he
  | cons d ds ih =>
    intro k s e he
    rw [dec_table_entries] at he
    rcases List.mem_append.mp he with h | h
    · have := List.eq_of_mem_replicate h
      simp only [List.length_cons]
      omega
    · have := ih (k + 1) (max s (d >>> shift)) e h
      simp only [List.length_cons]
      omega

theorem dec_table_le (shift ts N : Nat) (dist : List Nat) (hN : 0 < N)
    (hlen : dist.length = N) :
    ∀ e ∈ dec_table shift ts N dist, e ≤ N - 1 := by
  intro e he
  rw [dec_table] at he
  rcases List.mem_cons.mp he with rfl | he
  · omega
  · rcases List.mem_append.mp he with h | h
    · have := dec_table_entries_le shift dist 0 0 e h
      omega
    · have := List.eq_of_mem_replicate h
      omega

theorem dec_table_getD_last (shift ts N : Nat) (dist : List Nat)
    (hW : (dec_table_entries shift dist 0 0).length ≤ ts) :
    (dec_table shift ts N dist).getD (ts + 1) 0 = N - 1 := by
  have hget : (dec_table shift ts N dist).getD (ts + 1) 0 =
      (dec_table_entries shift dist 0 0 ++
        List.replicate (ts + 1 - (dec_table_entries shift dist 0 0).length)
          (N - 1)).getD ts 0 := by
    simp [dec_table]
  rw [hget, List.getD_append_right _ _ _ _ hW]
  have hin : ts - (dec_table_entries shift dist 0 0).length <
      ts + 1 - (dec_table_entries shift dist 0 0).length := by omega
  simp [List.getD, List.getElem?_replicate, hin]

/-- Everything the decoder needs from a freshly built table: nonempty,
entries within the alphabet, the trailing pad entry, and the bracketing. -/
theorem dec_table_package (shift ts N : Nat) (dist : List Nat)
    (hlen : dist.length = N) (hN : 0 < N) (hts : 0 < ts)
    (h0 : dist.getD 0 0 = 0)
    (hbd : ∀ d ∈ dist, d >>> shift < ts) :
    dec_table shift ts N dist ≠ [] ∧
    (∀ e ∈ dec_table shift ts N dist, e ≤ N - 1) ∧
    (dec_table shift ts N dist).getD (ts + 1) 0 = N - 1 ∧
    (∀ t, t ≤ ts →
      dist.getD ((dec_table shift ts N dist).getD t 0) 0 ≤ t * 2 ^ shift ∧
      t * 2 ^ shift ≤
        (if (dec_table shift ts N dist).getD t 0 + 1 < N
         then dist.getD ((dec_table shift ts N dist).getD t 0 + 1) 0
         else ts * 2 ^ shift)) := by
  have hW : (dec_table_entries shift dist 0 0).length ≤ ts := by
    rw [dec_table_entries_length, Nat.sub_zero]
    exact wfold_le shift dist 0 ts (by omega) (fun d hd => le_of_lt (hbd d hd))
  refine ⟨by simp [dec_table], dec_table_le shift ts N dist hN hlen,
    dec_table_getD_last shift ts N dist hW, ?_⟩
  intro t ht
  exact dec_table_bracket shift ts N dist hlen hN hts h0 hbd t ht

/-- The geometry fields survive a rebuild. -/
theorem update_geom (m : adaptive_data_model) (e : Bool) :
    (adaptive_data_model_update m e).data_symbols = m.data_symbols ∧
    (adaptive_data_model_update m e).last_symbol = m.last_symbol ∧
    (adaptive_data_model_update m e).table_size = m.table_size ∧
    (adaptive_data_model_update m e).table_shift = m.table_shift := by
  by_cases hres : m.total_count + m.update_cycle > DM_MaxCount
  · simp only [adaptive_data_model_update, if_pos hres]
    exact ⟨trivial, trivial, trivial, trivial⟩
  · simp only [adaptive_data_model_update, if_neg hres]
    exact ⟨trivial, trivial, trivial, trivial⟩

/-- The conclusion of a rebuild on given final counts and total: used for
both the rescale and the plain branch of `adaptive_data_model_update`. -/
theorem rebuilt_model_ok (N : Nat) (counts : List Nat) (T cyc0 ds6 : Nat)
    (hN : 2 ≤ N)
    (hlen : counts.length = N) (hc : ∀ x ∈ counts, 1 ≤ x)
    (hT : counts.sum = T) (hTcap : T ≤ DM_MaxCount)
    (hcyc1 : 1 ≤ cyc0) (hds6 : 8 * (N + 6) = ds6) :
    T ≤ DM_MaxCount ∧
    1 ≤ (if cyc0 > ds6 then ds6 else cyc0) ∧
    (if cyc0 > ds6 then ds6 else cyc0) ≤ 8 * (N + 6) ∧
    dist_ok (cdf_list (2 ^ 31 / T) counts 0) N (N - 1) ∧
    (cdf_list (2 ^ 31 / T) counts 0).getD 0 0 = 0 := by
  have hTpos : 0 < T := by
    have h1 : N ≤ counts.sum := by
      calc N = counts.length := hlen.symm
      _ ≤ counts.sum := length_le_sum _ hc
    omega
  have hscale : 2 ^ 16 ≤ 2 ^ 31 / T := by
    rw [Nat.le_div_iff_mul_le hTpos]
    calc 2 ^ 16 * T ≤ 2 ^ 16 * 2 ^ 15 := by
          refine Nat.mul_le_mul_left _ ?_
          simpa [DM_MaxCount] using hTcap
    _ = 2 ^ 31 := by norm_num
  have hnw : 2 ^ 31 / T * (0 + counts.sum) < U32 := by
    rw [Nat.zero_add, hT]
    calc 2 ^ 31 / T * T ≤ 2 ^ 31 := Nat.div_mul_le_self _ _
    _ < U32 := by norm_num [U32]
  refine ⟨hTcap, ?_, ?_, ⟨?_, rfl, by omega, ?_, ?_⟩, cdf_list_getD_zero _ _⟩
  · split <;> omega
  · split <;> omega
  · rw [cdf_list_length, hlen]
  · exact cdf_list_strict_chain _ hscale counts 0 hc hnw
  · intro d hd
    exact cdf_list_lt_length_shift T counts 0 hc (by omega) d hd

/-- A rebuild entered on a bookkeeping-consistent state restores the full
model invariant, with the countdown reset to the new cycle. -/
theorem update_model_ok (N : Nat) (m : adaptive_data_model) (e : Bool)
    (hN : 2 ≤ N) (hN2 : N ≤ 2048)
    (hds : m.data_symbols = N) (hlast : m.last_symbol = N - 1)
    (hlen : m.symbol_count.length = N) (hc : ∀ x ∈ m.symbol_count, 1 ≤ x)
    (hcy : m.update_cycle ≤ 8 * (N + 6)) (hcy1 : 1 ≤ m.update_cycle)
    (htc : m.total_count ≤ DM_MaxCount)
    (htot : m.total_count + m.update_cycle = m.symbol_count.sum) :
    model_ok N (adaptive_data_model_update m e) := by
  have hcyc0 : 1 ≤ (5 * m.update_cycle) >>> 2 := by
    rw [Nat.shiftRight_eq_div_pow]
    have h4 : (2 : Nat) ^ 2 = 4 := by norm_num
    rw [h4]
    omega
  have hds6 : 8 * (m.data_symbols + 6) = (m.data_symbols + 6) <<< 3 := by
    rw [Nat.shiftLeft_eq]
    have h8 : (2 : Nat) ^ 3 = 8 := by norm_num
    rw [h8]
    ring
  by_cases hres : m.total_count + m.update_cycle > DM_MaxCount
  · have hhlen : (m.symbol_count.map (fun c => (c + 1) >>> 1)).length = N := by
      rw [List.length_map, hlen]
    have hhc : ∀ x ∈ m.symbol_count.map (fun c => (c + 1) >>> 1), 1 ≤ x := by
      intro x hx
      obtain ⟨y, hy, hxy⟩ := List.mem_map.mp hx
      have := hc y hy
      subst hxy
      simp only [Nat.shiftRight_eq_div_pow]
      omega
    have htcap : (m.symbol_count.map (fun c => (c + 1) >>> 1)).sum ≤ DM_MaxCount := by
      have hhalf := halved_sum_le m.symbol_count
      have hsum : m.symbol_count.sum = m.total_count + m.update_cycle := htot.symm
      simp only [DM_MaxCount] at htc ⊢
      rw [hlen] at hhalf
      omega
    have hpack := rebuilt_model_ok N (m.symbol_count.map (fun c => (c + 1) >>> 1))
      (m.symbol_count.map (fun c => (c + 1) >>> 1)).sum
      ((5 * m.update_cycle) >>> 2) ((m.data_symbols + 6) <<< 3)
      hN hhlen hhc rfl htcap hcyc0 (by rw [hds] at hds6 ⊢; exact hds6)
    obtain ⟨p1, p2, p3, p4, p5⟩ := hpack
    simp only [adaptive_data_model_update, if_pos hres]
    exact ⟨hds, hlast, hhlen, hhc, p1, p2, le_refl _, p3, rfl, p4, p5⟩
  · have hpack := rebuilt_model_ok N m.symbol_count (m.total_count + m.update_cycle)
      ((5 * m.update_cycle) >>> 2) ((m.data_symbols + 6) <<< 3)
      hN hlen hc htot.symm (by omega) hcyc0 (by rw [hds] at hds6 ⊢; exact hds6)
    obtain ⟨p1, p2, p3, p4, p5⟩ := hpack
    simp only [adaptive_data_model_update, if_neg hres]
    have hid : (m.total_count + m.update_cycle) +
        (if (5 * m.update_cycle) >>> 2 > (m.data_symbols + 6) <<< 3
         then (m.data_symbols + 6) <<< 3 else (5 * m.update_cycle) >>> 2) =
        m.symbol_count.sum +
        (if (5 * m.update_cycle) >>> 2 > (m.data_symbols + 6) <<< 3
         then (m.data_symbols + 6) <<< 3 else (5 * m.update_cycle) >>> 2) := by
      rw [htot]
    exact ⟨hds, hlast, hlen, hc, p1, p2, le_refl _, p3, hid, p4, p5⟩

/-- `model_ok` only reads matched fields, so it transports across
`models_match`. -/
theorem model_ok_of_match (N : Nat) (m md : adaptive_data_model)
    (h : models_match m md) (hm : model_ok N m) : model_ok N md := by
  obtain ⟨e1, e2, e3, e4, e5, e6, e7, e8, e9⟩ := h
  unfold model_ok dist_ok at hm ⊢
  rw [e1, e2, e3, e4, e5, e6, e7]
  exact hm

/-- One coded symbol keeps the encoder-side and decoder-side models matched,
whatever `from_encoder` flags the two sides use. -/
theorem model_step_match (m md : adaptive_data_model) (s : Nat) (e ed : Bool)
    (h : models_match m md) :
    models_match (model_step m s e) (model_step md s ed) := by
  obtain ⟨e1, e2, e3, e4, e5, e6, e7, e8, e9⟩ := h
  simp only [model_step, e2, e5]
  by_cases hz : m.symbols_until_update - 1 = 0
  · rw [if_pos hz, if_pos hz]
    refine ⟨?_, ?_, ?_, ?_, ?_, ?_, ?_, ?_, ?_⟩ <;>
      simp only [adaptive_data_model_update, e1, e2, e3, e4, e5, e6, e7, e8, e9]
  · rw [if_neg hz, if_neg hz]
    exact ⟨e1, rfl, e3, e4, rfl, e6, e7, e8, e9⟩

/-- One coded symbol preserves the model invariant. -/
theorem model_step_model_ok (N : Nat) (m : adaptive_data_model) (s : Nat) (e : Bool)
    (hN : 2 ≤ N) (hN2 : N ≤ 2048) (hmok : model_ok N m) (hs : s < N) :
    model_ok N (model_step m s e) := by
  obtain ⟨hds, hlast, hclen, hcge, htc, hsu1, hsucy, hcy8, hid, hdok, hd0⟩ := hmok
  have hslen : s < m.symbol_count.length := by omega
  have hsum1 : (m.symbol_count.set s (m.symbol_count.getD s 0 + 1)).sum =
      m.symbol_count.sum + 1 := sum_set_succ _ s hslen
  have hlen1 : (m.symbol_count.set s (m.symbol_count.getD s 0 + 1)).length = N := by
    rw [List.length_set]
    exact hclen
  have hge1 : ∀ x ∈ m.symbol_count.set s (m.symbol_count.getD s 0 + 1), 1 ≤ x := by
    intro x hx
    rcases List.mem_or_eq_of_mem_set hx with h | h
    · exact hcge x h
    · omega
  simp only [model_step]
  by_cases hz : m.symbols_until_update - 1 = 0
  · rw [if_pos hz]
    have hcy1 : 1 ≤ m.update_cycle := by omega
    have ht1 : m.total_count + m.update_cycle =
        (m.symbol_count.set s (m.symbol_count.getD s 0 + 1)).sum := by
      rw [hsum1]
      omega
    exact update_model_ok N _ e hN hN2 hds hlast hlen1 hge1 hcy8 hcy1 htc ht1
  · rw [if_neg hz]
    refine ⟨hds, hlast, hlen1, hge1, htc, ?_, ?_, hcy8, ?_, hdok, hd0⟩
    · show 1 ≤ m.symbols_until_update - 1
      omega
    · show m.symbols_until_update - 1 ≤ m.update_cycle
      omega
    · show m.total_count + m.update_cycle =
        (m.symbol_count.set s (m.symbol_count.getD s 0 + 1)).sum +
        (m.symbols_until_update - 1)
      rw [hsum1]
      omega

/-- The full decoder-table package on the rebuilt cumulative distribution. -/
theorem cdf_table_package (shift ts N T : Nat) (counts : List Nat)
    (hc : ∀ c ∈ counts, 1 ≤ c) (hlen : counts.length = N) (hN : 0 < N)
    (hts : 0 < ts) (hT : counts.sum = T)
    (hpow : ts * 2 ^ shift = 2 ^ DM_LengthShift) :
    dec_table shift ts N (cdf_list (2 ^ 31 / T) counts 0) ≠ [] ∧
    (∀ x ∈ dec_table shift ts N (cdf_list (2 ^ 31 / T) counts 0), x ≤ N - 1) ∧
    (dec_table shift ts N (cdf_list (2 ^ 31 / T) counts 0)).getD (ts + 1) 0 =
      N - 1 ∧
    (∀ t, t ≤ ts →
      (cdf_list (2 ^ 31 / T) counts 0).getD
          ((dec_table shift ts N (cdf_list (2 ^ 31 / T) counts 0)).getD t 0) 0
        ≤ t * 2 ^ shift ∧
      t * 2 ^ shift ≤
        (if (dec_table shift ts N (cdf_list (2 ^ 31 / T) counts 0)).getD t 0 + 1 < N
         then (cdf_list (2 ^ 31 / T) counts 0).getD
            ((dec_table shift ts N (cdf_list (2 ^ 31 / T) counts 0)).getD t 0 + 1) 0
         else 2 ^ DM_LengthShift)) := by
  have hdlen : (cdf_list (2 ^ 31 / T) counts 0).length = N := by
    rw [cdf_list_length, hlen]
  have h0 : (cdf_list (2 ^ 31 / T) counts 0).getD 0 0 = 0 :=
    cdf_list_getD_zero _ _
  have hbd : ∀ d ∈ cdf_list (2 ^ 31 / T) counts 0, d >>> shift < ts := by
    intro d hd
    have hlt := cdf_list_lt_length_shift T counts 0 hc (by omega) d hd
    rw [Nat.shiftRight_eq_div_pow]
    refine (Nat.div_lt_iff_lt_mul (pow_pos (by norm_num) shift)).mpr ?_
    rw [hpow]
    exact hlt
  obtain ⟨q1, q2, q3, q4⟩ :=
    dec_table_package shift ts N (cdf_list (2 ^ 31 / T) counts 0) hdlen hN hts h0 hbd
  refine ⟨q1, q2, q3, ?_⟩
  intro t ht
  obtain ⟨b1, b2⟩ := q4 t ht
  refine ⟨b1, ?_⟩
  rw [← hpow]
  exact b2

/-- A rebuild with `from_encoder = false` on a tabled model rebuilds the
decoder table with the full package against the new distribution. -/
theorem update_dec_table (md : adaptive_data_model) (tb : Nat)
    (hc : ∀ x ∈ md.symbol_count, 1 ≤ x)
    (hlen : md.symbol_count.length = md.data_symbols)
    (htot : md.total_count + md.update_cycle = md.symbol_count.sum)
    (hN : 0 < md.data_symbols)
    (htb : tb ≤ DM_LengthShift)
    (hsh : md.table_shift = DM_LengthShift - tb)
    (hts : md.table_size = 2 ^ tb) :
    (adaptive_data_model_update md false).decoder_table ≠ [] ∧
    (∀ x ∈ (adaptive_data_model_update md false).decoder_table,
      x ≤ md.data_symbols - 1) ∧
    (adaptive_data_model_update md false).decoder_table.getD
      (md.table_size + 1) 0 = md.data_symbols - 1 ∧
    (∀ t, t ≤ md.table_size →
      (adaptive_data_model_update md false).distribution.getD
          ((adaptive_data_model_update md false).decoder_table.getD t 0) 0
        ≤ t * 2 ^ md.table_shift ∧
      t * 2 ^ md.table_shift ≤
        (if (adaptive_data_model_update md false).decoder_table.getD t 0 + 1
              < md.data_symbols
         then (adaptive_data_model_update md false).distribution.getD
            ((adaptive_data_model_update md false).decoder_table.getD t 0 + 1) 0
         else 2 ^ DM_LengthShift)) := by
  have hts0 : ¬ md.table_size = 0 := by
    rw [hts]
    exact (pow_pos (by norm_num) tb).ne'
  have htspos : 0 < md.table_size := by
    rw [hts]
    exact pow_pos (by norm_num) tb
  have hpow : md.table_size * 2 ^ md.table_shift = 2 ^ DM_LengthShift := by
    rw [hts, hsh, ← pow_add]
    congr 1
    simp only [DM_LengthShift] at htb ⊢
    omega
  by_cases hres : md.total_count + md.update_cycle > DM_MaxCount
  · simp only [adaptive_data_model_update, if_pos hres, Bool.false_or,
      decide_eq_true_eq, if_neg hts0]
    refine cdf_table_package md.table_shift md.table_size md.data_symbols _
      (md.symbol_count.map fun c => (c + 1) >>> 1) ?_ ?_ hN htspos rfl hpow
    · intro x hx
      obtain ⟨y, hy, hxy⟩ := List.mem_map.mp hx
      have := hc y hy
      subst hxy
      simp only [Nat.shiftRight_eq_div_pow]
      omega
    · rw [List.length_map, hlen]
  · simp only [adaptive_data_model_update, if_neg hres, Bool.false_or,
      decide_eq_true_eq, if_neg hts0]
    exact cdf_table_package md.table_shift md.table_size md.data_symbols _
      md.symbol_count hc hlen hN htspos htot.symm hpow

/-- One decoded symbol preserves the decoder-table invariant (the rebuild
runs with `from_encoder = false` and rebuilds the table). -/
theorem model_step_dec_ok (N tb : Nat) (md : adaptive_data_model) (s : Nat)
    (hmok : model_ok N md) (hdok : dec_model_ok md tb) (hs : s < N) :
    dec_model_ok (model_step md s false) tb := by
  obtain ⟨hds, hlast, hclen, hcge, htc, hsu1, hsucy, hcy8, hid, hdokd, hd0⟩ := hmok
  obtain ⟨hsmall, hbig⟩ := hdok
  have hslen : s < md.symbol_count.length := by omega
  have hsum1 := sum_set_succ md.symbol_count s hslen
  simp only [model_step]
  by_cases hz : md.symbols_until_update - 1 = 0
  · rw [if_pos hz]
    have hg := update_geom { md with
      symbol_count := md.symbol_count.set s (md.symbol_count.getD s 0 + 1)
      symbols_until_update := md.symbols_until_update - 1 } false
    constructor
    · intro h16
      rw [hg.1] at h16
      obtain ⟨hts0, htbl⟩ := hsmall h16
      refine ⟨by rw [hg.2.2.1]; exact hts0, ?_⟩
      by_cases hres : md.total_count + md.update_cycle > DM_MaxCount
      · simp only [adaptive_data_model_update, if_pos hres]
        simp [hts0, htbl]
      · simp only [adaptive_data_model_update, if_neg hres]
        simp [hts0, htbl]
    · intro h16
      rw [hg.1] at h16
      obtain ⟨g1, g2, g3, g4, gne, gle, glast, gbr⟩ := hbig h16
      have hc1 : ∀ x ∈ md.symbol_count.set s (md.symbol_count.getD s 0 + 1),
          1 ≤ x := by
        intro x hx
        rcases List.mem_or_eq_of_mem_set hx with h | h
        · exact hcge x h
        · omega
      have hlen1 : (md.symbol_count.set s (md.symbol_count.getD s 0 + 1)).length =
          md.data_symbols := by
        rw [List.length_set, hclen, hds]
      have htot1 : md.total_count + md.update_cycle =
          (md.symbol_count.set s (md.symbol_count.getD s 0 + 1)).sum := by
        rw [hsum1]
        omega
      have htb15 : tb ≤ DM_LengthShift := by
        simp only [DM_LengthShift]
        omega
      have hupd := update_dec_table { md with
          symbol_count := md.symbol_count.set s (md.symbol_count.getD s 0 + 1)
          symbols_until_update := md.symbols_until_update - 1 } tb
        hc1 hlen1 htot1 (by omega : (0:Nat) < md.data_symbols) htb15 g2 g1
      refine ⟨by rw [hg.2.2.1]; exact g1, by rw [hg.2.2.2]; exact g2, g3, g4,
        hupd.1, ?_, ?_, ?_⟩
      · rw [hg.1]
        exact hupd.2.1
      · rw [hg.1, hg.2.2.1]
        exact hupd.2.2.1
      · rw [hg.1, hg.2.2.1, hg.2.2.2]
        exact hupd.2.2.2
  · rw [if_neg hz]
    exact ⟨hsmall, hbig⟩

/-- Exact effect of `ac_encode_adaptive` on the codec: with
`q = length >> 15`, `x = distribution[s]·q` and
`y = distribution[s+1]·q` (or the full `length` for the last symbol), the
stream value gains exactly `x` and the length becomes `(y - x) * 256^j`
for the sandwich-pinned renormalization count `j`. -/
theorem encode_adaptive_exact (c : arithmetic_codec) (m : adaptive_data_model)
    (s : Nat) (hinv : enc_inv c)
    (hdk : dist_ok m.distribution m.data_symbols m.last_symbol)
    (hs : s < m.data_symbols) :
    ∃ j,
      (ac_encode_adaptive c s m).1.length =
        ((if s = m.data_symbols - 1 then c.length
          else m.distribution.getD (s + 1) 0 * (c.length >>> DM_LengthShift)) -
          m.distribution.getD s 0 * (c.length >>> DM_LengthShift)) * 256 ^ j ∧
      beVal (ac_encode_adaptive c s m).1.code_buffer * U32 +
          (ac_encode_adaptive c s m).1.base =
        256 ^ j * (beVal c.code_buffer * U32 + c.base +
          m.distribution.getD s 0 * (c.length >>> DM_LengthShift)) ∧
      (ac_encode_adaptive c s m).1.code_buffer.length = c.code_buffer.length + j ∧
      (AC_MinLength ≤
          (if s = m.data_symbols - 1 then c.length
           else m.distribution.getD (s + 1) 0 * (c.length >>> DM_LengthShift)) -
          m.distribution.getD s 0 * (c.length >>> DM_LengthShift) → j = 0) ∧
      ((if s = m.data_symbols - 1 then c.length
        else m.distribution.getD (s + 1) 0 * (c.length >>> DM_LengthShift)) -
          m.distribution.getD s 0 * (c.length >>> DM_LengthShift) < AC_MinLength →
        0 < j ∧
        ((if s = m.data_symbols - 1 then c.length
          else m.distribution.getD (s + 1) 0 * (c.length >>> DM_LengthShift)) -
          m.distribution.getD s 0 * (c.length >>> DM_LengthShift)) * 256 ^ (j - 1) <
          AC_MinLength) ∧
      m.distribution.getD s 0 * (c.length >>> DM_LengthShift) +
        ((if s = m.data_symbols - 1 then c.length
          else m.distribution.getD (s + 1) 0 * (c.length >>> DM_LengthShift)) -
          m.distribution.getD s 0 * (c.length >>> DM_LengthShift)) ≤ c.length ∧
      0 < (if s = m.data_symbols - 1 then c.length
          else m.distribution.getD (s + 1) 0 * (c.length >>> DM_LengthShift)) -
          m.distribution.getD s 0 * (c.length >>> DM_LengthShift) ∧
      enc_inv (ac_encode_adaptive c s m).1 := by
  obtain ⟨hdlen, hdlast, hdpos, hchain, hbd⟩ := hdk
  have hminl := hinv.2.2.2.2.1
  have hlU := hinv.2.2.2.2.2.1
  have hdata : s < m.distribution.length := by omega
  have hL : c.length >>> DM_LengthShift = c.length / 2 ^ 15 := by
    rw [Nat.shiftRight_eq_div_pow]
    rfl
  have hLmul : c.length / 2 ^ 15 * 2 ^ 15 ≤ c.length := Nat.div_mul_le_self _ _
  have hLpos : 0 < c.length / 2 ^ 15 :=
    Nat.div_pos (by simp only [AC_MinLength] at hminl; omega) (by norm_num)
  have hd : m.distribution.getD s 0 < 2 ^ 15 :=
    getD_lt_of_forall m.distribution s _ hdata hbd
  have hxle : m.distribution.getD s 0 * (c.length >>> DM_LengthShift) ≤
      c.length - c.length / 2 ^ 15 := by
    rw [hL]
    calc m.distribution.getD s 0 * (c.length / 2 ^ 15)
        ≤ (2 ^ 15 - 1) * (c.length / 2 ^ 15) :=
          Nat.mul_le_mul_right _ (by omega)
    _ = c.length / 2 ^ 15 * 2 ^ 15 - c.length / 2 ^ 15 := by
        rw [Nat.sub_one_mul]
        ring_nf
    _ ≤ c.length - c.length / 2 ^ 15 := by omega
  have hxU : m.distribution.getD s 0 * (c.length >>> DM_LengthShift) < U32 := by
    have : c.length < U32 := hlU
    omega
  have hmodx : m.distribution.getD s 0 * (c.length >>> DM_LengthShift) % U32 =
      m.distribution.getD s 0 * (c.length >>> DM_LengthShift) :=
    Nat.mod_eq_of_lt hxU
  by_cases hcase : s = m.last_symbol
  · have hsN : s = m.data_symbols - 1 := by omega
    have hsub : u32sub c.length
        (m.distribution.getD s 0 * (c.length >>> DM_LengthShift) % U32) =
        c.length - m.distribution.getD s 0 * (c.length >>> DM_LengthShift) := by
      rw [hmodx]
      exact u32sub_eq _ _ (by omega) hlU
    have heq : (ac_encode_adaptive c s m).1 = narrow_tail
        { c with
        base := (c.base +
          m.distribution.getD s 0 * (c.length >>> DM_LengthShift) % U32) % U32,
        length := u32sub c.length
          (m.distribution.getD s 0 * (c.length >>> DM_LengthShift) % U32) }
        ((c.base +
          m.distribution.getD s 0 * (c.length >>> DM_LengthShift) % U32) % U32 <
          c.base) := by
      simp only [ac_encode_adaptive, if_pos hcase]
    obtain ⟨j, p1, p2, p3, p4, p5, p6, p7⟩ := narrow_tail_exact c
      { c with
        base := (c.base +
          m.distribution.getD s 0 * (c.length >>> DM_LengthShift) % U32) % U32,
        length := u32sub c.length
          (m.distribution.getD s 0 * (c.length >>> DM_LengthShift) % U32) }
      ((c.base +
        m.distribution.getD s 0 * (c.length >>> DM_LengthShift) % U32) % U32 <
        c.base)
      (m.distribution.getD s 0 * (c.length >>> DM_LengthShift) % U32)
      (c.length - m.distribution.getD s 0 * (c.length >>> DM_LengthShift))
      hinv rfl rfl rfl hsub rfl Iff.rfl
      (by rw [hmodx]; omega) (by omega)
    rw [heq]
    refine ⟨j, ?_, ?_, p3, ?_, ?_, ?_, ?_, ?_⟩
    · rw [if_pos hsN]
      exact p1
    · have hfix : (256:Nat) ^ j * (beVal c.code_buffer * U32 + c.base +
          m.distribution.getD s 0 * (c.length >>> DM_LengthShift) % U32) =
          256 ^ j * (beVal c.code_buffer * U32 + c.base +
          m.distribution.getD s 0 * (c.length >>> DM_LengthShift)) := by
        rw [hmodx]
      rw [← hfix]
      exact p2
    · rw [if_pos hsN]
      exact p4
    · rw [if_pos hsN]
      exact p5
    · rw [if_pos hsN]
      omega
    · rw [if_pos hsN]
      omega
    · exact narrow_tail_inv c
        { c with
        base := (c.base +
          m.distribution.getD s 0 * (c.length >>> DM_LengthShift) % U32) % U32,
        length := u32sub c.length
          (m.distribution.getD s 0 * (c.length >>> DM_LengthShift) % U32) }
        _ (m.distribution.getD s 0 * (c.length >>> DM_LengthShift) % U32)
        (c.length - m.distribution.getD s 0 * (c.length >>> DM_LengthShift))
        hinv rfl rfl rfl hsub rfl Iff.rfl
        (by rw [hmodx]; omega) (by omega)
  · have hnext : s + 1 < m.distribution.length := by omega
    have hsN : ¬ (s = m.data_symbols - 1) := by omega
    have hd2 : m.distribution.getD (s + 1) 0 < 2 ^ 15 :=
      getD_lt_of_forall m.distribution (s + 1) _ hnext hbd
    have hdlt : m.distribution.getD s 0 < m.distribution.getD (s + 1) 0 :=
      chain'_getD_lt m.distribution s hnext hchain
    have hx2 : m.distribution.getD (s + 1) 0 * (c.length >>> DM_LengthShift) ≤
        c.length - c.length / 2 ^ 15 := by
      rw [hL]
      calc m.distribution.getD (s + 1) 0 * (c.length / 2 ^ 15)
          ≤ (2 ^ 15 - 1) * (c.length / 2 ^ 15) :=
            Nat.mul_le_mul_right _ (by omega)
      _ = c.length / 2 ^ 15 * 2 ^ 15 - c.length / 2 ^ 15 := by
          rw [Nat.sub_one_mul]
          ring_nf
      _ ≤ c.length - c.length / 2 ^ 15 := by omega
    have hx2U : m.distribution.getD (s + 1) 0 * (c.length >>> DM_LengthShift) <
        U32 := by omega
    have hsub : u32sub
        (m.distribution.getD (s + 1) 0 * (c.length >>> DM_LengthShift) % U32)
        (m.distribution.getD s 0 * (c.length >>> DM_LengthShift) % U32) =
        m.distribution.getD (s + 1) 0 * (c.length >>> DM_LengthShift) -
          m.distribution.getD s 0 * (c.length >>> DM_LengthShift) := by
      rw [hmodx, Nat.mod_eq_of_lt hx2U]
      exact u32sub_eq _ _ (Nat.mul_le_mul_right _ (by omega)) hx2U
    have hgap : 0 < m.distribution.getD (s + 1) 0 * (c.length >>> DM_LengthShift) -
        m.distribution.getD s 0 * (c.length >>> DM_LengthShift) := by
      have h4 : (m.distribution.getD (s + 1) 0 - m.distribution.getD s 0) *
          (c.length >>> DM_LengthShift) ≤
          m.distribution.getD (s + 1) 0 * (c.length >>> DM_LengthShift) -
            m.distribution.getD s 0 * (c.length >>> DM_LengthShift) := by
        rw [Nat.sub_mul]
      have h5 : 0 < (m.distribution.getD (s + 1) 0 - m.distribution.getD s 0) *
          (c.length >>> DM_LengthShift) := by
        apply Nat.mul_pos (by omega)
        rw [hL]
        exact hLpos
      omega
    have heq : (ac_encode_adaptive c s m).1 = narrow_tail
        { c with
        base := (c.base +
          m.distribution.getD s 0 * (c.length >>> DM_LengthShift) % U32) % U32,
        length := u32sub
          (m.distribution.getD (s + 1) 0 * (c.length >>> DM_LengthShift) % U32)
          (m.distribution.getD s 0 * (c.length >>> DM_LengthShift) % U32) }
        ((c.base +
          m.distribution.getD s 0 * (c.length >>> DM_LengthShift) % U32) % U32 <
          c.base) := by
      simp only [ac_encode_adaptive, if_neg hcase]
    obtain ⟨j, p1, p2, p3, p4, p5, p6, p7⟩ := narrow_tail_exact c
      { c with
        base := (c.base +
          m.distribution.getD s 0 * (c.length >>> DM_LengthShift) % U32) % U32,
        length := u32sub
          (m.distribution.getD (s + 1) 0 * (c.length >>> DM_LengthShift) % U32)
          (m.distribution.getD s 0 * (c.length >>> DM_LengthShift) % U32) }
      ((c.base +
        m.distribution.getD s 0 * (c.length >>> DM_LengthShift) % U32) % U32 <
        c.base)
      (m.distribution.getD s 0 * (c.length >>> DM_LengthShift) % U32)
      (m.distribution.getD (s + 1) 0 * (c.length >>> DM_LengthShift) -
        m.distribution.getD s 0 * (c.length >>> DM_LengthShift))
      hinv rfl rfl rfl hsub rfl Iff.rfl
      (by rw [hmodx]; omega) hgap
    rw [heq]
    refine ⟨j, ?_, ?_, p3, ?_, ?_, ?_, ?_, ?_⟩
    · rw [if_neg hsN]
      exact p1
    · have hfix : (256:Nat) ^ j * (beVal c.code_buffer * U32 + c.base +
          m.distribution.getD s 0 * (c.length >>> DM_LengthShift) % U32) =
          256 ^ j * (beVal c.code_buffer * U32 + c.base +
          m.distribution.getD s 0 * (c.length >>> DM_LengthShift)) := by
        rw [hmodx]
      rw [← hfix]
      exact p2
    · rw [if_neg hsN]
      exact p4
    · rw [if_neg hsN]
      exact p5
    · rw [if_neg hsN]
      omega
    · rw [if_neg hsN]
      exact hgap
    · exact narrow_tail_inv c
        { c with
        base := (c.base +
          m.distribution.getD s 0 * (c.length >>> DM_LengthShift) % U32) % U32,
        length := u32sub
          (m.distribution.getD (s + 1) 0 * (c.length >>> DM_LengthShift) % U32)
          (m.distribution.getD s 0 * (c.length >>> DM_LengthShift) % U32) }
        _ (m.distribution.getD s 0 * (c.length >>> DM_LengthShift) % U32)
        (m.distribution.getD (s + 1) 0 * (c.length >>> DM_LengthShift) -
          m.distribution.getD s 0 * (c.length >>> DM_LengthShift))
        hinv rfl rfl rfl hsub rfl Iff.rfl
        (by rw [hmodx]; omega) hgap

--------------------------------------------------------------------------------
-- C1: the decoder's symbol searches — both bisection loops, characterized.
--------------------------------------------------------------------------------

theorem shiftRight_one_eq (n : Nat) : n >>> 1 = n / 2 := by
  rw [Nat.shiftRight_eq_div_pow, pow_one]

theorem getD_lt_all (dist : List Nat) (v : Nat) (hv : 0 < v)
    (h : ∀ d ∈ dist, d < v) (i : Nat) : dist.getD i 0 < v := by
  rcases Nat.lt_or_ge i dist.length with hlt | hge
  · exact getD_lt_of_forall dist i v hlt h
  · rw [List.getD_eq_getElem?_getD, List.getElem?_eq_none (by omega)]
    exact hv

/-- The table-branch bisection: entered on a bracket `dist[s] ≤ dv` (and
`dv < dist[n]` while `n` is still inside the alphabet), it returns the
symbol whose distribution slice contains `dv`. -/
theorem bisect_loop_spec :
    ∀ (bound : Nat) (dist : List Nat) (dv s n N : Nat),
    n ≤ s + bound + 1 → s < n → n ≤ N →
    dist.getD s 0 ≤ dv → (n < N → dv < dist.getD n 0) →
    bisect_loop bound dist dv s n < N ∧
    dist.getD (bisect_loop bound dist dv s n) 0 ≤ dv ∧
    (bisect_loop bound dist dv s n + 1 < N →
      dv < dist.getD (bisect_loop bound dist dv s n + 1) 0) := by
  intro bound
  induction bound with
  | zero =>
    intro dist dv s n N hb hsn hnN hls hun
    have hn : n = s + 1 := by omega
    subst hn
    simp only [bisect_loop]
    exact ⟨by omega, hls, hun⟩
  | succ bound ih =>
    intro dist dv s n N hb hsn hnN hls hun
    rw [bisect_loop]
    by_cases hgt : n > s + 1
    · rw [if_pos hgt]
      have hm2 : (s + n) >>> 1 = (s + n) / 2 := shiftRight_one_eq _
      by_cases hdm : dist.getD ((s + n) >>> 1) 0 > dv
      · rw [if_pos hdm]
        exact ih dist dv s ((s + n) >>> 1) N (by rw [hm2]; omega)
          (by rw [hm2]; omega) (by rw [hm2]; omega) hls (fun _ => hdm)
      · rw [if_neg hdm]
        exact ih dist dv ((s + n) >>> 1) n N (by rw [hm2]; omega)
          (by rw [hm2]; omega) hnN (by omega) hun
    · rw [if_neg hgt]
      have hn : n = s + 1 := by omega
      subst hn
      exact ⟨by omega, hls, hun⟩

theorem bisect2_loop_zero_le (dist : List Nat) (len value s n x y : Nat)
    (h : ¬ len * dist.getD ((s + n) >>> 1) 0 % U32 > value) :
    bisect2_loop 0 dist len value s n x y =
      ((s + n) >>> 1, len * dist.getD ((s + n) >>> 1) 0 % U32, y) := by
  simp only [bisect2_loop]
  rw [if_neg h]

theorem bisect2_loop_succ_gt (bound : Nat) (dist : List Nat)
    (len value s n x y : Nat)
    (h : len * dist.getD ((s + n) >>> 1) 0 % U32 > value) :
    bisect2_loop (bound + 1) dist len value s n x y =
      (if (s + (s + n) >>> 1) >>> 1 ≠ s then
        bisect2_loop bound dist len value s ((s + n) >>> 1) x
          (len * dist.getD ((s + n) >>> 1) 0 % U32)
      else (s, x, len * dist.getD ((s + n) >>> 1) 0 % U32)) := by
  simp only [bisect2_loop]
  rw [if_pos h]

theorem bisect2_loop_succ_le (bound : Nat) (dist : List Nat)
    (len value s n x y : Nat)
    (h : ¬ len * dist.getD ((s + n) >>> 1) 0 % U32 > value) :
    bisect2_loop (bound + 1) dist len value s n x y =
      (if ((s + n) >>> 1 + n) >>> 1 ≠ (s + n) >>> 1 then
        bisect2_loop bound dist len value ((s + n) >>> 1) n
          (len * dist.getD ((s + n) >>> 1) 0 % U32) y
      else ((s + n) >>> 1, len * dist.getD ((s + n) >>> 1) 0 % U32, y)) := by
  simp only [bisect2_loop]
  rw [if_neg h]

/-- The no-table do-while bisection: starting from the invariant state
(`x` the scaled lower distribution value at `s`, `y` the scaled value at `n`
or the pre-shift length at the alphabet boundary, and `x ≤ value < y`), it
returns the containing symbol together with its exact interval bounds. -/
theorem bisect2_loop_spec :
    ∀ (bound : Nat) (dist : List Nat) (len value s n x y y0 N : Nat),
    n ≤ s + bound + 1 → s < n → n ≤ N →
    x = len * dist.getD s 0 % U32 →
    y = (if n < N then len * dist.getD n 0 % U32 else y0) →
    x ≤ value → value < y →
    ∃ t, t < N ∧
      bisect2_loop bound dist len value s n x y =
        (t, len * dist.getD t 0 % U32,
          if t + 1 < N then len * dist.getD (t + 1) 0 % U32 else y0) ∧
      len * dist.getD t 0 % U32 ≤ value ∧
      value < (if t + 1 < N then len * dist.getD (t + 1) 0 % U32 else y0) := by
  intro bound
  induction bound with
  | zero =>
    intro dist len value s n x y y0 N hb hsn hnN hx hy hxv hvy
    have hn : n = s + 1 := by omega
    subst hn
    subst hx
    subst hy
    have hm : (s + (s + 1)) >>> 1 = s := by
      rw [shiftRight_one_eq]
      omega
    refine ⟨s, by omega, ?_, hxv, hvy⟩
    rw [bisect2_loop_zero_le dist len value s (s + 1) _ _ (by rw [hm]; omega), hm]
  | succ bound ih =>
    intro dist len value s n x y y0 N hb hsn hnN hx hy hxv hvy
    have hm2 : (s + n) >>> 1 = (s + n) / 2 := shiftRight_one_eq _
    by_cases hz : len * dist.getD ((s + n) >>> 1) 0 % U32 > value
    · -- probe above the value: move the upper end down to the probe
      have hn2 : s + 2 ≤ n := by
        by_contra hcon
        have hn1 : n = s + 1 := by omega
        rw [hn1, show (s + (s + 1)) >>> 1 = s from by rw [shiftRight_one_eq]; omega]
          at hz
        rw [hx] at hxv
        omega
      have hsm : s < (s + n) >>> 1 := by rw [hm2]; omega
      by_cases hc : (s + (s + n) >>> 1) >>> 1 ≠ s
      · obtain ⟨t, ht1, ht2, ht3, ht4⟩ := ih dist len value s ((s + n) >>> 1) x
          (len * dist.getD ((s + n) >>> 1) 0 % U32) y0 N
          (by rw [hm2]; omega) hsm (by rw [hm2]; omega) hx
          (by rw [if_pos (by rw [hm2]; omega : (s + n) >>> 1 < N)]) hxv hz
        refine ⟨t, ht1, ?_, ht3, ht4⟩
        rw [bisect2_loop_succ_gt bound dist len value s n x y hz, if_pos hc]
        exact ht2
      · have hc2 : (s + (s + n) >>> 1) / 2 = s := by
          rw [← shiftRight_one_eq]
          omega
        rw [hm2] at hc2
        have hms : (s + n) >>> 1 = s + 1 := by rw [hm2]; omega
        refine ⟨s, by omega, ?_, by rw [← hx]; exact hxv, ?_⟩
        · rw [bisect2_loop_succ_gt bound dist len value s n x y hz, if_neg hc,
            hms, hx, if_pos (by rw [hm2] at hms; omega : s + 1 < N)]
        · rw [if_pos (by rw [hm2] at hms; omega : s + 1 < N), ← hms]
          exact hz
    · -- probe at or below the value: move the lower end up to the probe
      have hmn : (s + n) >>> 1 < n := by rw [hm2]; omega
      by_cases hc : ((s + n) >>> 1 + n) >>> 1 ≠ (s + n) >>> 1
      · obtain ⟨t, ht1, ht2, ht3, ht4⟩ := ih dist len value ((s + n) >>> 1) n
          (len * dist.getD ((s + n) >>> 1) 0 % U32) y y0 N
          (by rw [hm2]; omega) hmn hnN rfl hy (by omega) hvy
        refine ⟨t, ht1, ?_, ht3, ht4⟩
        rw [bisect2_loop_succ_le bound dist len value s n x y hz, if_pos hc]
        exact ht2
      · have hc2 : ((s + n) >>> 1 + n) / 2 = (s + n) >>> 1 := by
          rw [← shiftRight_one_eq]
          omega
        rw [hm2] at hc2
        have hnm : n = (s + n) / 2 + 1 := by omega
        refine ⟨(s + n) >>> 1, by rw [hm2]; omega, ?_, by omega, ?_⟩
        · rw [bisect2_loop_succ_le bound dist len value s n x y hz, if_neg hc, hy]
          have he : n = (s + n) >>> 1 + 1 := by rw [hm2]; omega
          rw [← he]
        · have he : n = (s + n) >>> 1 + 1 := by rw [hm2]; omega
          rw [← he]
          rw [← hy]
          exact hvy

--------------------------------------------------------------------------------
-- C1: one decoding step, exactly — the branch result and the codec update.
--------------------------------------------------------------------------------

theorem getD_le_of_forall (l : List Nat) (i v : Nat) (hi : i < l.length)
    (h : ∀ d ∈ l, d ≤ v) : l.getD i 0 ≤ v := by
  rw [List.getD_eq_getElem?_getD, List.getElem?_eq_getElem hi]
  exact h _ (List.getElem_mem hi)

/-- A distribution value scaled by `length >> 15` never exceeds `length`. -/
theorem scaled_le_length (L v : Nat) (hmin : AC_MinLength ≤ L)
    (hv : v < 2 ^ DM_LengthShift) :
    v * (L >>> DM_LengthShift) ≤ L := by
  have hq : L >>> DM_LengthShift = L / 2 ^ 15 := by
    rw [Nat.shiftRight_eq_div_pow]
    rfl
  have h1 : L / 2 ^ 15 * 2 ^ 15 ≤ L := Nat.div_mul_le_self _ _
  have h15 : (2 : Nat) ^ 15 = 32768 := by norm_num
  have hv' : v ≤ 32767 := by
    simp only [DM_LengthShift] at hv
    omega
  have h2 : v * (L / 2 ^ 15) ≤ 32767 * (L / 2 ^ 15) :=
    Nat.mul_le_mul_right _ hv'
  rw [hq]
  refine le_trans h2 ?_
  rw [h15] at h1
  omega

/-- The branch computation of `ac_decode_adaptive` (and `ac_decode_static`):
the decoded symbol with its scaled interval bounds. -/
def dec_branch (c : arithmetic_codec) (model : adaptive_data_model) :
    Nat × Nat × Nat :=
  if model.decoder_table ≠ [] then
    let len := c.length >>> DM_LengthShift
    let dv := c.value / len
    let t := dv >>> model.table_shift
    let s := ac_bisect model.distribution dv (model.decoder_table.getD t 0)
      (model.decoder_table.getD (t + 1) 0 + 1)
    let x := model.distribution.getD s 0 * len % U32
    let y := if s ≠ model.last_symbol then
        model.distribution.getD (s + 1) 0 * len % U32
      else c.length
    (s, x, y)
  else
    let len := c.length >>> DM_LengthShift
    ac_bisect2 model.distribution len c.value 0 model.data_symbols 0 c.length

/-- The interval update and conditional renormalization shared by every
decoding operation of a model. -/
def dec_update (c : arithmetic_codec) (x y : Nat) : arithmetic_codec :=
  let c1 := { c with value := u32sub c.value x, length := u32sub y x }
  if c1.length < AC_MinLength then ac_renorm_dec_interval c1 else c1

theorem ac_decode_adaptive_char (c : arithmetic_codec)
    (md : adaptive_data_model) :
    ac_decode_adaptive c md =
      ((dec_branch c md).1,
       dec_update c (dec_branch c md).2.1 (dec_branch c md).2.2,
       model_step md (dec_branch c md).1 false) := rfl

/-- Exact effect of the decoder's interval update: the length shrinks to
`(y - x) * 256^j` for the sandwich-pinned renormalization count `j`, the
read pointer advances by `j`, and the decode value absorbs the next `j`
stream bytes after losing `x`. -/
theorem decode_tail_exact (c : arithmetic_codec) (x y : Nat)
    (hB : ∀ b ∈ c.code_buffer, b < 256)
    (hxv : x ≤ c.value) (hvy : c.value < y) (hyl : y ≤ c.length)
    (hlU : c.length < U32) :
    ∃ j,
      (dec_update c x y).length = (y - x) * 256 ^ j ∧
      (AC_MinLength ≤ y - x → j = 0) ∧
      (y - x < AC_MinLength → 0 < j ∧ (y - x) * 256 ^ (j - 1) < AC_MinLength) ∧
      AC_MinLength ≤ (y - x) * 256 ^ j ∧ (y - x) * 256 ^ j < U32 ∧
      (dec_update c x y).ac_pointer = c.ac_pointer + j ∧
      (dec_update c x y).value +
          beVal (padTake c.code_buffer (c.ac_pointer + 1)) * 256 ^ j =
        (c.value - x) * 256 ^ j +
          beVal (padTake c.code_buffer (c.ac_pointer + 1 + j)) ∧
      (dec_update c x y).value < (dec_update c x y).length ∧
      (dec_update c x y).code_buffer = c.code_buffer ∧
      (dec_update c x y).mode = c.mode := by
  have hvU : c.value < U32 := by omega
  have hyU : y < U32 := by omega
  have hsv : u32sub c.value x = c.value - x := u32sub_eq _ _ hxv hvU
  have hsy : u32sub y x = y - x := u32sub_eq _ _ (by omega) hyU
  simp only [dec_update, hsv, hsy]
  by_cases hren : y - x < AC_MinLength
  · rw [if_pos hren]
    have hbig : AC_MinLength ≤ (y - x) * 256 ^ (24 + 1) := by
      have h1 : (16777216 : Nat) ≤ 256 ^ 25 := by norm_num
      calc AC_MinLength = 16777216 * 1 := by norm_num [AC_MinLength]
      _ ≤ 256 ^ 25 * (y - x) := Nat.mul_le_mul h1 (by omega)
      _ = (y - x) * 256 ^ (24 + 1) := by ring
    obtain ⟨j, hj0, hlenj, hminj, hUj, hsand, hpj, hvj, hvltj⟩ :=
      renorm_dec_loop_spec 24 c.code_buffer c.ac_pointer (c.value - x) (y - x)
        (by omega) hren hbig (by omega) hB
    simp only [ac_renorm_dec_interval]
    refine ⟨j, hlenj, fun h => by omega, fun _ => ⟨hj0, hsand⟩, hminj, hUj, hpj,
      hvj, ?_, by trivial, by trivial⟩
    rw [hlenj]
    exact hvltj
  · rw [if_neg hren]
    refine ⟨0, by rw [pow_zero, Nat.mul_one],
      fun _ => rfl, fun h => by omega,
      by rw [pow_zero, Nat.mul_one]; omega,
      by rw [pow_zero, Nat.mul_one]; omega,
      by rw [Nat.add_zero],
      by rw [pow_zero, Nat.mul_one, Nat.mul_one, Nat.add_zero],
      by show c.value - x < y - x; omega, rfl, rfl⟩

/-- The no-table branch finds exactly the symbol whose scaled interval
contains the decode value. -/
theorem dec_branch_notable (c : arithmetic_codec) (md : adaptive_data_model)
    (N s : Nat)
    (htab : md.decoder_table = [])
    (hds : md.data_symbols = N) (hlast : md.last_symbol = N - 1)
    (hN : 2 ≤ N)
    (hdlen : md.distribution.length = N)
    (hchain : List.Chain' (· < ·) md.distribution)
    (hbd : ∀ d ∈ md.distribution, d < 2 ^ DM_LengthShift)
    (hd0 : md.distribution.getD 0 0 = 0)
    (hs : s < N)
    (hmin : AC_MinLength ≤ c.length) (hlU : c.length < U32)
    (hval : c.value < c.length)
    (hlow : md.distribution.getD s 0 * (c.length >>> DM_LengthShift) ≤ c.value)
    (hhigh : c.value < (if s = N - 1 then c.length
      else md.distribution.getD (s + 1) 0 * (c.length >>> DM_LengthShift))) :
    dec_branch c md =
      (s, md.distribution.getD s 0 * (c.length >>> DM_LengthShift),
        if s = N - 1 then c.length
        else md.distribution.getD (s + 1) 0 * (c.length >>> DM_LengthShift)) := by
  have hq : c.length >>> DM_LengthShift = c.length / 2 ^ 15 := by
    rw [Nat.shiftRight_eq_div_pow]
    rfl
  have hqU : c.length >>> DM_LengthShift < 2 ^ 17 := by
    rw [hq]
    simp only [U32] at hlU
    omega
  have hdlt : ∀ i, md.distribution.getD i 0 < 2 ^ DM_LengthShift :=
    getD_lt_all md.distribution _ (by norm_num [DM_LengthShift]) hbd
  have hmod : ∀ i, (c.length >>> DM_LengthShift) * md.distribution.getD i 0 % U32 =
      (c.length >>> DM_LengthShift) * md.distribution.getD i 0 := by
    intro i
    apply Nat.mod_eq_of_lt
    have h1 := hdlt i
    calc (c.length >>> DM_LengthShift) * md.distribution.getD i 0
        ≤ 2 ^ 17 * md.distribution.getD i 0 := Nat.mul_le_mul_right _ (by omega)
    _ < 2 ^ 17 * 2 ^ 15 := by
        have h2 : md.distribution.getD i 0 < 2 ^ DM_LengthShift := h1
        simp only [DM_LengthShift] at h2
        omega
    _ = 2 ^ 32 := by norm_num
    _ = U32 := by norm_num [U32]
  obtain ⟨t, ht1, ht2, ht3, ht4⟩ := bisect2_loop_spec N md.distribution
    (c.length >>> DM_LengthShift) c.value 0 N 0 c.length c.length N
    (by omega) (by omega) (le_refl N)
    (by rw [hd0, Nat.mul_zero, Nat.zero_mod])
    (by rw [if_neg (by omega : ¬ N < N)]) (Nat.zero_le _) hval
  have hts : t = s := by
    rcases Nat.lt_trichotomy t s with hlt | heq | hgt
    · have h1 : t + 1 < N := by omega
      rw [if_pos h1, hmod (t + 1)] at ht4
      have h2 : md.distribution.getD (t + 1) 0 ≤ md.distribution.getD s 0 :=
        chain'_getD_le _ hchain (t + 1) s (by omega) (by omega)
      have h3 : (c.length >>> DM_LengthShift) * md.distribution.getD (t + 1) 0 ≤
          (c.length >>> DM_LengthShift) * md.distribution.getD s 0 :=
        Nat.mul_le_mul_left _ h2
      have h4 : (c.length >>> DM_LengthShift) * md.distribution.getD s 0 =
          md.distribution.getD s 0 * (c.length >>> DM_LengthShift) :=
        Nat.mul_comm _ _
      omega
    · exact heq
    · by_cases hsl : s = N - 1
      · omega
      · rw [if_neg hsl] at hhigh
        rw [hmod t] at ht3
        have h2 : md.distribution.getD (s + 1) 0 ≤ md.distribution.getD t 0 :=
          chain'_getD_le _ hchain (s + 1) t (by omega) (by omega)
        have h3 : (c.length >>> DM_LengthShift) * md.distribution.getD (s + 1) 0 ≤
            (c.length >>> DM_LengthShift) * md.distribution.getD t 0 :=
          Nat.mul_le_mul_left _ h2
        have h4 : md.distribution.getD (s + 1) 0 * (c.length >>> DM_LengthShift) =
            (c.length >>> DM_LengthShift) * md.distribution.getD (s + 1) 0 :=
          Nat.mul_comm _ _
        omega
  subst hts
  have hxeq : (c.length >>> DM_LengthShift) * md.distribution.getD t 0 % U32 =
      md.distribution.getD t 0 * (c.length >>> DM_LengthShift) := by
    rw [hmod t]
    exact Nat.mul_comm _ _
  have hyeq : (if t + 1 < N then
        (c.length >>> DM_LengthShift) * md.distribution.getD (t + 1) 0 % U32
      else c.length) =
      (if t = N - 1 then c.length
       else md.distribution.getD (t + 1) 0 * (c.length >>> DM_LengthShift)) := by
    by_cases hsl : t = N - 1
    · rw [if_pos hsl, if_neg (by omega : ¬ t + 1 < N)]
    · rw [if_neg hsl, if_pos (by omega : t + 1 < N), hmod (t + 1)]
      exact Nat.mul_comm _ _
  simp only [dec_branch]
  rw [if_neg (by simp [htab]), hds]
  simp only [ac_bisect2, Nat.sub_zero]
  rw [ht2, hxeq, hyeq]

/-- The table branch finds exactly the symbol whose scaled interval contains
the decode value: the table look-up seeds the bisection with a valid bracket
around the scaled value's window. -/
theorem dec_branch_table (c : arithmetic_codec) (md : adaptive_data_model)
    (N tb s : Nat)
    (htab : md.decoder_table ≠ [])
    (hds : md.data_symbols = N) (hlast : md.last_symbol = N - 1)
    (hN : 2 ≤ N)
    (hdlen : md.distribution.length = N)
    (hchain : List.Chain' (· < ·) md.distribution)
    (hbd : ∀ d ∈ md.distribution, d < 2 ^ DM_LengthShift)
    (hdok : dec_model_ok md tb)
    (hs : s < N)
    (hmin : AC_MinLength ≤ c.length) (hlU : c.length < U32)
    (hval : c.value < c.length)
    (hlow : md.distribution.getD s 0 * (c.length >>> DM_LengthShift) ≤ c.value)
    (hhigh : c.value < (if s = N - 1 then c.length
      else md.distribution.getD (s + 1) 0 * (c.length >>> DM_LengthShift))) :
    dec_branch c md =
      (s, md.distribution.getD s 0 * (c.length >>> DM_LengthShift),
        if s = N - 1 then c.length
        else md.distribution.getD (s + 1) 0 * (c.length >>> DM_LengthShift)) := by
  have h16 : 16 < md.data_symbols := by
    by_contra h
    exact htab (hdok.1 (by omega)).2
  obtain ⟨g1, g2, g3, g4, gne, gle, glast, gbr⟩ := hdok.2 h16
  have hq : c.length >>> DM_LengthShift = c.length / 2 ^ 15 := by
    rw [Nat.shiftRight_eq_div_pow]
    rfl
  have hqpos : 0 < c.length >>> DM_LengthShift := by
    rw [hq]
    simp only [AC_MinLength] at hmin
    omega
  have hqU : c.length >>> DM_LengthShift < 2 ^ 17 := by
    rw [hq]
    simp only [U32] at hlU
    omega
  have hdvb : c.value / (c.length >>> DM_LengthShift) < 2 ^ 15 + 2 ^ 6 := by
    rw [Nat.div_lt_iff_lt_mul hqpos, hq]
    have h1 : 2 ^ 9 ≤ c.length / 2 ^ 15 := by
      simp only [AC_MinLength] at hmin
      omega
    omega
  have hdlt : ∀ i, md.distribution.getD i 0 < 2 ^ DM_LengthShift :=
    getD_lt_all md.distribution _ (by norm_num [DM_LengthShift]) hbd
  simp only [dec_branch]
  rw [if_pos htab]
  simp only [ac_bisect]
  set q := c.length >>> DM_LengthShift with hqdef
  set dv := c.value / q with hdvdef
  set t0 := dv >>> md.table_shift with ht0def
  set S0 := md.decoder_table.getD t0 0 with hS0def
  set E1 := md.decoder_table.getD (t0 + 1) 0 with hE1def
  have hmodr : ∀ i, md.distribution.getD i 0 * q % U32 =
      md.distribution.getD i 0 * q := by
    intro i
    apply Nat.mod_eq_of_lt
    have h1 := hdlt i
    simp only [DM_LengthShift] at h1
    calc md.distribution.getD i 0 * q ≤ 2 ^ 15 * q :=
          Nat.mul_le_mul_right _ (by omega)
    _ < 2 ^ 15 * 2 ^ 17 := by omega
    _ = 2 ^ 32 := by norm_num
    _ = U32 := by norm_num [U32]
  have hpow : md.table_size * 2 ^ md.table_shift = 2 ^ 15 := by
    rw [g1, g2, ← pow_add]
    congr 1
    simp only [DM_LengthShift]
    omega
  have hshpos : 0 < 2 ^ md.table_shift := pow_pos (by norm_num) _
  have hshift6 : 2 ^ 6 ≤ 2 ^ md.table_shift := by
    rw [g2]
    exact Nat.pow_le_pow_right (by norm_num)
      (by simp only [DM_LengthShift]; omega)
  have ht0le : t0 ≤ md.table_size := by
    rw [ht0def, Nat.shiftRight_eq_div_pow]
    have h1 : dv < (md.table_size + 1) * 2 ^ md.table_shift := by
      have h2 : (md.table_size + 1) * 2 ^ md.table_shift =
          md.table_size * 2 ^ md.table_shift + 2 ^ md.table_shift := by ring
      rw [h2, hpow]
      omega
    have h3 := (Nat.div_lt_iff_lt_mul hshpos).mpr h1
    omega
  have hdvlow : t0 * 2 ^ md.table_shift ≤ dv := by
    rw [ht0def, Nat.shiftRight_eq_div_pow]
    exact Nat.div_mul_le_self _ _
  have hdvhigh : dv < (t0 + 1) * 2 ^ md.table_shift := by
    rw [ht0def, Nat.shiftRight_eq_div_pow]
    have h1 := Nat.div_add_mod dv (2 ^ md.table_shift)
    have h2 : dv % 2 ^ md.table_shift < 2 ^ md.table_shift := Nat.mod_lt _ hshpos
    have h3 : (dv / 2 ^ md.table_shift + 1) * 2 ^ md.table_shift =
        2 ^ md.table_shift * (dv / 2 ^ md.table_shift) + 2 ^ md.table_shift := by
      ring
    omega
  have htlen : md.table_size + 1 < md.decoder_table.length := by
    by_contra h
    have h2 : md.decoder_table.getD (md.table_size + 1) 0 = 0 := by
      rw [List.getD_eq_getElem?_getD, List.getElem?_eq_none (by omega)]
      rfl
    rw [glast] at h2
    omega
  have hent : ∀ i, i ≤ md.table_size + 1 → md.decoder_table.getD i 0 ≤ N - 1 := by
    intro i hi
    have h1 := getD_le_of_forall md.decoder_table i (md.data_symbols - 1)
      (by omega) gle
    omega
  have hbr0 := gbr t0 ht0le
  rw [← hS0def] at hbr0
  have hSE : S0 ≤ E1 := by
    rcases Nat.lt_or_ge t0 md.table_size with hlt | hge
    · by_contra hcon
      push_neg at hcon
      have hbr1 := gbr (t0 + 1) (by omega)
      rw [← hE1def] at hbr1
      have hS0N : S0 ≤ N - 1 := by
        rw [hS0def]
        exact hent t0 (by omega)
      have hE1N : E1 + 1 < md.data_symbols := by omega
      rw [if_pos hE1N] at hbr1
      have hmono : md.distribution.getD (E1 + 1) 0 ≤ md.distribution.getD S0 0 :=
        chain'_getD_le _ hchain _ _ (by omega) (by omega)
      have hb0 := hbr0.1
      have hb1 := hbr1.2
      have hstep : (t0 + 1) * 2 ^ md.table_shift =
          t0 * 2 ^ md.table_shift + 2 ^ md.table_shift := by ring
      omega
    · have he : t0 = md.table_size := by omega
      have hE : E1 = md.data_symbols - 1 := by
        rw [hE1def, he]
        exact glast
      have hS0N : S0 ≤ N - 1 := by
        rw [hS0def]
        exact hent t0 (by omega)
      omega
  have hn0N : E1 + 1 ≤ N := by
    have h1 : E1 ≤ N - 1 := by
      rw [hE1def]
      exact hent (t0 + 1) (by omega)
    omega
  have hup : E1 + 1 < N →
      dv < md.distribution.getD (E1 + 1) 0 := by
    intro hn0
    rcases Nat.lt_or_ge t0 md.table_size with hlt | hge
    · have hbr1 := gbr (t0 + 1) (by omega)
      rw [← hE1def] at hbr1
      rw [if_pos (by omega : E1 + 1 < md.data_symbols)] at hbr1
      have hb1 := hbr1.2
      omega
    · have he : t0 = md.table_size := by omega
      have hE : E1 = md.data_symbols - 1 := by
        rw [hE1def, he]
        exact glast
      omega
  have hlow0 : md.distribution.getD S0 0 ≤ dv := le_trans hbr0.1 hdvlow
  obtain ⟨r1, r2, r3⟩ := bisect_loop_spec (E1 + 1 - S0) md.distribution dv S0
    (E1 + 1) N (by omega) (by omega) hn0N hlow0 hup
  set R := bisect_loop (E1 + 1 - S0) md.distribution dv S0 (E1 + 1) with hRdef
  have hlows : md.distribution.getD s 0 ≤ dv := by
    rw [hdvdef, Nat.le_div_iff_mul_le hqpos]
    exact hlow
  have hhighs : s + 1 < N → dv < md.distribution.getD (s + 1) 0 := by
    intro h
    rw [hdvdef, Nat.div_lt_iff_lt_mul hqpos]
    rw [if_neg (by omega : ¬ s = N - 1)] at hhigh
    exact hhigh
  have hts : R = s := by
    rcases Nat.lt_trichotomy R s with hlt | heq | hgt
    · have h1 := r3 (by omega)
      have h2 : md.distribution.getD (R + 1) 0 ≤ md.distribution.getD s 0 :=
        chain'_getD_le _ hchain _ _ (by omega) (by omega)
      omega
    · exact heq
    · by_cases hsl : s = N - 1
      · omega
      · have h1 := hhighs (by omega)
        have h2 : md.distribution.getD (s + 1) 0 ≤ md.distribution.getD R 0 :=
          chain'_getD_le _ hchain _ _ (by omega) (by omega)
        omega
  have hyeq : (if s ≠ md.last_symbol then
        md.distribution.getD (s + 1) 0 * q % U32
      else c.length) =
      (if s = N - 1 then c.length
       else md.distribution.getD (s + 1) 0 * q) := by
    by_cases hsl : s = N - 1
    · rw [if_neg (by omega : ¬ s ≠ md.last_symbol), if_pos hsl]
    · rw [if_pos (by omega : s ≠ md.last_symbol), if_neg hsl, hmodr (s + 1)]
  rw [hts, hmodr s, hyeq]

/-- Exact effect of `ac_decode_adaptive` on a state whose decode value lies
in the scaled interval of symbol `s`: the decoder finds `s`, performs the
interval update, and steps the model exactly as the encoder does. -/
theorem decode_adaptive_exact (c : arithmetic_codec) (md : adaptive_data_model)
    (N tb s : Nat)
    (hN : 2 ≤ N) (hmok : model_ok N md) (hdok : dec_model_ok md tb)
    (hs : s < N)
    (hmin : AC_MinLength ≤ c.length) (hlU : c.length < U32)
    (hval : c.value < c.length)
    (hlow : md.distribution.getD s 0 * (c.length >>> DM_LengthShift) ≤ c.value)
    (hhigh : c.value < (if s = N - 1 then c.length
      else md.distribution.getD (s + 1) 0 * (c.length >>> DM_LengthShift))) :
    ac_decode_adaptive c md =
      (s, dec_update c
            (md.distribution.getD s 0 * (c.length >>> DM_LengthShift))
            (if s = N - 1 then c.length
             else md.distribution.getD (s + 1) 0 * (c.length >>> DM_LengthShift)),
        model_step md s false) := by
  obtain ⟨hds, hlast, hclen, hcge, htc, hsu1, hsucy, hcy8, hid, hdok2, hd0⟩ := hmok
  obtain ⟨hdlen, hlast2, hNpos, hchain, hbd⟩ := hdok2
  have hr : dec_branch c md =
      (s, md.distribution.getD s 0 * (c.length >>> DM_LengthShift),
        if s = N - 1 then c.length
        else md.distribution.getD (s + 1) 0 * (c.length >>> DM_LengthShift)) := by
    by_cases htab : md.decoder_table = []
    · exact dec_branch_notable c md N s htab hds hlast hN hdlen hchain hbd hd0
        hs hmin hlU hval hlow hhigh
    · exact dec_branch_table c md N tb s htab hds hlast hN hdlen hchain hbd hdok
        hs hmin hlU hval hlow hhigh
  rw [ac_decode_adaptive_char c md, hr]

--------------------------------------------------------------------------------
-- C1: the simulation layer — containment of the final stream window in the
-- encoder's interval, and its back-propagation through an encode session.
--------------------------------------------------------------------------------

/-- The (zero-padded) four-bytes-ahead window of the final buffer `B` lies
inside the encoder state's current interval. -/
def contain (B : List Nat) (c : arithmetic_codec) : Prop :=
  beVal c.code_buffer * U32 + c.base ≤ beVal (padTake B (c.ac_pointer + 4)) ∧
  beVal (padTake B (c.ac_pointer + 4)) <
    beVal c.code_buffer * U32 + c.base + c.length

/-- Forward-simulation relation between an encoder state and the decoder
state reading the produced buffer `B`. -/
def dec_sim (B : List Nat) (c d : arithmetic_codec) : Prop :=
  d.mode = 2 ∧ d.code_buffer = B ∧ d.ac_pointer = c.ac_pointer + 3 ∧
  d.length = c.length ∧
  d.value + (beVal c.code_buffer * U32 + c.base) =
    beVal (padTake B (c.ac_pointer + 4)) ∧
  d.value < d.length

/-- Dividing a containment of the scaled interval by the scale factor. -/
theorem contain_unscale (j G x d K r : Nat)
    (hr : r < 256 ^ j)
    (hlow : 256 ^ j * (G + x) ≤ K * 256 ^ j + r)
    (hhigh : K * 256 ^ j + r < 256 ^ j * (G + x) + d * 256 ^ j) :
    G + x ≤ K ∧ K < G + x + d := by
  constructor
  · have h1 : 256 ^ j * (G + x) < 256 ^ j * (K + 1) := by
      have h2 : K * 256 ^ j + r < (K + 1) * 256 ^ j := by
        rw [Nat.add_mul, Nat.one_mul]
        omega
      have h3 : (K + 1) * 256 ^ j = 256 ^ j * (K + 1) := Nat.mul_comm _ _
      omega
    have h4 := Nat.lt_of_mul_lt_mul_left h1
    omega
  · have h2 : 256 ^ j * K < 256 ^ j * (G + x + d) := by
      have h3 : 256 ^ j * K = K * 256 ^ j := Nat.mul_comm _ _
      have h4 : 256 ^ j * (G + x) + d * 256 ^ j = 256 ^ j * (G + x + d) := by
        ring
      omega
    exact Nat.lt_of_mul_lt_mul_left h2

/-- The codec and model invariants hold at every state of an adaptive
encode session. -/
theorem encode_list_inv (N : Nat) (hN : 2 ≤ N) (hN2 : N ≤ 2048) :
    ∀ (S : List Nat) (c : arithmetic_codec) (m : adaptive_data_model),
    enc_inv c → model_ok N m → (∀ s ∈ S, s < N) →
    enc_inv (encode_adaptive_list c m S).1 ∧
    model_ok N (encode_adaptive_list c m S).2 := by
  intro S
  induction S with
  | nil =>
    intro c m hinv hmok hall
    exact ⟨hinv, hmok⟩
  | cons s rest ih =>
    intro c m hinv hmok hall
    have hstep : encode_adaptive_list c m (s :: rest) =
        encode_adaptive_list (ac_encode_adaptive c s m).1
          (ac_encode_adaptive c s m).2 rest := rfl
    rw [hstep]
    have hs : s < N := hall s (List.mem_cons_self _ _)
    have hdk : dist_ok m.distribution m.data_symbols m.last_symbol := by
      rw [hmok.1, hmok.2.1]
      exact hmok.2.2.2.2.2.2.2.2.2.1
    obtain ⟨j, p1, p2, p3, p4, p5, p6, p7, p8⟩ :=
      encode_adaptive_exact c m s hinv hdk (by rw [hmok.1]; exact hs)
    have hm1 : model_ok N (ac_encode_adaptive c s m).2 := by
      rw [encode_adaptive_model]
      exact model_step_model_ok N m s true hN hN2 hmok hs
    exact ih _ _ p8 hm1 (fun t ht => hall t (List.mem_cons_of_mem _ ht))

/-- Containment of the final window propagates backwards through an encode
session: if it holds at the final encoder state, it holds at every earlier
state (stated for the head state). -/
theorem encode_backprop (N : Nat) (hN : 2 ≤ N) (hN2 : N ≤ 2048) (B : List Nat)
    (hB : ∀ b ∈ B, b < 256) :
    ∀ (S : List Nat) (c : arithmetic_codec) (m : adaptive_data_model),
    enc_inv c → model_ok N m → (∀ s ∈ S, s < N) →
    contain B (encode_adaptive_list c m S).1 → contain B c := by
  intro S
  induction S with
  | nil =>
    intro c m hinv hmok hall hc
    exact hc
  | cons s rest ih =>
    intro c m hinv hmok hall hc
    have hstep : encode_adaptive_list c m (s :: rest) =
        encode_adaptive_list (ac_encode_adaptive c s m).1
          (ac_encode_adaptive c s m).2 rest := rfl
    rw [hstep] at hc
    have hs : s < N := hall s (List.mem_cons_self _ _)
    have hdk : dist_ok m.distribution m.data_symbols m.last_symbol := by
      rw [hmok.1, hmok.2.1]
      exact hmok.2.2.2.2.2.2.2.2.2.1
    obtain ⟨j, p1, p2, p3, p4, p5, p6, p7, p8⟩ :=
      encode_adaptive_exact c m s hinv hdk (by rw [hmok.1]; exact hs)
    have hm1 : model_ok N (ac_encode_adaptive c s m).2 := by
      rw [encode_adaptive_model]
      exact model_step_model_ok N m s true hN hN2 hmok hs
    have hc1 : contain B (ac_encode_adaptive c s m).1 :=
      ih _ _ p8 hm1 (fun t ht => hall t (List.mem_cons_of_mem _ ht)) hc
    have hptr1 : (ac_encode_adaptive c s m).1.ac_pointer = c.ac_pointer + j := by
      rw [p8.2.1, p3, hinv.2.1]
    obtain ⟨r, hr, hKe⟩ := beVal_padTake_add B hB (c.ac_pointer + 4) j
    simp only [contain] at hc1 ⊢
    obtain ⟨hcl, hch⟩ := hc1
    rw [hptr1, show c.ac_pointer + j + 4 = c.ac_pointer + 4 + j from by omega,
      hKe, p2] at hcl
    rw [hptr1, show c.ac_pointer + j + 4 = c.ac_pointer + 4 + j from by omega,
      hKe, p2, p1] at hch
    obtain ⟨q1, q2⟩ := contain_unscale j (beVal c.code_buffer * U32 + c.base)
      (m.distribution.getD s 0 * (c.length >>> DM_LengthShift))
      ((if s = m.data_symbols - 1 then c.length
        else m.distribution.getD (s + 1) 0 * (c.length >>> DM_LengthShift)) -
        m.distribution.getD s 0 * (c.length >>> DM_LengthShift))
      (beVal (padTake B (c.ac_pointer + 4))) r hr hcl hch
    exact ⟨by omega, by omega⟩

/-- Forward simulation: as long as the final stream window stays inside the
encoder's interval at the end of the session, the decoder started in
simulation with matching models reproduces the encoded symbol list. -/
theorem sim_master (N : Nat) (hN : 2 ≤ N) (hN2 : N ≤ 2048) (B : List Nat)
    (hB : ∀ b ∈ B, b < 256) (tb : Nat) :
    ∀ (S : List Nat) (c d : arithmetic_codec) (m md : adaptive_data_model),
    enc_inv c → model_ok N m → models_match m md → dec_model_ok md tb →
    (∀ s ∈ S, s < N) → dec_sim B c d →
    contain B (encode_adaptive_list c m S).1 →
    (decode_adaptive_list d md S.length).1 = S := by
  intro S
  induction S with
  | nil =>
    intro c d m md hinv hmok hmatch hdok hall hsim hcont
    rfl
  | cons s rest ih =>
    intro c d m md hinv hmok hmatch hdok hall hsim hcont
    obtain ⟨hdm, hdb, hdp, hdl, hdv, hdvl⟩ := hsim
    have hs : s < N := hall s (List.mem_cons_self _ _)
    have hdk : dist_ok m.distribution m.data_symbols m.last_symbol := by
      rw [hmok.1, hmok.2.1]
      exact hmok.2.2.2.2.2.2.2.2.2.1
    have hminl : AC_MinLength ≤ c.length := hinv.2.2.2.2.1
    have hlU : c.length < U32 := hinv.2.2.2.2.2.1
    obtain ⟨j, p1, p2, p3, p4, p5, p6, p7, p8⟩ :=
      encode_adaptive_exact c m s hinv hdk (by rw [hmok.1]; exact hs)
    rw [hmok.1] at p1 p4 p5 p6 p7
    have hm1 : model_ok N (ac_encode_adaptive c s m).2 := by
      rw [encode_adaptive_model]
      exact model_step_model_ok N m s true hN hN2 hmok hs
    have hstep : encode_adaptive_list c m (s :: rest) =
        encode_adaptive_list (ac_encode_adaptive c s m).1
          (ac_encode_adaptive c s m).2 rest := rfl
    rw [hstep] at hcont
    have hc1 : contain B (ac_encode_adaptive c s m).1 :=
      encode_backprop N hN hN2 B hB rest _ _ p8 hm1
        (fun t ht => hall t (List.mem_cons_of_mem _ ht)) hcont
    have hptr1 : (ac_encode_adaptive c s m).1.ac_pointer = c.ac_pointer + j := by
      rw [p8.2.1, p3, hinv.2.1]
    obtain ⟨r, hr, hKe⟩ := beVal_padTake_add B hB (c.ac_pointer + 4) j
    simp only [contain] at hc1
    obtain ⟨hcl, hch⟩ := hc1
    rw [hptr1, show c.ac_pointer + j + 4 = c.ac_pointer + 4 + j from by omega,
      hKe, p2] at hcl
    rw [hptr1, show c.ac_pointer + j + 4 = c.ac_pointer + 4 + j from by omega,
      hKe, p2, p1] at hch
    obtain ⟨q1, q2⟩ := contain_unscale j (beVal c.code_buffer * U32 + c.base)
      (m.distribution.getD s 0 * (c.length >>> DM_LengthShift))
      ((if s = N - 1 then c.length
        else m.distribution.getD (s + 1) 0 * (c.length >>> DM_LengthShift)) -
        m.distribution.getD s 0 * (c.length >>> DM_LengthShift))
      (beVal (padTake B (c.ac_pointer + 4))) r hr hcl hch
    have hxd : m.distribution.getD s 0 * (c.length >>> DM_LengthShift) ≤
        d.value := by omega
    have hyd : d.value < (if s = N - 1 then c.length
        else m.distribution.getD (s + 1) 0 * (c.length >>> DM_LengthShift)) := by
      omega
    obtain ⟨e1, e2, e3, e4, e5, e6, e7, e8, e9⟩ := hmatch
    have hmokd : model_ok N md :=
      model_ok_of_match N m md ⟨e1, e2, e3, e4, e5, e6, e7, e8, e9⟩ hmok
    have hdec := decode_adaptive_exact d md N tb s hN hmokd hdok hs
      (by rw [hdl]; exact hminl) (by rw [hdl]; exact hlU) hdvl
      (by rw [e1, hdl]; exact hxd)
      (by rw [e1, hdl]; exact hyd)
    have hxyd : md.distribution.getD s 0 * (d.length >>> DM_LengthShift) =
        m.distribution.getD s 0 * (c.length >>> DM_LengthShift) := by
      rw [e1, hdl]
    have hyyd : (if s = N - 1 then d.length
        else md.distribution.getD (s + 1) 0 * (d.length >>> DM_LengthShift)) =
        (if s = N - 1 then c.length
         else m.distribution.getD (s + 1) 0 * (c.length >>> DM_LengthShift)) := by
      rw [e1, hdl]
    rw [hxyd, hyyd] at hdec
    have hyle : (if s = N - 1 then c.length
        else m.distribution.getD (s + 1) 0 * (c.length >>> DM_LengthShift)) ≤
        d.length := by
      rw [hdl]
      by_cases hsl : s = N - 1
      · exact le_of_eq (if_pos hsl)
      · rw [if_neg hsl]
        exact scaled_le_length c.length _ hminl
          (getD_lt_all m.distribution _ (by norm_num [DM_LengthShift])
            hdk.2.2.2.2 (s + 1))
    obtain ⟨j2, t1, t2, t3, t4, t5, t6, t7, t8, t9, t10⟩ :=
      decode_tail_exact d
        (m.distribution.getD s 0 * (c.length >>> DM_LengthShift))
        (if s = N - 1 then c.length
         else m.distribution.getD (s + 1) 0 * (c.length >>> DM_LengthShift))
        (by rw [hdb]; exact hB) hxd hyd hyle (by rw [hdl]; exact hlU)
    have hjj : j2 = j := by
      by_cases hd0 : (if s = N - 1 then c.length
          else m.distribution.getD (s + 1) 0 * (c.length >>> DM_LengthShift)) -
          m.distribution.getD s 0 * (c.length >>> DM_LengthShift) <
          AC_MinLength
      · obtain ⟨hj2a, hj2b⟩ := t3 hd0
        obtain ⟨hja, hjb⟩ := p5 hd0
        have henc1 : AC_MinLength ≤
            ((if s = N - 1 then c.length
              else m.distribution.getD (s + 1) 0 *
                (c.length >>> DM_LengthShift)) -
              m.distribution.getD s 0 * (c.length >>> DM_LengthShift)) *
              256 ^ j := by
          rw [← p1]
          exact p8.2.2.2.2.1
        exact renorm_j_unique _ j2 j t4 hj2b henc1 hjb
      · have h1 := t2 (by omega)
        have h2 := p4 (by omega)
        omega
    rw [hjj] at t1 t6 t7
    rw [hdb, hdp, show c.ac_pointer + 3 + 1 = c.ac_pointer + 4 from by omega,
      hKe] at t7
    have hsim1 : dec_sim B (ac_encode_adaptive c s m).1
        (dec_update d
          (m.distribution.getD s 0 * (c.length >>> DM_LengthShift))
          (if s = N - 1 then c.length
           else m.distribution.getD (s + 1) 0 *
             (c.length >>> DM_LengthShift))) := by
      refine ⟨by rw [t10]; exact hdm, by rw [t9]; exact hdb, ?_, ?_, ?_, t8⟩
      · rw [t6, hptr1, hdp]
        omega
      · rw [t1, p1]
      · rw [p2, hptr1,
          show c.ac_pointer + j + 4 = c.ac_pointer + 4 + j from by omega, hKe]
        have hsub : (d.value -
              m.distribution.getD s 0 * (c.length >>> DM_LengthShift)) *
              256 ^ j +
            m.distribution.getD s 0 * (c.length >>> DM_LengthShift) * 256 ^ j =
            d.value * 256 ^ j := by
          rw [← Nat.add_mul]
          congr 1
          omega
        have hGx : (256 : Nat) ^ j * (beVal c.code_buffer * U32 + c.base +
              m.distribution.getD s 0 * (c.length >>> DM_LengthShift)) =
            (beVal c.code_buffer * U32 + c.base) * 256 ^ j +
              m.distribution.getD s 0 * (c.length >>> DM_LengthShift) *
                256 ^ j := by
          ring
        have hKv : d.value * 256 ^ j +
            (beVal c.code_buffer * U32 + c.base) * 256 ^ j =
            beVal (padTake B (c.ac_pointer + 4)) * 256 ^ j := by
          rw [← Nat.add_mul, hdv]
        omega
    have hmatch1 : models_match (ac_encode_adaptive c s m).2
        (model_step md s false) := by
      rw [encode_adaptive_model]
      exact model_step_match m md s true false ⟨e1, e2, e3, e4, e5, e6, e7, e8, e9⟩
    have hdok1 : dec_model_ok (model_step md s false) tb :=
      model_step_dec_ok N tb md s hmokd hdok hs
    have hrest := ih (ac_encode_adaptive c s m).1
      (dec_update d
        (m.distribution.getD s 0 * (c.length >>> DM_LengthShift))
        (if s = N - 1 then c.length
         else m.distribution.getD (s + 1) 0 * (c.length >>> DM_LengthShift)))
      (ac_encode_adaptive c s m).2 (model_step md s false)
      p8 hm1 hmatch1 hdok1 (fun t ht => hall t (List.mem_cons_of_mem _ ht))
      hsim1 hcont
    have hlen : (s :: rest).length = rest.length + 1 := rfl
    rw [hlen, decode_adaptive_list_step rest.length hdec rfl, hrest]

--------------------------------------------------------------------------------
-- C1: the stop anchor — the two trailing bytes emitted by `ac_stop_encoder`
-- leave the final stream window inside the last encoding interval.
--------------------------------------------------------------------------------

theorem padTake_eq (buf : List Nat) :
    ∀ k, padTake buf k = buf.take k ++ List.replicate (k - buf.length) 0 := by
  intro k
  induction k with
  | zero => simp [padTake]
  | succ k ih =>
    rw [padTake, ih]
    rcases Nat.lt_or_ge k buf.length with hlt | hge
    · have h1 : k + 1 - buf.length = 0 := by omega
      have h2 : k - buf.length = 0 := by omega
      rw [h1, h2]
      simp only [List.replicate_zero, List.append_nil]
      rw [List.take_succ, List.getD_eq_getElem?_getD, List.getElem?_eq_getElem hlt]
      rfl
    · have h2 : k + 1 - buf.length = (k - buf.length) + 1 := by omega
      have hgd : buf.getD k 0 = 0 := by
        rw [List.getD_eq_getElem?_getD, List.getElem?_eq_none (by omega)]
        rfl
      rw [h2, List.replicate_succ', hgd, List.take_of_length_le hge,
        List.take_of_length_le (by omega : buf.length ≤ k + 1),
        ← List.append_assoc]

theorem beVal_append_zeros (B : List Nat) :
    ∀ e, beVal (B ++ List.replicate e 0) = beVal B * 256 ^ e := by
  intro e
  induction e with
  | zero => simp
  | succ e ih =>
    rw [List.replicate_succ', ← List.append_assoc, beVal_append_byte, ih]
    ring

/-- Reading past the end of the buffer only scales its big-endian value. -/
theorem beVal_padTake_ge (B : List Nat) (e : Nat) :
    beVal (padTake B (B.length + e)) = beVal B * 256 ^ e := by
  rw [padTake_eq, List.take_of_length_le (by omega),
    show B.length + e - B.length = e from by omega]
  exact beVal_append_zeros B e

/-- The interval move, carry and unconditional renormalization performed by
`ac_stop_encoder` after choosing the trailing-byte case. -/
def stop_update (c : arithmetic_codec) (x len1 : Nat) : arithmetic_codec :=
  let c1 := { c with mode := 0, base := (c.base + x) % U32, length := len1 }
  ac_renorm_enc_interval (if c.base > c1.base then ac_propagate_carry c1 else c1)

theorem ac_stop_encoder_char (c : arithmetic_codec) :
    ac_stop_encoder c =
      (if c.length > 2 * AC_MinLength then
        ((stop_update c AC_MinLength (AC_MinLength >>> 1)).ac_pointer,
          stop_update c AC_MinLength (AC_MinLength >>> 1))
      else
        ((stop_update c (AC_MinLength >>> 1) (AC_MinLength >>> 9)).ac_pointer,
          stop_update c (AC_MinLength >>> 1) (AC_MinLength >>> 9))) := by
  simp only [ac_stop_encoder, stop_update]
  by_cases hcase : c.length > 2 * AC_MinLength
  · simp only [if_pos hcase]
  · simp only [if_neg hcase]

/-- The unconditional renormalization at the end of `ac_stop_encoder`,
with the byte and register bounds it restores. -/
theorem stop_renorm_exact (c2 : arithmetic_codec)
    (hp : c2.ac_pointer = c2.code_buffer.length)
    (hb : ∀ b ∈ c2.code_buffer, b < 256)
    (hbase : c2.base < U32)
    (hlen0 : 0 < c2.length) (hlenM : c2.length < AC_MinLength) :
    ∃ j, 0 < j ∧
      beVal (ac_renorm_enc_interval c2).code_buffer * U32 +
        (ac_renorm_enc_interval c2).base =
        256 ^ j * (beVal c2.code_buffer * U32 + c2.base) ∧
      (ac_renorm_enc_interval c2).base < U32 ∧
      (∀ b ∈ (ac_renorm_enc_interval c2).code_buffer, b < 256) ∧
      (ac_renorm_enc_interval c2).code_buffer.length =
        c2.code_buffer.length + j ∧
      AC_MinLength ≤ c2.length * 256 ^ j ∧ c2.length * 256 ^ j < U32 := by
  have hbig : AC_MinLength ≤ c2.length * 256 ^ (24 + 1) := by
    have h1 : (16777216 : Nat) ≤ 256 ^ 25 := by norm_num
    calc AC_MinLength = 16777216 * 1 := by norm_num [AC_MinLength]
    _ ≤ 256 ^ 25 * c2.length := Nat.mul_le_mul h1 hlen0
    _ = c2.length * 256 ^ (24 + 1) := by ring
  obtain ⟨j, hj0, hlenj, hminj, hUj, hlj, hpj, hbj, hbsj, hvj⟩ :=
    renorm_enc_loop_spec 24 c2.code_buffer c2.base c2.length hlen0 hlenM hbig hb hbase
  refine ⟨j, hj0, ?_, ?_, ?_, ?_, hminj, hUj⟩
  · simp only [ac_renorm_enc_interval, hp]
    exact hvj
  · simp only [ac_renorm_enc_interval, hp]
    exact hbsj
  · simp only [ac_renorm_enc_interval, hp]
    exact hbj
  · simp only [ac_renorm_enc_interval, hp]
    exact hlj

/-- Exact effect of the base move, carry and unconditional renormalization
of `ac_stop_encoder`, for both trailing-byte cases at once. -/
theorem stop_narrow_exact (c c1 : arithmetic_codec) (w : Prop) [Decidable w]
    (x len1 : Nat) (hinv : enc_inv c)
    (hbuf : c1.code_buffer = c.code_buffer) (hptr : c1.ac_pointer = c.ac_pointer)
    (hbase1 : c1.base = (c.base + x) % U32) (hlen1 : c1.length = len1)
    (hw : w ↔ (c.base + x) % U32 < c.base)
    (hx : x + len1 ≤ c.length) (hlen0 : 0 < len1) (hlenM : len1 < AC_MinLength) :
    ∃ j, 0 < j ∧
      beVal (ac_renorm_enc_interval
          (if w then ac_propagate_carry c1 else c1)).code_buffer * U32 +
        (ac_renorm_enc_interval
          (if w then ac_propagate_carry c1 else c1)).base =
        256 ^ j * (beVal c.code_buffer * U32 + c.base + x) ∧
      (ac_renorm_enc_interval (if w then ac_propagate_carry c1 else c1)).base <
        U32 ∧
      (∀ b ∈ (ac_renorm_enc_interval
          (if w then ac_propagate_carry c1 else c1)).code_buffer, b < 256) ∧
      (ac_renorm_enc_interval
          (if w then ac_propagate_carry c1 else c1)).code_buffer.length =
        c.code_buffer.length + j ∧
      AC_MinLength ≤ len1 * 256 ^ j ∧ len1 * 256 ^ j < U32 := by
  obtain ⟨hm, hp, hb, hbs, hminl, hlU, hF⟩ := hinv
  have hxU : x < U32 := by omega
  have hl1U : len1 < U32 := by omega
  by_cases hwrap : U32 ≤ c.base + x
  · have hwT : w := hw.mpr ((wrap_iff c.base x hbs hxU).mpr hwrap)
    rw [if_pos hwT]
    have hp1 : c1.ac_pointer = c1.code_buffer.length := by
      rw [hptr, hbuf]
      exact hp
    have hb1 : ∀ b ∈ c1.code_buffer, b < 256 := by
      rw [hbuf]
      exact hb
    have hne1 : ∃ b ∈ c1.code_buffer, b ≠ 255 := by
      rw [hbuf]
      apply exists_non_ff _ hb
      have h3 : (beVal c.code_buffer + 1) * U32 <
          256 ^ c.code_buffer.length * U32 := by
        simp only [U32] at *
        omega
      have h4 := Nat.lt_of_mul_lt_mul_right h3
      omega
    have hcar := propagate_carry_spec c1 hp1 hb1 hne1
    have hmod : (c.base + x) % U32 = c.base + x - U32 := by
      simp only [U32] at hwrap hbs hxU ⊢
      omega
    have htr := stop_renorm_exact (ac_propagate_carry c1)
      (by rw [hcar.2.2.2.1, hcar.1, hp1])
      hcar.2.1
      (by rw [hcar.2.2.2.2.1, hbase1]; exact Nat.mod_lt _ (by norm_num [U32]))
      (by rw [hcar.2.2.2.2.2.2.1, hlen1]; exact hlen0)
      (by rw [hcar.2.2.2.2.2.2.1, hlen1]; exact hlenM)
    rw [hcar.2.2.2.2.2.2.1, hlen1] at htr
    obtain ⟨j, hj0, htv, htbs, htby, htbl, htmin, htU⟩ := htr
    have hGmid : beVal (ac_propagate_carry c1).code_buffer * U32 +
        (ac_propagate_carry c1).base =
        beVal c.code_buffer * U32 + c.base + x := by
      rw [hcar.2.2.1, hbuf, hcar.2.2.2.2.1, hbase1, hmod]
      simp only [U32] at hwrap hbs hxU ⊢
      omega
    rw [hGmid] at htv
    refine ⟨j, hj0, htv, htbs, htby, ?_, htmin, htU⟩
    rw [htbl, hcar.1, hbuf]
  · have hwF : ¬ w := by
      rw [hw, Nat.mod_eq_of_lt (by omega)]
      omega
    rw [if_neg hwF]
    have htr := stop_renorm_exact c1
      (by rw [hptr, hbuf]; exact hp)
      (by rw [hbuf]; exact hb)
      (by rw [hbase1]; exact Nat.mod_lt _ (by norm_num [U32]))
      (by rw [hlen1]; exact hlen0)
      (by rw [hlen1]; exact hlenM)
    rw [hlen1] at htr
    obtain ⟨j, hj0, htv, htbs, htby, htbl, htmin, htU⟩ := htr
    have hGmid : beVal c1.code_buffer * U32 + c1.base =
        beVal c.code_buffer * U32 + c.base + x := by
      rw [hbuf, hbase1, Nat.mod_eq_of_lt (by omega : c.base + x < U32)]
      ring
    rw [hGmid] at htv
    refine ⟨j, hj0, htv, htbs, htby, ?_, htmin, htU⟩
    rw [htbl, hbuf]

theorem stop_update_exact (c : arithmetic_codec) (x len1 : Nat)
    (hinv : enc_inv c)
    (hx : x + len1 ≤ c.length) (hlen0 : 0 < len1) (hlenM : len1 < AC_MinLength) :
    ∃ j, 0 < j ∧
      beVal (stop_update c x len1).code_buffer * U32 +
        (stop_update c x len1).base =
        256 ^ j * (beVal c.code_buffer * U32 + c.base + x) ∧
      (stop_update c x len1).base < U32 ∧
      (∀ b ∈ (stop_update c x len1).code_buffer, b < 256) ∧
      (stop_update c x len1).code_buffer.length = c.code_buffer.length + j ∧
      AC_MinLength ≤ len1 * 256 ^ j ∧ len1 * 256 ^ j < U32 := by
  simp only [stop_update]
  exact stop_narrow_exact c _ _ x len1 hinv rfl rfl rfl rfl Iff.rfl hx hlen0 hlenM

/-- The stop anchor: the buffer produced by `ac_stop_encoder`, read back as
a (zero-padded) stream window, lies inside the final encoding interval, and
all its bytes are below 256. -/
theorem stop_exact (c : arithmetic_codec) (hinv : enc_inv c) :
    contain (ac_stop_encoder c).2.code_buffer c ∧
    ∀ b ∈ (ac_stop_encoder c).2.code_buffer, b < 256 := by
  have hminl := hinv.2.2.2.2.1
  have hp := hinv.2.1
  rw [ac_stop_encoder_char c]
  by_cases hcase : c.length > 2 * AC_MinLength
  · rw [if_pos hcase]
    show contain (stop_update c AC_MinLength (AC_MinLength >>> 1)).code_buffer c ∧
      ∀ b ∈ (stop_update c AC_MinLength (AC_MinLength >>> 1)).code_buffer, b < 256
    obtain ⟨j, hj0, hG, hbsS, hbyS, hblS, hminS, hUS⟩ :=
      stop_update_exact c AC_MinLength (AC_MinLength >>> 1) hinv
        (by rw [show AC_MinLength + AC_MinLength >>> 1 = 25165824 from by decide]
            simp only [AC_MinLength] at hcase
            omega)
        (by decide) (by decide)
    have hj1 : j = 1 := by
      rw [show AC_MinLength >>> 1 = 8388608 from by decide] at hUS
      simp only [U32] at hUS
      rcases Nat.lt_or_ge j 2 with hlt | hge
      · omega
      · have h1 : (256 : Nat) ^ 2 ≤ 256 ^ j :=
          Nat.pow_le_pow_right (by norm_num) hge
        have h2 : (8388608 : Nat) * 256 ^ 2 ≤ 8388608 * 256 ^ j :=
          Nat.mul_le_mul_left _ h1
        norm_num at h2
        omega
    rw [hj1] at hG hblS
    have hKB : beVal (padTake
        (stop_update c AC_MinLength (AC_MinLength >>> 1)).code_buffer
        (c.ac_pointer + 4)) =
        beVal (stop_update c AC_MinLength (AC_MinLength >>> 1)).code_buffer *
          256 ^ 3 := by
      rw [show c.ac_pointer + 4 =
        (stop_update c AC_MinLength (AC_MinLength >>> 1)).code_buffer.length + 3
        from by rw [hblS, hp]]
      exact beVal_padTake_ge _ 3
    refine ⟨?_, hbyS⟩
    simp only [contain]
    rw [hKB, show (256 : Nat) ^ 3 = 16777216 from by norm_num]
    rw [show (256 : Nat) ^ 1 = 256 from by norm_num] at hG
    simp only [U32, AC_MinLength] at hG hbsS ⊢
    simp only [AC_MinLength] at hcase
    constructor
    · omega
    · omega
  · rw [if_neg hcase]
    show contain
        (stop_update c (AC_MinLength >>> 1) (AC_MinLength >>> 9)).code_buffer c ∧
      ∀ b ∈ (stop_update c (AC_MinLength >>> 1) (AC_MinLength >>> 9)).code_buffer,
        b < 256
    obtain ⟨j, hj0, hG, hbsS, hbyS, hblS, hminS, hUS⟩ :=
      stop_update_exact c (AC_MinLength >>> 1) (AC_MinLength >>> 9) hinv
        (by rw [show AC_MinLength >>> 1 + AC_MinLength >>> 9 = 8421376
              from by decide]
            simp only [AC_MinLength] at hminl
            omega)
        (by decide) (by decide)
    have hj2 : j = 2 := by
      rw [show AC_MinLength >>> 9 = 32768 from by decide] at hminS hUS
      simp only [U32, AC_MinLength] at hminS hUS
      rcases Nat.lt_or_ge j 2 with hlt | hge
      · have h1 : (256 : Nat) ^ j ≤ 256 ^ 1 :=
          Nat.pow_le_pow_right (by norm_num) (by omega)
        have h2 : (32768 : Nat) * 256 ^ j ≤ 32768 * 256 ^ 1 :=
          Nat.mul_le_mul_left _ h1
        norm_num at h2
        omega
      · rcases Nat.lt_or_ge j 3 with hlt3 | hge3
        · omega
        · have h1 : (256 : Nat) ^ 3 ≤ 256 ^ j :=
            Nat.pow_le_pow_right (by norm_num) hge3
          have h2 : (32768 : Nat) * 256 ^ 3 ≤ 32768 * 256 ^ j :=
            Nat.mul_le_mul_left _ h1
          norm_num at h2
          omega
    rw [hj2] at hG hblS
    obtain ⟨BV, hBV⟩ : ∃ v, beVal (stop_update c (AC_MinLength >>> 1)
        (AC_MinLength >>> 9)).code_buffer = v := ⟨_, rfl⟩
    obtain ⟨bS, hbSe⟩ : ∃ v, (stop_update c (AC_MinLength >>> 1)
        (AC_MinLength >>> 9)).base = v := ⟨_, rfl⟩
    rw [hBV, hbSe] at hG
    rw [hbSe] at hbsS
    have hKB : beVal (padTake
        (stop_update c (AC_MinLength >>> 1) (AC_MinLength >>> 9)).code_buffer
        (c.ac_pointer + 4)) = BV * 256 ^ 2 := by
      rw [show c.ac_pointer + 4 =
        (stop_update c (AC_MinLength >>> 1)
          (AC_MinLength >>> 9)).code_buffer.length + 2
        from by rw [hblS, hp]]
      rw [beVal_padTake_ge _ 2, hBV]
    refine ⟨?_, hbyS⟩
    simp only [contain]
    rw [hKB, show (256 : Nat) ^ 2 = 65536 from by norm_num]
    rw [show (256 : Nat) ^ 2 = 65536 from by norm_num,
      show AC_MinLength >>> 1 = 8388608 from by decide] at hG
    simp only [U32] at hG hbsS ⊢
    simp only [AC_MinLength] at hminl
    constructor
    · omega
    · omega

--------------------------------------------------------------------------------
-- C1: the freshly reset model satisfies both session invariants.
--------------------------------------------------------------------------------

theorem sum_replicate_one (N : Nat) : (List.replicate N 1).sum = N := by
  induction N with
  | zero => rfl
  | succ n ih =>
    rw [List.replicate_succ, List.sum_cons, ih]
    omega

theorem update_cycle_eq_suu (m : adaptive_data_model) (e : Bool) :
    (adaptive_data_model_update m e).update_cycle =
      (adaptive_data_model_update m e).symbols_until_update := by
  by_cases hres : m.total_count + m.update_cycle > DM_MaxCount
  · simp only [adaptive_data_model_update, if_pos hres]
  · simp only [adaptive_data_model_update, if_neg hres]

/-- The model state `adaptive_data_model_reset` passes to the rebuild:
alphabet geometry from `set_alphabet`, all counts 1, cycle equal to the
alphabet size. -/
def init_pre_model (N : Nat) : adaptive_data_model :=
  { distribution := [], symbol_count := List.replicate N 1,
    decoder_table := [], total_count := 0, update_cycle := N,
    symbols_until_update := 0, data_symbols := N, last_symbol := N - 1,
    table_size :=
      if N > 16 then 2 ^ (if N > 16 then ac_table_bits N 3 else 0) else 0,
    table_shift :=
      if N > 16 then
        DM_LengthShift - (if N > 16 then ac_table_bits N 3 else 0)
      else 0 }

theorem adaptive_data_model_init_char (N : Nat) (hN : 0 < N) :
    adaptive_data_model_init N =
      { adaptive_data_model_update (init_pre_model N) false with
        symbols_until_update := (N + 6) >>> 1,
        update_cycle := (N + 6) >>> 1 } := by
  simp only [adaptive_data_model_init, adaptive_data_model_reset, init_pre_model]
  rw [if_neg (by omega : ¬ N = 0)]

theorem init_geom (N : Nat) (hN : 0 < N) :
    (adaptive_data_model_init N).data_symbols = N ∧
    (adaptive_data_model_init N).last_symbol = N - 1 ∧
    (adaptive_data_model_init N).table_size =
      (if N > 16 then 2 ^ ac_table_bits N 3 else 0) ∧
    (adaptive_data_model_init N).table_shift =
      (if N > 16 then DM_LengthShift - ac_table_bits N 3 else 0) ∧
    (adaptive_data_model_init N).decoder_table =
      (adaptive_data_model_update (init_pre_model N) false).decoder_table ∧
    (adaptive_data_model_init N).distribution =
      (adaptive_data_model_update (init_pre_model N) false).distribution := by
  rw [adaptive_data_model_init_char N hN]
  have hg := update_geom (init_pre_model N) false
  refine ⟨?_, ?_, ?_, ?_, rfl, rfl⟩
  · show (adaptive_data_model_update (init_pre_model N) false).data_symbols = N
    rw [hg.1]
    rfl
  · show (adaptive_data_model_update (init_pre_model N) false).last_symbol = N - 1
    rw [hg.2.1]
    rfl
  · show (adaptive_data_model_update (init_pre_model N) false).table_size = _
    rw [hg.2.2.1]
    show (if N > 16 then 2 ^ (if N > 16 then ac_table_bits N 3 else 0) else 0) =
      (if N > 16 then 2 ^ ac_table_bits N 3 else 0)
    by_cases h : N > 16
    · rw [if_pos h, if_pos h, if_pos h]
    · rw [if_neg h, if_neg h]
  · show (adaptive_data_model_update (init_pre_model N) false).table_shift = _
    rw [hg.2.2.2]
    show (if N > 16 then
        DM_LengthShift - (if N > 16 then ac_table_bits N 3 else 0) else 0) =
      (if N > 16 then DM_LengthShift - ac_table_bits N 3 else 0)
    by_cases h : N > 16
    · rw [if_pos h, if_pos h, if_pos h]
    · rw [if_neg h, if_neg h]

/-- A freshly reset model satisfies the full model invariant. -/
theorem init_model_ok (N : Nat) (hN : 2 ≤ N) (hN2 : N ≤ 2048) :
    model_ok N (adaptive_data_model_init N) := by
  rw [adaptive_data_model_init_char N (by omega)]
  have hup := update_model_ok N (init_pre_model N) false hN hN2 rfl rfl
    (by show (List.replicate N 1).length = N
        rw [List.length_replicate])
    (by show ∀ x ∈ List.replicate N 1, 1 ≤ x
        intro x hx
        have hx1 := List.eq_of_mem_replicate hx
        omega)
    (by show N ≤ 8 * (N + 6)
        omega)
    (by show 1 ≤ N
        omega)
    (by show (0 : Nat) ≤ DM_MaxCount
        exact Nat.zero_le _)
    (by show (0 : Nat) + N = (List.replicate N 1).sum
        rw [sum_replicate_one]
        omega)
  obtain ⟨u1, u2, u3, u4, u5, u6, u7, u8, u9, u10, u11⟩ := hup
  have hcycsuu := update_cycle_eq_suu (init_pre_model N) false
  refine ⟨u1, u2, u3, u4, u5, ?_, ?_, ?_, ?_, u10, u11⟩
  · show 1 ≤ (N + 6) >>> 1
    rw [shiftRight_one_eq]
    omega
  · show (N + 6) >>> 1 ≤ (N + 6) >>> 1
    exact le_refl _
  · show (N + 6) >>> 1 ≤ 8 * (N + 6)
    rw [shiftRight_one_eq]
    omega
  · show (adaptive_data_model_update (init_pre_model N) false).total_count +
      (N + 6) >>> 1 =
      (adaptive_data_model_update (init_pre_model N) false).symbol_count.sum +
      (N + 6) >>> 1
    omega

/-- A freshly reset model satisfies the decoder-table invariant (the reset
rebuild runs with `from_encoder = false`, building the table when the
alphabet is large enough to have one). -/
theorem init_dec_ok (N : Nat) (hN : 2 ≤ N) (hN2 : N ≤ 2048) :
    dec_model_ok (adaptive_data_model_init N)
      (if 16 < N then ac_table_bits N 3 else 0) := by
  obtain ⟨f1, f2, f3, f4, f5, f6⟩ := init_geom N (by omega)
  constructor
  · intro h16
    rw [f1] at h16
    have hts0 : (init_pre_model N).table_size = 0 := by
      show (if N > 16 then 2 ^ (if N > 16 then ac_table_bits N 3 else 0) else 0)
        = 0
      rw [if_neg (by omega : ¬ N > 16)]
    have htbl : (init_pre_model N).decoder_table = [] := rfl
    constructor
    · rw [f3, if_neg (by omega : ¬ N > 16)]
    · rw [f5]
      by_cases hres : (init_pre_model N).total_count +
          (init_pre_model N).update_cycle > DM_MaxCount
      · simp only [adaptive_data_model_update, if_pos hres]
        simp [hts0, htbl]
      · simp only [adaptive_data_model_update, if_neg hres]
        simp [hts0, htbl]
  · intro h16
    rw [f1] at h16
    rw [if_pos h16]
    obtain ⟨hc1, hc2, hc3⟩ := ac_table_bits_char N hN2
    have hpts : (init_pre_model N).table_size = 2 ^ ac_table_bits N 3 := by
      show (if N > 16 then 2 ^ (if N > 16 then ac_table_bits N 3 else 0) else 0)
        = 2 ^ ac_table_bits N 3
      rw [if_pos (by omega : N > 16), if_pos (by omega : N > 16)]
    have hpsh : (init_pre_model N).table_shift =
        DM_LengthShift - ac_table_bits N 3 := by
      show (if N > 16 then
          DM_LengthShift - (if N > 16 then ac_table_bits N 3 else 0) else 0) =
        DM_LengthShift - ac_table_bits N 3
      rw [if_pos (by omega : N > 16), if_pos (by omega : N > 16)]
    have hpds : (init_pre_model N).data_symbols = N := rfl
    have hupd := update_dec_table (init_pre_model N) (ac_table_bits N 3)
      (by show ∀ x ∈ List.replicate N 1, 1 ≤ x
          intro x hx
          have hx1 := List.eq_of_mem_replicate hx
          omega)
      (by show (List.replicate N 1).length = N
          rw [List.length_replicate])
      (by show (0 : Nat) + N = (List.replicate N 1).sum
          rw [sum_replicate_one]
          omega)
      (by show (0 : Nat) < N
          omega)
      (by simp only [DM_LengthShift]
          omega)
      hpsh hpts
    rw [hpts, hpds, hpsh] at hupd
    refine ⟨?_, ?_, hc2, hc3, ?_, ?_, ?_, ?_⟩
    · rw [f3, if_pos (by omega : N > 16)]
    · rw [f4, if_pos (by omega : N > 16)]
    · rw [f5]
      exact hupd.1
    · rw [f5, f1]
      exact hupd.2.1
    · rw [f5, f3, f1, if_pos (by omega : N > 16)]
      exact hupd.2.2.1
    · rw [f5, f6, f3, f4, f1, if_pos (by omega : N > 16),
        if_pos (by omega : N > 16)]
      exact hupd.2.2.2

/-- Adaptive half of the C1 round trip: for every alphabet size `N` with
`2 ≤ N ≤ 2048` and every finite symbol sequence `S` over `{0..N-1}`,
encoding `S` with `ac_encode_adaptive` from a freshly reset adaptive model,
stopping the encoder with `ac_stop_encoder`, then starting a decoder on the
produced bytes with an identically initialized model and decoding `|S|`
symbols with `ac_decode_adaptive` yields exactly the sequence `S`. -/
theorem adaptive_round_trip (N : Nat) (S : List Nat)
    (hN : 2 ≤ N) (hN2 : N ≤ 2048) (hS : ∀ s ∈ S, s < N) :
    adaptive_session_decode N (adaptive_session_encode N S).2 S.length = S := by
  show (decode_adaptive_list (ac_start_decoder (codec_on
      (ac_stop_encoder (encode_adaptive_list (ac_start_encoder (codec_on []))
        (adaptive_data_model_init N) S).1).2.code_buffer))
      (adaptive_data_model_init N) S.length).1 = S
  have hinv0 : enc_inv (ac_start_encoder (codec_on [])) := by decide
  have hm0 := init_model_ok N hN hN2
  have hdok0 := init_dec_ok N hN hN2
  have hmatch0 : models_match (adaptive_data_model_init N)
      (adaptive_data_model_init N) :=
    ⟨rfl, rfl, rfl, rfl, rfl, rfl, rfl, rfl, rfl⟩
  obtain ⟨hinvF, hmokF⟩ := encode_list_inv N hN hN2 S
    (ac_start_encoder (codec_on [])) (adaptive_data_model_init N) hinv0 hm0 hS
  obtain ⟨hcontF, hBb⟩ := stop_exact
    (encode_adaptive_list (ac_start_encoder (codec_on []))
      (adaptive_data_model_init N) S).1 hinvF
  have hcont0 := encode_backprop N hN hN2
    (ac_stop_encoder (encode_adaptive_list (ac_start_encoder (codec_on []))
      (adaptive_data_model_init N) S).1).2.code_buffer hBb S
    (ac_start_encoder (codec_on [])) (adaptive_data_model_init N)
    hinv0 hm0 hS hcontF
  simp only [contain] at hcont0
  have hv : (ac_start_decoder (codec_on
      (ac_stop_encoder (encode_adaptive_list (ac_start_encoder (codec_on []))
        (adaptive_data_model_init N) S).1).2.code_buffer)).value =
      beVal (padTake (ac_stop_encoder (encode_adaptive_list
        (ac_start_encoder (codec_on []))
        (adaptive_data_model_init N) S).1).2.code_buffer 4) := by
    rw [beVal_padTake_four]
    rfl
  have hsim0 : dec_sim
      (ac_stop_encoder (encode_adaptive_list (ac_start_encoder (codec_on []))
        (adaptive_data_model_init N) S).1).2.code_buffer
      (ac_start_encoder (codec_on []))
      (ac_start_decoder (codec_on
        (ac_stop_encoder (encode_adaptive_list (ac_start_encoder (codec_on []))
          (adaptive_data_model_init N) S).1).2.code_buffer)) := by
    refine ⟨rfl, rfl, rfl, rfl, ?_, ?_⟩
    · have h00 : beVal (ac_start_encoder (codec_on [])).code_buffer * U32 +
          (ac_start_encoder (codec_on [])).base = 0 := rfl
      rw [h00, Nat.add_zero]
      exact hv
    · have h2 := hcont0.2
      have h0f : beVal (ac_start_encoder (codec_on [])).code_buffer * U32 +
          (ac_start_encoder (codec_on [])).base +
          (ac_start_encoder (codec_on [])).length = AC_MaxLength := rfl
      rw [h0f] at h2
      show (ac_start_decoder (codec_on
        (ac_stop_encoder (encode_adaptive_list (ac_start_encoder (codec_on []))
          (adaptive_data_model_init N) S).1).2.code_buffer)).value <
        AC_MaxLength
      rw [hv]
      have hidx : (ac_start_encoder (codec_on [])).ac_pointer + 4 = 4 := rfl
      rw [hidx] at h2
      exact h2
  exact sim_master N hN hN2
    (ac_stop_encoder (encode_adaptive_list (ac_start_encoder (codec_on []))
      (adaptive_data_model_init N) S).1).2.code_buffer hBb
    (if 16 < N then ac_table_bits N 3 else 0) S
    (ac_start_encoder (codec_on []))
    (ac_start_decoder (codec_on
      (ac_stop_encoder (encode_adaptive_list (ac_start_encoder (codec_on []))
        (adaptive_data_model_init N) S).1).2.code_buffer))
    (adaptive_data_model_init N) (adaptive_data_model_init N)
    hinv0 hm0 hmatch0 hdok0 hS hsim0 hcontF

--------------------------------------------------------------------------------
-- C1: the static-model session — `ac_encode_static` / `ac_decode_static`
-- share the interval arithmetic with the adaptive functions verbatim, so the
-- one-step exact lemmas transfer along a definitional bridge.
--------------------------------------------------------------------------------

/-- Encode a list of symbols with `ac_encode_static` (the model is constant). -/
def encode_static_list (c : arithmetic_codec) (model : static_data_model) :
    List Nat → arithmetic_codec
  | [] => c
  | s :: rest => encode_static_list (ac_encode_static c s model) model rest

/-- Decode `n` symbols with `ac_decode_static`. -/
def decode_static_list (c : arithmetic_codec) (model : static_data_model) :
    Nat → List Nat × arithmetic_codec
  | 0 => ([], c)
  | n + 1 =>
    match ac_decode_static c model with
    | (s, c') =>
      match decode_static_list c' model n with
      | (rest, fin) => (s :: rest, fin)

/-- The complete static encoding session: fresh codec, encode the symbols
against the given static model, stop the encoder.  Returns the byte count
and the written bytes. -/
def static_session_encode (model : static_data_model) (s : List Nat) :
    Nat × List Nat :=
  match ac_stop_encoder (encode_static_list (ac_start_encoder (codec_on []))
      model s) with
  | (bytes, c') => (bytes, c'.code_buffer)

/-- The complete static decoding session: decoder on the byte list against
the same static model, decoding `n` symbols. -/
def static_session_decode (model : static_data_model) (buf : List Nat)
    (n : Nat) : List Nat :=
  (decode_static_list (ac_start_decoder (codec_on buf)) model n).1

/-- The adaptive view of a static model: it carries the same coding fields
(the interval arithmetic of the static coding functions reads only these),
and its bookkeeping fields are chosen to satisfy the adaptive model
invariant. -/
def static_as_adaptive (sm : static_data_model) : adaptive_data_model :=
  { distribution := sm.distribution
    symbol_count := List.replicate sm.data_symbols 1
    decoder_table := sm.decoder_table
    total_count := 0
    update_cycle := sm.data_symbols + 1
    symbols_until_update := 1
    data_symbols := sm.data_symbols
    last_symbol := sm.last_symbol
    table_size := sm.table_size
    table_shift := sm.table_shift }

/-- The codec component of `ac_encode_static` coincides definitionally with
that of `ac_encode_adaptive` on the adaptive view: the two C functions share
the interval arithmetic verbatim. -/
theorem encode_static_as_adaptive (c : arithmetic_codec) (s : Nat)
    (sm : static_data_model) :
    ac_encode_static c s sm =
      (ac_encode_adaptive c s (static_as_adaptive sm)).1 := rfl

/-- The symbol/codec components of `ac_decode_static` coincide definitionally
with those of `ac_decode_adaptive` on the adaptive view. -/
theorem decode_static_as_adaptive (c : arithmetic_codec)
    (sm : static_data_model) :
    ac_decode_static c sm =
      ((ac_decode_adaptive c (static_as_adaptive sm)).1,
        (ac_decode_adaptive c (static_as_adaptive sm)).2.1) := rfl

/-- Well-formedness of a static model state for alphabet size `N` and table
bits `tb`, mirroring what `static_data_model_set_distribution` establishes:
alphabet geometry, a strictly increasing quantized cumulative distribution
starting at 0, and (for `N > 16`) the decoder-table geometry and the slot
bracketing. -/
def static_model_ok (N tb : Nat) (sm : static_data_model) : Prop :=
  sm.data_symbols = N ∧ sm.last_symbol = N - 1 ∧
  dist_ok sm.distribution N (N - 1) ∧
  sm.distribution.getD 0 0 = 0 ∧
  (N ≤ 16 → sm.table_size = 0 ∧ sm.decoder_table = []) ∧
  (16 < N →
    sm.table_size = 2 ^ tb ∧ sm.table_shift = DM_LengthShift - tb ∧
    3 ≤ tb ∧ tb ≤ 9 ∧
    sm.decoder_table ≠ [] ∧
    (∀ e ∈ sm.decoder_table, e ≤ N - 1) ∧
    sm.decoder_table.getD (sm.table_size + 1) 0 = N - 1 ∧
    (∀ t, t ≤ sm.table_size →
      sm.distribution.getD (sm.decoder_table.getD t 0) 0 ≤
        t * 2 ^ sm.table_shift ∧
      t * 2 ^ sm.table_shift ≤
        (if sm.decoder_table.getD t 0 + 1 < N
         then sm.distribution.getD (sm.decoder_table.getD t 0 + 1) 0
         else 2 ^ DM_LengthShift)))

/-- The static builder's output is well-formed: on any strictly increasing
quantized cumulative distribution starting at 0 (the shape coding requires
of the float-accumulated values), `static_data_model_set_distribution`
produces a model satisfying `static_model_ok` at the computed table-bits
value. -/
theorem static_build_ok (N : Nat) (dist : List Nat)
    (hN2 : N ≤ 2048)
    (hdk : dist_ok dist N (N - 1))
    (h0 : dist.getD 0 0 = 0) :
    static_model_ok N (if 16 < N then ac_table_bits N 3 else 0)
      (static_data_model_set_distribution N dist) := by
  obtain ⟨hdlen, hdlast, hdpos, hchain, hbound⟩ := hdk
  by_cases h16 : 16 < N
  · rw [if_pos h16]
    obtain ⟨g1, g2, g3, g4⟩ := static_build_geom N dist h16
    obtain ⟨htbn, htb3, htb9⟩ := ac_table_bits_char N hN2
    have hpow : 2 ^ ac_table_bits N 3 *
        2 ^ (DM_LengthShift - ac_table_bits N 3) = 2 ^ DM_LengthShift := by
      rw [← pow_add]
      congr 1
      simp only [DM_LengthShift] at htb9 ⊢
      omega
    have hbd : ∀ d ∈ dist,
        d >>> (DM_LengthShift - ac_table_bits N 3) < 2 ^ ac_table_bits N 3 := by
      intro d hd
      rw [Nat.shiftRight_eq_div_pow]
      refine (Nat.div_lt_iff_lt_mul (pow_pos (by norm_num) _)).mpr ?_
      calc d < 2 ^ DM_LengthShift := hbound d hd
      _ = 2 ^ ac_table_bits N 3 * 2 ^ (DM_LengthShift - ac_table_bits N 3) :=
        hpow.symm
    obtain ⟨k1, k2, k3, k4⟩ := dec_table_package
      (DM_LengthShift - ac_table_bits N 3) (2 ^ ac_table_bits N 3) N dist
      hdlen (by omega) (pow_pos (by norm_num) _) h0 hbd
    refine ⟨rfl, rfl, ⟨hdlen, hdlast, hdpos, hchain, hbound⟩, h0,
      fun hle => absurd h16 (by omega), fun _ => ?_⟩
    refine ⟨g2, g3, htb3, htb9, ?_, ?_, ?_, ?_⟩
    · rw [g4]
      exact k1
    · rw [g4]
      exact k2
    · rw [g4, g2]
      exact k3
    · intro t ht
      rw [g2] at ht
      have hb := k4 t ht
      rw [g1, g3, g4]
      refine ⟨hb.1, ?_⟩
      rw [← hpow]
      exact hb.2
  · rw [if_neg h16]
    refine ⟨rfl, rfl, ⟨hdlen, hdlast, hdpos, hchain, hbound⟩, h0,
      fun _ => ⟨?_, ?_⟩, fun hgt => absurd hgt h16⟩
    · simp only [static_data_model_set_distribution, if_neg h16]
    · simp only [static_data_model_set_distribution, if_neg h16]

/-- The adaptive view of a well-formed static model satisfies the adaptive
model invariant. -/
theorem static_view_model_ok (N tb : Nat) (sm : static_data_model)
    (hN : 2 ≤ N) (hsm : static_model_ok N tb sm) :
    model_ok N (static_as_adaptive sm) := by
  obtain ⟨h1, h2, h3, h4, h5, h6⟩ := hsm
  refine ⟨h1, h2, ?_, ?_, ?_, ?_, ?_, ?_, ?_, h3, h4⟩
  · show (List.replicate sm.data_symbols 1).length = N
    rw [List.length_replicate, h1]
  · show ∀ x ∈ List.replicate sm.data_symbols 1, 1 ≤ x
    intro x hx
    have hx1 : x = 1 := List.eq_of_mem_replicate hx
    omega
  · show (0 : Nat) ≤ DM_MaxCount
    exact Nat.zero_le _
  · show (1 : Nat) ≤ 1
    exact le_refl 1
  · show (1 : Nat) ≤ sm.data_symbols + 1
    omega
  · show sm.data_symbols + 1 ≤ 8 * (N + 6)
    omega
  · show 0 + (sm.data_symbols + 1) =
      (List.replicate sm.data_symbols 1).sum + 1
    rw [sum_replicate_one]
    omega

/-- The adaptive view of a well-formed static model satisfies the decoder
table invariant. -/
theorem static_view_dec_ok (N tb : Nat) (sm : static_data_model)
    (hsm : static_model_ok N tb sm) :
    dec_model_ok (static_as_adaptive sm) tb := by
  obtain ⟨h1, h2, h3, h4, h5, h6⟩ := hsm
  show (sm.data_symbols ≤ 16 → sm.table_size = 0 ∧ sm.decoder_table = []) ∧
    (16 < sm.data_symbols →
      sm.table_size = 2 ^ tb ∧ sm.table_shift = DM_LengthShift - tb ∧
      3 ≤ tb ∧ tb ≤ 9 ∧
      sm.decoder_table ≠ [] ∧
      (∀ e ∈ sm.decoder_table, e ≤ sm.data_symbols - 1) ∧
      sm.decoder_table.getD (sm.table_size + 1) 0 = sm.data_symbols - 1 ∧
      (∀ t, t ≤ sm.table_size →
        sm.distribution.getD (sm.decoder_table.getD t 0) 0 ≤
          t * 2 ^ sm.table_shift ∧
        t * 2 ^ sm.table_shift ≤
          (if sm.decoder_table.getD t 0 + 1 < sm.data_symbols
           then sm.distribution.getD (sm.decoder_table.getD t 0 + 1) 0
           else 2 ^ DM_LengthShift)))
  rw [h1]
  exact ⟨h5, h6⟩

/-- Step lemma: `decode_static_list` over `n + 1` conses the symbol decoded
by `ac_decode_static` onto the remaining decode. -/
theorem decode_static_list_step (n : Nat) {c cn : arithmetic_codec}
    {sm : static_data_model} {s : Nat} {out : List Nat}
    {fin : arithmetic_codec}
    (h : ac_decode_static c sm = (s, cn))
    (h2 : decode_static_list cn sm n = (out, fin)) :
    decode_static_list c sm (n + 1) = (s :: out, fin) := by
  simp only [decode_static_list, h, h2]

/-- The codec invariant holds at every state of a static encode session. -/
theorem encode_static_list_inv (N tb : Nat) (hN : 2 ≤ N)
    (sm : static_data_model) (hsm : static_model_ok N tb sm) :
    ∀ (S : List Nat) (c : arithmetic_codec),
    enc_inv c → (∀ s ∈ S, s < N) →
    enc_inv (encode_static_list c sm S) := by
  have hmok : model_ok N (static_as_adaptive sm) :=
    static_view_model_ok N tb sm hN hsm
  have hdk : dist_ok (static_as_adaptive sm).distribution
      (static_as_adaptive sm).data_symbols
      (static_as_adaptive sm).last_symbol := by
    rw [hmok.1, hmok.2.1]
    exact hmok.2.2.2.2.2.2.2.2.2.1
  intro S
  induction S with
  | nil =>
    intro c hinv hall
    exact hinv
  | cons s rest ih =>
    intro c hinv hall
    have hstep : encode_static_list c sm (s :: rest) =
        encode_static_list (ac_encode_static c s sm) sm rest := rfl
    rw [hstep, encode_static_as_adaptive]
    obtain ⟨j, p1, p2, p3, p4, p5, p6, p7, p8⟩ :=
      encode_adaptive_exact c (static_as_adaptive sm) s hinv hdk
        (by rw [hmok.1]; exact hall s (List.mem_cons_self _ _))
    exact ih _ p8 (fun u hu => hall u (List.mem_cons_of_mem _ hu))

/-- Containment of the final window propagates backwards through a static
encode session. -/
theorem encode_static_backprop (N tb : Nat) (hN : 2 ≤ N) (B : List Nat)
    (hB : ∀ b ∈ B, b < 256) (sm : static_data_model)
    (hsm : static_model_ok N tb sm) :
    ∀ (S : List Nat) (c : arithmetic_codec),
    enc_inv c → (∀ s ∈ S, s < N) →
    contain B (encode_static_list c sm S) → contain B c := by
  have hmok : model_ok N (static_as_adaptive sm) :=
    static_view_model_ok N tb sm hN hsm
  have hdk : dist_ok (static_as_adaptive sm).distribution
      (static_as_adaptive sm).data_symbols
      (static_as_adaptive sm).last_symbol := by
    rw [hmok.1, hmok.2.1]
    exact hmok.2.2.2.2.2.2.2.2.2.1
  intro S
  induction S with
  | nil =>
    intro c hinv hall hc
    exact hc
  | cons s rest ih =>
    intro c hinv hall hc
    have hstep : encode_static_list c sm (s :: rest) =
        encode_static_list (ac_encode_static c s sm) sm rest := rfl
    rw [hstep, encode_static_as_adaptive] at hc
    have hs : s < N := hall s (List.mem_cons_self _ _)
    obtain ⟨j, p1, p2, p3, p4, p5, p6, p7, p8⟩ :=
      encode_adaptive_exact c (static_as_adaptive sm) s hinv hdk
        (by rw [hmok.1]; exact hs)
    have hc1 : contain B (ac_encode_adaptive c s (static_as_adaptive sm)).1 :=
      ih _ p8 (fun u hu => hall u (List.mem_cons_of_mem _ hu)) hc
    have hptr1 : (ac_encode_adaptive c s (static_as_adaptive sm)).1.ac_pointer =
        c.ac_pointer + j := by
      rw [p8.2.1, p3, hinv.2.1]
    obtain ⟨r, hr, hKe⟩ := beVal_padTake_add B hB (c.ac_pointer + 4) j
    simp only [contain] at hc1 ⊢
    obtain ⟨hcl, hch⟩ := hc1
    rw [hptr1, show c.ac_pointer + j + 4 = c.ac_pointer + 4 + j from by omega,
      hKe, p2] at hcl
    rw [hptr1, show c.ac_pointer + j + 4 = c.ac_pointer + 4 + j from by omega,
      hKe, p2, p1] at hch
    obtain ⟨q1, q2⟩ := contain_unscale j (beVal c.code_buffer * U32 + c.base)
      ((static_as_adaptive sm).distribution.getD s 0 *
        (c.length >>> DM_LengthShift))
      ((if s = (static_as_adaptive sm).data_symbols - 1 then c.length
        else (static_as_adaptive sm).distribution.getD (s + 1) 0 *
          (c.length >>> DM_LengthShift)) -
        (static_as_adaptive sm).distribution.getD s 0 *
          (c.length >>> DM_LengthShift))
      (beVal (padTake B (c.ac_pointer + 4))) r hr hcl hch
    exact ⟨by omega, by omega⟩

/-- Forward simulation for a static session: the model is constant, and the
decoder reproduces the encoded symbols whenever the final stream window
stays inside the encoder's interval at the end of the session. -/
theorem static_sim (N tb : Nat) (hN : 2 ≤ N) (B : List Nat)
    (hB : ∀ b ∈ B, b < 256) (sm : static_data_model)
    (hsm : static_model_ok N tb sm) :
    ∀ (S : List Nat) (c d : arithmetic_codec),
    enc_inv c → (∀ s ∈ S, s < N) → dec_sim B c d →
    contain B (encode_static_list c sm S) →
    (decode_static_list d sm S.length).1 = S := by
  have hmok : model_ok N (static_as_adaptive sm) :=
    static_view_model_ok N tb sm hN hsm
  have hdok : dec_model_ok (static_as_adaptive sm) tb :=
    static_view_dec_ok N tb sm hsm
  have hdk : dist_ok (static_as_adaptive sm).distribution
      (static_as_adaptive sm).data_symbols
      (static_as_adaptive sm).last_symbol := by
    rw [hmok.1, hmok.2.1]
    exact hmok.2.2.2.2.2.2.2.2.2.1
  intro S
  induction S with
  | nil =>
    intro c d hinv hall hsim hcont
    rfl
  | cons s rest ih =>
    intro c d hinv hall hsim hcont
    obtain ⟨hdm, hdb, hdp, hdl, hdv, hdvl⟩ := hsim
    have hs : s < N := hall s (List.mem_cons_self _ _)
    have hminl : AC_MinLength ≤ c.length := hinv.2.2.2.2.1
    have hlU : c.length < U32 := hinv.2.2.2.2.2.1
    obtain ⟨j, p1, p2, p3, p4, p5, p6, p7, p8⟩ :=
      encode_adaptive_exact c (static_as_adaptive sm) s hinv hdk
        (by rw [hmok.1]; exact hs)
    rw [hmok.1] at p1 p4 p5 p6 p7
    have hstep : encode_static_list c sm (s :: rest) =
        encode_static_list (ac_encode_static c s sm) sm rest := rfl
    rw [hstep, encode_static_as_adaptive] at hcont
    have hc1 : contain B (ac_encode_adaptive c s (static_as_adaptive sm)).1 :=
      encode_static_backprop N tb hN B hB sm hsm rest _ p8
        (fun u hu => hall u (List.mem_cons_of_mem _ hu)) hcont
    have hptr1 : (ac_encode_adaptive c s (static_as_adaptive sm)).1.ac_pointer =
        c.ac_pointer + j := by
      rw [p8.2.1, p3, hinv.2.1]
    obtain ⟨r, hr, hKe⟩ := beVal_padTake_add B hB (c.ac_pointer + 4) j
    simp only [contain] at hc1
    obtain ⟨hcl, hch⟩ := hc1
    rw [hptr1, show c.ac_pointer + j + 4 = c.ac_pointer + 4 + j from by omega,
      hKe, p2] at hcl
    rw [hptr1, show c.ac_pointer + j + 4 = c.ac_pointer + 4 + j from by omega,
      hKe, p2, p1] at hch
    obtain ⟨q1, q2⟩ := contain_unscale j (beVal c.code_buffer * U32 + c.base)
      ((static_as_adaptive sm).distribution.getD s 0 *
        (c.length >>> DM_LengthShift))
      ((if s = N - 1 then c.length
        else (static_as_adaptive sm).distribution.getD (s + 1) 0 *
          (c.length >>> DM_LengthShift)) -
        (static_as_adaptive sm).distribution.getD s 0 *
          (c.length >>> DM_LengthShift))
      (beVal (padTake B (c.ac_pointer + 4))) r hr hcl hch
    have hxd : (static_as_adaptive sm).distribution.getD s 0 *
        (c.length >>> DM_LengthShift) ≤ d.value := by omega
    have hyd : d.value < (if s = N - 1 then c.length
        else (static_as_adaptive sm).distribution.getD (s + 1) 0 *
          (c.length >>> DM_LengthShift)) := by
      omega
    have hdec := decode_adaptive_exact d (static_as_adaptive sm) N tb s hN
      hmok hdok hs
      (by rw [hdl]; exact hminl) (by rw [hdl]; exact hlU) hdvl
      (by rw [hdl]; exact hxd)
      (by rw [hdl]; exact hyd)
    rw [hdl] at hdec
    have hyle : (if s = N - 1 then c.length
        else (static_as_adaptive sm).distribution.getD (s + 1) 0 *
          (c.length >>> DM_LengthShift)) ≤ d.length := by
      rw [hdl]
      by_cases hsl : s = N - 1
      · exact le_of_eq (if_pos hsl)
      · rw [if_neg hsl]
        exact scaled_le_length c.length _ hminl
          (getD_lt_all (static_as_adaptive sm).distribution _
            (by norm_num [DM_LengthShift]) hdk.2.2.2.2 (s + 1))
    obtain ⟨j2, t1, t2, t3, t4, t5, t6, t7, t8, t9, t10⟩ :=
      decode_tail_exact d
        ((static_as_adaptive sm).distribution.getD s 0 *
          (c.length >>> DM_LengthShift))
        (if s = N - 1 then c.length
         else (static_as_adaptive sm).distribution.getD (s + 1) 0 *
           (c.length >>> DM_LengthShift))
        (by rw [hdb]; exact hB) hxd hyd hyle (by rw [hdl]; exact hlU)
    have hjj : j2 = j := by
      by_cases hd0 : (if s = N - 1 then c.length
          else (static_as_adaptive sm).distribution.getD (s + 1) 0 *
            (c.length >>> DM_LengthShift)) -
          (static_as_adaptive sm).distribution.getD s 0 *
            (c.length >>> DM_LengthShift) <
          AC_MinLength
      · obtain ⟨hj2a, hj2b⟩ := t3 hd0
        obtain ⟨hja, hjb⟩ := p5 hd0
        have henc1 : AC_MinLength ≤
            ((if s = N - 1 then c.length
              else (static_as_adaptive sm).distribution.getD (s + 1) 0 *
                (c.length >>> DM_LengthShift)) -
              (static_as_adaptive sm).distribution.getD s 0 *
                (c.length >>> DM_LengthShift)) *
              256 ^ j := by
          rw [← p1]
          exact p8.2.2.2.2.1
        exact renorm_j_unique _ j2 j t4 hj2b henc1 hjb
      · have h1 := t2 (by omega)
        have h2 := p4 (by omega)
        omega
    rw [hjj] at t1 t6 t7
    rw [hdb, hdp, show c.ac_pointer + 3 + 1 = c.ac_pointer + 4 from by omega,
      hKe] at t7
    have hsim1 : dec_sim B (ac_encode_adaptive c s (static_as_adaptive sm)).1
        (dec_update d
          ((static_as_adaptive sm).distribution.getD s 0 *
            (c.length >>> DM_LengthShift))
          (if s = N - 1 then c.length
           else (static_as_adaptive sm).distribution.getD (s + 1) 0 *
             (c.length >>> DM_LengthShift))) := by
      refine ⟨by rw [t10]; exact hdm, by rw [t9]; exact hdb, ?_, ?_, ?_, t8⟩
      · rw [t6, hptr1, hdp]
        omega
      · rw [t1, p1]
      · rw [p2, hptr1,
          show c.ac_pointer + j + 4 = c.ac_pointer + 4 + j from by omega, hKe]
        have hsub : (d.value -
              (static_as_adaptive sm).distribution.getD s 0 *
                (c.length >>> DM_LengthShift)) *
              256 ^ j +
            (static_as_adaptive sm).distribution.getD s 0 *
              (c.length >>> DM_LengthShift) * 256 ^ j =
            d.value * 256 ^ j := by
          rw [← Nat.add_mul]
          congr 1
          omega
        have hGx : (256 : Nat) ^ j * (beVal c.code_buffer * U32 + c.base +
              (static_as_adaptive sm).distribution.getD s 0 *
                (c.length >>> DM_LengthShift)) =
            (beVal c.code_buffer * U32 + c.base) * 256 ^ j +
              (static_as_adaptive sm).distribution.getD s 0 *
                (c.length >>> DM_LengthShift) *
                256 ^ j := by
          ring
        have hKv : d.value * 256 ^ j +
            (beVal c.code_buffer * U32 + c.base) * 256 ^ j =
            beVal (padTake B (c.ac_pointer + 4)) * 256 ^ j := by
          rw [← Nat.add_mul, hdv]
        omega
    have hdecS : ac_decode_static d sm =
        (s, dec_update d
          ((static_as_adaptive sm).distribution.getD s 0 *
            (c.length >>> DM_LengthShift))
          (if s = N - 1 then c.length
           else (static_as_adaptive sm).distribution.getD (s + 1) 0 *
             (c.length >>> DM_LengthShift))) := by
      rw [decode_static_as_adaptive d sm, hdec]
    have hrest := ih (ac_encode_adaptive c s (static_as_adaptive sm)).1
      (dec_update d
        ((static_as_adaptive sm).distribution.getD s 0 *
          (c.length >>> DM_LengthShift))
        (if s = N - 1 then c.length
         else (static_as_adaptive sm).distribution.getD (s + 1) 0 *
           (c.length >>> DM_LengthShift)))
      p8 (fun u hu => hall u (List.mem_cons_of_mem _ hu)) hsim1 hcont
    have hlen : (s :: rest).length = rest.length + 1 := rfl
    rw [hlen, decode_static_list_step rest.length hdecS rfl, hrest]

/-- Static half of the C1 round trip: encoding with `ac_encode_static`
against a well-formed static model, stopping the encoder, and decoding the
produced bytes with `ac_decode_static` against the same model returns the
encoded symbols. -/
theorem static_round_trip (N tb : Nat) (sm : static_data_model) (S : List Nat)
    (hN : 2 ≤ N) (hS : ∀ s ∈ S, s < N) (hsm : static_model_ok N tb sm) :
    static_session_decode sm (static_session_encode sm S).2 S.length = S := by
  show (decode_static_list (ac_start_decoder (codec_on
      (ac_stop_encoder (encode_static_list (ac_start_encoder (codec_on []))
        sm S)).2.code_buffer)) sm S.length).1 = S
  have hinv0 : enc_inv (ac_start_encoder (codec_on [])) := by decide
  have hinvF : enc_inv (encode_static_list (ac_start_encoder (codec_on []))
      sm S) :=
    encode_static_list_inv N tb hN sm hsm S _ hinv0 hS
  obtain ⟨hcontF, hBb⟩ := stop_exact
    (encode_static_list (ac_start_encoder (codec_on [])) sm S) hinvF
  have hcont0 := encode_static_backprop N tb hN
    (ac_stop_encoder (encode_static_list (ac_start_encoder (codec_on []))
      sm S)).2.code_buffer hBb sm hsm S
    (ac_start_encoder (codec_on [])) hinv0 hS hcontF
  simp only [contain] at hcont0
  have hv : (ac_start_decoder (codec_on
      (ac_stop_encoder (encode_static_list (ac_start_encoder (codec_on []))
        sm S)).2.code_buffer)).value =
      beVal (padTake (ac_stop_encoder (encode_static_list
        (ac_start_encoder (codec_on []))
        sm S)).2.code_buffer 4) := by
    rw [beVal_padTake_four]
    rfl
  have hsim0 : dec_sim
      (ac_stop_encoder (encode_static_list (ac_start_encoder (codec_on []))
        sm S)).2.code_buffer
      (ac_start_encoder (codec_on []))
      (ac_start_decoder (codec_on
        (ac_stop_encoder (encode_static_list (ac_start_encoder (codec_on []))
          sm S)).2.code_buffer)) := by
    refine ⟨rfl, rfl, rfl, rfl, ?_, ?_⟩
    · have h00 : beVal (ac_start_encoder (codec_on [])).code_buffer * U32 +
          (ac_start_encoder (codec_on [])).base = 0 := rfl
      rw [h00, Nat.add_zero]
      exact hv
    · have h2 := hcont0.2
      have h0f : beVal (ac_start_encoder (codec_on [])).code_buffer * U32 +
          (ac_start_encoder (codec_on [])).base +
          (ac_start_encoder (codec_on [])).length = AC_MaxLength := rfl
      rw [h0f] at h2
      show (ac_start_decoder (codec_on
        (ac_stop_encoder (encode_static_list (ac_start_encoder (codec_on []))
          sm S)).2.code_buffer)).value < AC_MaxLength
      rw [hv]
      have hidx : (ac_start_encoder (codec_on [])).ac_pointer + 4 = 4 := rfl
      rw [hidx] at h2
      exact h2
  exact static_sim N tb hN
    (ac_stop_encoder (encode_static_list (ac_start_encoder (codec_on []))
      sm S)).2.code_buffer hBb sm hsm S
    (ac_start_encoder (codec_on []))
    (ac_start_decoder (codec_on
      (ac_stop_encoder (encode_static_list (ac_start_encoder (codec_on []))
        sm S)).2.code_buffer))
    hinv0 hS hsim0 hcontF

/-- C1: round-trip for both model flavors — for every alphabet size `N` with
`2 ≤ N ≤ 2048` and every finite symbol sequence `S` over `{0..N-1}`,
encoding `S` with `ac_encode_adaptive` from a freshly reset adaptive model,
stopping the encoder, then decoding `|S|` symbols with `ac_decode_adaptive`
on an identically initialized model yields exactly `S`; and encoding `S`
with `ac_encode_static` against a well-formed static model (the shape
`static_data_model_set_distribution` produces, see `static_build_ok`),
stopping the encoder, then decoding `|S|` symbols with `ac_decode_static`
against the same model also yields exactly `S`. -/
theorem coding_round_trip (N tb : Nat) (S : List Nat)
    (sm : static_data_model)
    (hN : 2 ≤ N) (hN2 : N ≤ 2048) (hS : ∀ s ∈ S, s < N)
    (hsm : static_model_ok N tb sm) :
    adaptive_session_decode N (adaptive_session_encode N S).2 S.length = S ∧
    static_session_decode sm (static_session_encode sm S).2 S.length = S :=
  ⟨adaptive_round_trip N S hN hN2 hS, static_round_trip N tb sm S hN hS hsm⟩

/-- A concrete well-formed static model on 3 symbols. -/
def static_witness_model : static_data_model :=
  { distribution := [0, 11000, 22000], decoder_table := []
    data_symbols := 3, last_symbol := 2, table_size := 0, table_shift := 0 }

/-- Witness for C1 on concrete sessions: alphabet size 3, three symbols,
through both the adaptive and the static flavor. -/
theorem coding_round_trip_witness :
    ((2 : Nat) ≤ 3 ∧ (3 : Nat) ≤ 2048 ∧ (∀ s ∈ ([2, 0, 1] : List Nat), s < 3) ∧
      static_model_ok 3 0 static_witness_model) ∧
    (adaptive_session_decode 3 (adaptive_session_encode 3 [2, 0, 1]).2
        ([2, 0, 1] : List Nat).length = [2, 0, 1] ∧
      static_session_decode static_witness_model
        (static_session_encode static_witness_model [2, 0, 1]).2
        ([2, 0, 1] : List Nat).length = [2, 0, 1]) :=
  ⟨⟨by norm_num, by norm_num, by decide,
      ⟨rfl, rfl,
        ⟨rfl, rfl, by norm_num,
          by simp [static_witness_model, List.chain'_cons], by decide⟩,
        rfl, fun _ => ⟨rfl, rfl⟩, fun h => absurd h (by decide)⟩⟩,
    coding_round_trip 3 0 [2, 0, 1] static_witness_model (by norm_num)
      (by norm_num) (by decide)
      ⟨rfl, rfl,
        ⟨rfl, rfl, by norm_num,
          by simp [static_witness_model, List.chain'_cons], by decide⟩,
        rfl, fun _ => ⟨rfl, rfl⟩, fun h => absurd h (by decide)⟩⟩

end AC
